import Mathlib

/-!
# LL(1) table construction and predictive parsing (labs/lab8/parser.cpp)

A shallow embedding of `parser.cpp`: the grammar model, the FIRST and FOLLOW
fixed-point solvers, `first_of_sequence`, the LL(1) table builder and the two
predictive parsers, followed by the properties proved about them.

Modelling conventions.
* `unordered_set<string>` is a duplicate-free `List String`; iteration is list
  order and `insert` appends a new element.  `unordered_map<string, V>` is an
  association list; `find` returns the first binding of a key, `operator[]=`
  replaces the binding in place or appends a new one.  The general theorems
  speak of membership and lookup only, and quantify over every list, so they
  hold for each iteration order of the containers.
* A C++ exception is a value of `ParseError` in `Except`.
* The `while` loops run on fuel: `none` means the fuel ran out.  The two
  fixed-point solvers are given a fuel computed from the grammar, and the
  theorems show that this fuel is always enough.
* `size_t` and `int` indices are unbounded (`Nat`, `Int`).
-/

namespace FLCD

/-! ## Data model -/

def EPSILON : String := "epsilon"
def ENDMARK : String := "$"

abbrev SetSS := List String

/-- Association-list model of `unordered_map<string, V>`. -/
abbrev AMap (V : Type) := List (String × V)

abbrev FirstFollow := AMap SetSS
abbrev Row := AMap (List String)
abbrev LL1Table := AMap Row

structure Grammar where
  nonterminals : List String
  terminals : List String
  start_symbol : String
  productions : AMap (List (List String))

def is_terminal (g : Grammar) (s : String) : Bool := decide (s ∈ g.terminals)
def is_nonterminal (g : Grammar) (s : String) : Bool := decide (s ∈ g.nonterminals)

inductive ParseError where
  | conflict (A a : String)
  | mismatch (expected got : String) (pos : Nat)
  | no_rule (top current : String)
  | unknown_symbol (top : String)
  | out_of_range (i : Nat)
  deriving DecidableEq, Repr

structure Node where
  index : Int
  symbol : String
  father : Int
  sibling : Int
  deriving DecidableEq, Repr

/-! ## Containers -/

/-- The call `m.find(k)`: the bound value, or `none` for `end()`. -/
def find {V : Type} : AMap V → String → Option V
  | [], _ => none
  | (k, v) :: m, x => if k = x then some v else find m x

/-- The assignment `m[k] = v`. -/
def assign {V : Type} : AMap V → String → V → AMap V
  | [], x, s => [(x, s)]
  | (k, v) :: m, x, s => if k = x then (k, s) :: m else (k, v) :: assign m x s

/-- The value of `m[k]` for a set-valued map: a missing key reads as the empty set. -/
def get (m : FirstFollow) (k : String) : SetSS := (find m k).getD []

/-- The effect of evaluating `m[k]` on the map itself: a missing key is created empty. -/
def touch (m : FirstFollow) (k : String) : FirstFollow :=
  if (find m k).isNone then assign m k [] else m

/-- The call `s.insert(x)` on a set. -/
def ss_insert (s : SetSS) (x : String) : SetSS := if x ∈ s then s else s ++ [x]

/-- The set built by inserting the elements of `src` into `dst` one by one. -/
def insert_all (dst src : SetSS) : SetSS := src.foldl ss_insert dst

/-- The loop `while (changed) \x7b changed = false; body \x7d` run on fuel, where
`pass` is the body and returns the new state with the final value of `changed`. -/
def fix_loop {σ : Type} (pass : σ → σ × Bool) : Nat → σ → Option σ
  | 0, _ => none
  | n + 1, s => if (pass s).2 then fix_loop pass n (pass s).1 else some (pass s).1

/-! ## FIRST sets (`compute_first_sets`, lines 95-143) -/

/-- The statement `if (first[A].insert(a).second) changed = true;`. -/
def first_insert (A a : String) (st : FirstFollow × Bool) : FirstFollow × Bool :=
  (assign st.1 A (ss_insert (get st.1 A) a), st.2 || decide (a ∉ get st.1 A))

/-- Lines 123-127: every `a` of `first[X]` other than epsilon goes into `first[A]`. -/
def first_add (A : String) : List String → FirstFollow × Bool → FirstFollow × Bool
  | [], st => st
  | a :: rest, st =>
    if a ≠ EPSILON then first_add A rest (first_insert A a st) else first_add A rest st

/-- Lines 117-133: the scan of a right-hand side; the third component is
`nullable_prefix` at loop exit. -/
def first_scan (A : String) : List String → FirstFollow × Bool → FirstFollow × Bool × Bool
  | [], st => (st.1, st.2, true)
  | X :: rest, st =>
    let first1 := if (find st.1 X).isNone then assign st.1 X [X] else st.1
    let st2 := first_add A (get first1 X) (first1, st.2)
    if EPSILON ∈ get st2.1 X then first_scan A rest st2 else (st2.1, st2.2, false)

/-- Lines 109-138: the body of the loop over the alternatives of `A`. -/
def first_prod (A : String) (st : FirstFollow × Bool) (rhs : List String) : FirstFollow × Bool :=
  if rhs = [EPSILON] then first_insert A EPSILON st
  else
    let r := first_scan A rhs st
    if r.2.2 then first_insert A EPSILON (r.1, r.2.1) else (r.1, r.2.1)

/-- Lines 104-139: one pass over all productions, starting with `changed = false`. -/
def first_pass (g : Grammar) (first : FirstFollow) : FirstFollow × Bool :=
  g.productions.foldl (fun st kv => kv.2.foldl (first_prod kv.1) st) (first, false)

/-- Lines 98-100. -/
def first_init (g : Grammar) : FirstFollow :=
  assign
    (g.nonterminals.foldl (fun f nt => assign f nt [])
      (g.terminals.foldl (fun f t => assign f t [t]) []))
    EPSILON [EPSILON]

/-- Every symbol that occurs in the grammar, plus epsilon. -/
def symbols (g : Grammar) : List String :=
  EPSILON :: (g.terminals ++ g.nonterminals ++
    g.productions.flatMap (fun kv => kv.1 :: kv.2.flatten))

def compute_first_sets (g : Grammar) : Option FirstFollow :=
  fix_loop (first_pass g) ((symbols g).length ^ 2 + 1) (first_init g)

/-! ## FIRST of a sequence (`first_of_sequence`, lines 145-165) -/

/-- Line 153: the FIRST set of one symbol, `X` itself when `X` has no entry. -/
def sym_first (first_sets : FirstFollow) (X : String) : SetSS :=
  match find first_sets X with
  | none => [X]
  | some s => s

/-- Lines 151-161; the second component is `nullable_prefix` at loop exit. -/
def fos_scan (first_sets : FirstFollow) : List String → SetSS → SetSS × Bool
  | [], result => (result, true)
  | X :: rest, result =>
    let result1 := insert_all result ((sym_first first_sets X).filter (fun a => a ≠ EPSILON))
    if EPSILON ∈ sym_first first_sets X then fos_scan first_sets rest result1
    else (result1, false)

def first_of_sequence (seq : List String) (first_sets : FirstFollow) : SetSS :=
  if seq = [] ∨ seq = [EPSILON] then [EPSILON]
  else
    let r := fos_scan first_sets seq []
    if r.2 then ss_insert r.1 EPSILON else r.1

/-! ## FOLLOW sets (`compute_follow_sets`, lines 167-211) -/

/-- Lines 190-200: the trailer after a nonterminal `X` has been passed. -/
def next_trailer (first_sets : FirstFollow) (X : String) (trailer : SetSS) : SetSS :=
  let first_X := get first_sets X
  if EPSILON ∈ first_X then
    insert_all trailer (insert_all [] (first_X.filter (fun a => a ≠ EPSILON)))
  else insert_all [] (first_X.filter (fun a => a ≠ EPSILON))

/-- Lines 182-205, over the right-hand side in reverse; the state is
`(follow, changed, trailer)`. -/
def follow_scan (g : Grammar) (first_sets : FirstFollow) :
    List String → FirstFollow × Bool × SetSS → FirstFollow × Bool × SetSS
  | [], st => st
  | X :: rest, st =>
    if is_nonterminal g X then
      let before := (get st.1 X).length
      let follow1 := assign st.1 X (insert_all (get st.1 X) st.2.2)
      let changed1 := st.2.1 || decide ((get follow1 X).length > before)
      follow_scan g first_sets rest (follow1, changed1, next_trailer first_sets X st.2.2)
    else follow_scan g first_sets rest (st.1, st.2.1, [X])

/-- Lines 179-206: the body of the loop over the alternatives of `A`. -/
def follow_prod (g : Grammar) (first_sets : FirstFollow) (A : String)
    (st : FirstFollow × Bool) (rhs : List String) : FirstFollow × Bool :=
  let follow0 := touch st.1 A
  let r := follow_scan g first_sets rhs.reverse (follow0, st.2, get follow0 A)
  (r.1, r.2.1)

def follow_pass (g : Grammar) (first_sets : FirstFollow) (follow : FirstFollow) :
    FirstFollow × Bool :=
  g.productions.foldl (fun st kv => kv.2.foldl (follow_prod g first_sets kv.1) st) (follow, false)

/-- Lines 169-170. -/
def follow_init (g : Grammar) : FirstFollow :=
  let follow := g.nonterminals.foldl (fun f nt => assign f nt []) []
  assign follow g.start_symbol (ss_insert (get follow g.start_symbol) ENDMARK)

/-- Every symbol a FOLLOW set or key can hold. -/
def follow_symbols (g : Grammar) (first_sets : FirstFollow) : List String :=
  ENDMARK :: g.start_symbol :: (symbols g ++ first_sets.flatMap (fun kv => kv.2))

def compute_follow_sets (g : Grammar) (first_sets : FirstFollow) : Option FirstFollow :=
  fix_loop (follow_pass g first_sets) ((follow_symbols g first_sets).length ^ 2 + 1)
    (follow_init g)

/-! ## LL(1) table (`build_ll1_table`, lines 213-247) -/

/-- The cell `table[A][a]`, `none` when the row or the cell is absent. -/
def cell (table : LL1Table) (A a : String) : Option (List String) :=
  match find table A with
  | none => none
  | some row => find row a

/-- The assignment `table[A][a] = rhs`. -/
def table_set (table : LL1Table) (A a : String) (rhs : List String) : LL1Table :=
  assign table A (assign ((find table A).getD []) a rhs)

/-- Lines 226-229 (and 236-239): the conflict check, then the write.  The row
that `table[A].count(a)` may create is created by the write that follows. -/
def table_put (A : String) (rhs : List String) (table : LL1Table) (a : String) :
    Except ParseError LL1Table :=
  if (cell table A a).isSome then .error (.conflict A a) else .ok (table_set table A a rhs)

/-- Lines 224-230. -/
def table_first (A : String) (rhs : List String) : List String → LL1Table →
    Except ParseError LL1Table
  | [], t => .ok t
  | a :: rest, t =>
    if a = EPSILON then table_first A rhs rest t
    else
      match table_put A rhs t a with
      | .error e => .error e
      | .ok t1 => table_first A rhs rest t1

/-- Lines 235-240. -/
def table_follow (A : String) (rhs : List String) : List String → LL1Table →
    Except ParseError LL1Table
  | [], t => .ok t
  | b :: rest, t =>
    match table_put A rhs t b with
    | .error e => .error e
    | .ok t1 => table_follow A rhs rest t1

/-- Lines 221-243: the body of the loop over the alternatives of `A`. -/
def table_prod (first_sets follow_sets : FirstFollow) (A : String) (t : LL1Table)
    (rhs : List String) : Except ParseError LL1Table :=
  let first_rhs := first_of_sequence rhs first_sets
  match table_first A rhs first_rhs t with
  | .error e => .error e
  | .ok t1 =>
    if EPSILON ∈ first_rhs then
      match find follow_sets A with
      | none => .ok t1
      | some fs => table_follow A rhs fs t1
    else .ok t1

def table_alts (first_sets follow_sets : FirstFollow) (A : String) :
    List (List String) → LL1Table → Except ParseError LL1Table
  | [], t => .ok t
  | rhs :: rest, t =>
    match table_prod first_sets follow_sets A t rhs with
    | .error e => .error e
    | .ok t1 => table_alts first_sets follow_sets A rest t1

def table_prods (first_sets follow_sets : FirstFollow) :
    AMap (List (List String)) → LL1Table → Except ParseError LL1Table
  | [], t => .ok t
  | kv :: rest, t =>
    match table_alts first_sets follow_sets kv.1 kv.2 t with
    | .error e => .error e
    | .ok t1 => table_prods first_sets follow_sets rest t1

def build_ll1_table (g : Grammar) (first_sets follow_sets : FirstFollow) :
    Except ParseError LL1Table :=
  table_prods first_sets follow_sets g.productions
    (g.nonterminals.foldl (fun t nt => assign t nt []) [])

/-! ## The predictive parsers (`parse_sequence`, `parse_with_tree`, lines 256-348) -/

/-- One iteration of a parser loop: go on with a new state, or leave the loop. -/
inductive Step (σ ρ : Type) where
  | next (s : σ)
  | halt (r : Except ParseError ρ)

/-- A parser loop run on fuel. -/
def run_loop {σ ρ : Type} (step : σ → Step σ ρ) : Nat → σ → Option (Except ParseError ρ)
  | 0, _ => none
  | n + 1, s =>
    match step s with
    | .halt r => some r
    | .next s1 => run_loop step n s1

/-- Line 283: the right-hand side is pushed last symbol first.  The stack is a
list whose head is the top (`st.back()`). -/
def push_rhs (rhs : List String) (st : List String) : List String :=
  rhs.reverse.foldl (fun s x => x :: s) st

/-- State of `parse_sequence`: the stack, the cursor `i`, and `productions_used`. -/
structure SeqState where
  st : List String
  i : Nat
  used : List (String × List String)

/-- Lines 267-290: the loop test followed by one run of the loop body;
`tokens` already ends with the end-marker (line 261). -/
def seq_step (g : Grammar) (table : LL1Table) (tokens : List String) (s : SeqState) :
    Step SeqState (List (String × List String)) :=
  match s.st with
  | [] => .halt (.ok s.used)
  | top :: st1 =>
    match tokens[s.i]? with
    | none => .halt (.error (.out_of_range s.i))
    | some current =>
      if is_terminal g top || decide (top = ENDMARK) then
        if top = current then
          if current = ENDMARK ∧ st1 = [] then .halt (.ok s.used)
          else .next ⟨st1, s.i + 1, s.used⟩
        else .halt (.error (.mismatch top current s.i))
      else if is_nonterminal g top then
        match cell table top current with
        | none => .halt (.error (.no_rule top current))
        | some rhs =>
          let used1 := s.used ++ [(top, rhs)]
          let st2 := if rhs = [EPSILON] then st1 else push_rhs rhs st1
          if current = ENDMARK ∧ st2 = [] then .halt (.ok used1)
          else .next ⟨st2, s.i, used1⟩
      else .halt (.error (.unknown_symbol top))

def parse_sequence (g : Grammar) (table : LL1Table) (tokens : List String) (fuel : Nat) :
    Option (Except ParseError (List (String × List String))) :=
  run_loop (seq_step g table (tokens ++ [ENDMARK])) fuel ⟨[g.start_symbol, ENDMARK], 0, []⟩

/-- Lines 271-272: the token the iteration that starts in state `s` matches, when
that iteration pops a terminal or the end-marker equal to the token under the
cursor (`if (top == current) i++`); `none` for every other iteration. -/
def seq_match (g : Grammar) (tokens : List String) (s : SeqState) : Option String :=
  match s.st with
  | [] => none
  | top :: _ =>
    match tokens[s.i]? with
    | none => none
    | some current =>
      if is_terminal g top || decide (top = ENDMARK) then
        if top = current then some current else none
      else none

/-- The tokens matched, in order, by the first `n` iterations of the loop of
`parse_sequence` from state `s`. -/
def matched (g : Grammar) (table : LL1Table) (tokens : List String) :
    Nat → SeqState → List String
  | 0, _ => []
  | n + 1, s =>
    (seq_match g tokens s).toList ++
      (match seq_step g table tokens s with
       | .next s1 => matched g table tokens n s1
       | .halt _ => [])

/-- The assignment `nodes[idx].sibling = sib`.  A subscript outside the array,
which the source leaves undefined, writes nothing. -/
def set_sibling (nodes : List Node) (idx sib : Int) : List Node :=
  if idx < 0 then nodes
  else
    match nodes[idx.toNat]? with
    | none => nodes
    | some n => nodes.set idx.toNat { n with sibling := sib }

/-- The cast `(int)n` of a `size_t` value (line 327): the value modulo 2^32 read
as a signed 32-bit integer, so that 2^31 becomes -2^31. -/
def to_int (n : Nat) : Int :=
  if n % 4294967296 < 2147483648 then ((n % 4294967296 : Nat) : Int)
  else ((n % 4294967296 : Nat) : Int) - 4294967296

/-- Lines 326-330: one node per symbol of the right-hand side; the state is
`(nodes, child_indices)`.  The index is `(int)nodes.size()`. -/
def alloc_children (top_idx : Int) (rhs : List String) (nodes : List Node) :
    List Node × List Int :=
  rhs.foldl
    (fun acc sym =>
      let idx : Int := to_int acc.1.length
      (acc.1 ++ [Node.mk idx sym top_idx (-1)], acc.2 ++ [idx]))
    (nodes, [])

/-- Lines 332-334. -/
def link_siblings (child_indices : List Int) (nodes : List Node) : List Node :=
  (List.range (child_indices.length - 1)).foldl
    (fun ns j => set_sibling ns (child_indices.getD j 0) (child_indices.getD (j + 1) 0))
    nodes

/-- Lines 336-338. -/
def push_children (rhs : List String) (child_indices : List Int) (st : List (String × Int)) :
    List (String × Int) :=
  (List.range rhs.length).reverse.foldl
    (fun s k => (rhs.getD k "", child_indices.getD k 0) :: s) st

/-- State of `parse_with_tree`: the node array, the stack and the cursor `i`. -/
structure TreeState where
  nodes : List Node
  st : List (String × Int)
  i : Nat

/-- Lines 308-345: the loop test followed by one run of the loop body. -/
def tree_step (g : Grammar) (table : LL1Table) (tokens : List String) (s : TreeState) :
    Step TreeState (List Node) :=
  match s.st with
  | [] => .halt (.ok s.nodes)
  | (top_sym, top_idx) :: st1 =>
    match tokens[s.i]? with
    | none => .halt (.error (.out_of_range s.i))
    | some current =>
      if is_terminal g top_sym || decide (top_sym = ENDMARK) then
        if top_sym = current then
          if current = ENDMARK ∧ st1 = [] then .halt (.ok s.nodes)
          else .next ⟨s.nodes, st1, s.i + 1⟩
        else .halt (.error (.mismatch top_sym current s.i))
      else if is_nonterminal g top_sym then
        match cell table top_sym current with
        | none => .halt (.error (.no_rule top_sym current))
        | some rhs =>
          if rhs = [EPSILON] then
            if current = ENDMARK ∧ st1 = [] then .halt (.ok s.nodes)
            else .next ⟨s.nodes, st1, s.i⟩
          else
            let a := alloc_children top_idx rhs s.nodes
            let nodes2 := link_siblings a.2 a.1
            let st2 := push_children rhs a.2 st1
            if current = ENDMARK ∧ st2 = [] then .halt (.ok nodes2)
            else .next ⟨nodes2, st2, s.i⟩
      else .halt (.error (.unknown_symbol top_sym))

def parse_with_tree (g : Grammar) (table : LL1Table) (tokens : List String) (fuel : Nat) :
    Option (Except ParseError (List Node)) :=
  run_loop (tree_step g table (tokens ++ [ENDMARK])) fuel
    ⟨[Node.mk 0 g.start_symbol (-1) (-1)], [(g.start_symbol, 0), (ENDMARK, -1)], 0⟩

/-! ## Specification vocabulary: leftmost derivations -/

/-- Apply the production `p` to the leftmost nonterminal of a sentential form;
`none` when the form has no nonterminal or its leftmost one is not the left-hand
side of `p`.  An `[epsilon]` right-hand side is replaced by nothing. -/
def apply_leftmost (g : Grammar) (p : String × List String) : List String → Option (List String)
  | [] => none
  | X :: rest =>
    if is_nonterminal g X then
      if X = p.1 then some ((if p.2 = [EPSILON] then [] else p.2) ++ rest) else none
    else (apply_leftmost g p rest).map (fun r => X :: r)

/-- Replay a production list as a leftmost derivation from a sentential form. -/
def replay (g : Grammar) : List (String × List String) → List String → Option (List String)
  | [], form => some form
  | p :: ps, form => (apply_leftmost g p form).bind (replay g ps)

/-- The grammar of scenario 1: `S -> a S b | epsilon`. -/
def scenario1 : Grammar :=
  ⟨["S"], ["a", "b"], "S", [("S", [["a", "S", "b"], ["epsilon"]])]⟩

def scenario1_first : FirstFollow :=
  [("a", ["a"]), ("b", ["b"]), ("S", ["a", "epsilon"]), ("epsilon", ["epsilon"])]

def scenario1_follow : FirstFollow := [("S", ["$", "b"])]

def scenario1_table : LL1Table :=
  [("S", [("a", ["a", "S", "b"]), ("$", ["epsilon"]), ("b", ["epsilon"])])]

/-! ## Invariants -/

/-- The invariant of `parse_sequence`: the productions used so far replay to a
form which, with the end-marker appended, is the matched input followed by the stack. -/
def SeqInv (g : Grammar) (tokens : List String) (s : SeqState) : Prop :=
  ∃ form, replay g s.used [g.start_symbol] = some form ∧
    form ++ [ENDMARK] = (tokens ++ [ENDMARK]).take s.i ++ s.st

/-- The cells a production `A -> rhs` writes, in the order of lines 224-241. -/
def prod_cells (first_sets follow_sets : FirstFollow) (A : String) (rhs : List String) :
    List String :=
  (first_of_sequence rhs first_sets).filter (fun a => a ≠ EPSILON) ++
    (if EPSILON ∈ first_of_sequence rhs first_sets then get follow_sets A else [])

/-- All table writes `((A, a), rhs)` of `build_ll1_table`, in execution order. -/
def table_writes (first_sets follow_sets : FirstFollow) (prods : AMap (List (List String))) :
    List ((String × String) × List String) :=
  prods.flatMap (fun kv =>
    kv.2.flatMap (fun rhs =>
      (prod_cells first_sets follow_sets kv.1 rhs).map (fun a => ((kv.1, a), rhs))))

/-- A list of writes executed with the conflict check of `table_put`. -/
def put_writes : List ((String × String) × List String) → LL1Table → Except ParseError LL1Table
  | [], t => .ok t
  | w :: rest, t =>
    match table_put w.1.1 w.2 t w.1.2 with
    | .error e => .error e
    | .ok t1 => put_writes rest t1

/-- Every key and every element of the set-valued map `F` is in `S`. -/
def FInv (S : List String) (F : FirstFollow) : Prop :=
  ∀ k a, a ∈ get F k → k ∈ S ∧ a ∈ S

/-- The number of pairs `(k, a)` over `S` with `a` in `F[k]`: the termination
measure of both fixed-point loops. -/
def pairs_in (S : List String) (F : FirstFollow) : Nat :=
  ((List.product S S).filter (fun p => decide (p.2 ∈ get F p.1))).length

/-- The closure condition of one production `A -> rhs` on a FIRST map. -/
def first_closed_at (F : FirstFollow) (A : String) (rhs : List String) : Prop :=
  (rhs = [EPSILON] → EPSILON ∈ get F A) ∧
  (rhs ≠ [EPSILON] → ∀ a ∈ first_of_sequence rhs F, a ∈ get F A)

/-- Every key outside `D` is bound to a set that contains the key itself. -/
def OwnKeys (D : String → Prop) (F : FirstFollow) : Prop :=
  ∀ k, ¬ D k → find F k ≠ none → k ∈ get F k

/-- How a stretch of the FIRST pass relates the state `(first, changed)` before
and after it: sets and keys only grow, `changed` is set exactly when an element
was added, and while it is unset every symbol keeps its FIRST set.  `D` holds
of the left-hand sides the stretch inserts into. -/
structure FRel (S : List String) (D : String → Prop) (st st1 : FirstFollow × Bool) :
    Prop where
  mono : ∀ k a, a ∈ get st.1 k → a ∈ get st1.1 k
  keys : ∀ k, find st.1 k ≠ none → find st1.1 k ≠ none
  flag : st.2 = true → st1.2 = true
  grow : st1.2 = true → st.2 = true ∨ ∃ k a, a ∈ get st1.1 k ∧ a ∉ get st.1 k
  same : st1.2 = false → ∀ k, sym_first st1.1 k = sym_first st.1 k
  inv : FInv S st1.1
  own : OwnKeys D st.1 → OwnKeys D st1.1

/-- The right-to-left walk of lines 182-205 over a fixed FOLLOW map `W`: at every
declared nonterminal `X` the current trailer is inside `W[X]`; the trailer is
updated as in the code. -/
def follow_closed_scan (g : Grammar) (first_sets W : FirstFollow) :
    List String → SetSS → Prop
  | [], _ => True
  | X :: rest, trailer =>
    if is_nonterminal g X then
      (∀ a ∈ trailer, a ∈ get W X) ∧
        follow_closed_scan g first_sets W rest (next_trailer first_sets X trailer)
    else follow_closed_scan g first_sets W rest [X]

/-- How a stretch of the FOLLOW pass relates the state `(follow, changed)` before
and after it. -/
structure GRel (S : List String) (st st1 : FirstFollow × Bool) : Prop where
  mono : ∀ k a, a ∈ get st.1 k → a ∈ get st1.1 k
  flag : st.2 = true → st1.2 = true
  grow : st1.2 = true → st.2 = true ∨ ∃ k a, a ∈ get st1.1 k ∧ a ∉ get st.1 k
  same : st1.2 = false → ∀ k, get st1.1 k = get st.1 k
  inv : FInv S st1.1
  nd : (∀ k, (get st.1 k).Nodup) → ∀ k, (get st1.1 k).Nodup

/-- The closure condition of one production `A -> rhs` on a FOLLOW map `W`: the
walk starts with the trailer `W[A]`. -/
def follow_closed_at (g : Grammar) (first_sets W : FirstFollow) (A : String)
    (rhs : List String) : Prop :=
  follow_closed_scan g first_sets W rhs.reverse (get W A)

/-- The non-epsilon symbols `first_of_sequence` collects from a sequence: those of
the FIRST set of a symbol all of whose predecessors have epsilon in theirs. -/
def seq_first (U : FirstFollow) : List String → String → Prop
  | [], _ => False
  | X :: rest, a =>
    (a ∈ sym_first U X ∧ a ≠ EPSILON) ∨ (EPSILON ∈ sym_first U X ∧ seq_first U rest a)

/-- Every symbol of the sequence has epsilon in its FIRST set. -/
def seq_nullable (U : FirstFollow) : List String → Prop
  | [] => True
  | X :: rest => EPSILON ∈ sym_first U X ∧ seq_nullable U rest

/-- The FIRST set of every symbol under `F` is inside the one under `U`. -/
def FLe (F U : FirstFollow) : Prop := ∀ k a, a ∈ sym_first F k → a ∈ sym_first U k

/-- The productions as a list of (left-hand side, right-hand side) pairs. -/
def production_pairs (g : Grammar) : List (String × List String) :=
  g.productions.flatMap (fun kv => kv.2.map (fun rhs => (kv.1, rhs)))

/-- A grammar whose left-hand side `A` is declared neither terminal nor
nonterminal, with the production of `S` first. -/
def order_a : Grammar := ⟨["S"], ["a"], "S", [("S", [["A"]]), ("A", [["a"]])]⟩

/-- The grammar `order_a` with the production of `A` first. -/
def order_b : Grammar := ⟨["S"], ["a"], "S", [("A", [["a"]]), ("S", [["A"]])]⟩

/-- The grammar of scenario 1 with its terminals and its alternatives listed in
the opposite order. -/
def scenario1_reordered : Grammar :=
  ⟨["S"], ["b", "a"], "S", [("S", [["epsilon"], ["a", "S", "b"]])]⟩

/-- The nodes lines 326-330 append for a right-hand side, the first one at
position `n`, as long as every position is below 2^31, where the cast of line
327 changes nothing. -/
def child_block (top_idx : Int) (n : Nat) : List String → List Node
  | [] => []
  | sym :: rest => Node.mk n sym top_idx (-1) :: child_block top_idx (n + 1) rest

/-- The same nodes after lines 332-334 have linked each one to the next. -/
def linked_block (top_idx : Int) (n : Nat) : List String → List Node
  | [] => []
  | sym :: rest =>
    Node.mk n sym top_idx (if rest = [] then -1 else (n : Int) + 1)
      :: linked_block top_idx (n + 1) rest

/-- The indices `n, n+1, ..., n+m-1` held by `child_indices` while they are
below 2^31. -/
def idx_from (n : Nat) : Nat → List Int
  | 0 => []
  | m + 1 => (n : Int) :: idx_from (n + 1) m

/-- The children of the node at position `p` form one block `c, ..., c+m-1` of
the node array, chained by their sibling fields, whose symbols spell a
right-hand side stored in the table row of the symbol of `p`. -/
def Block (table : LL1Table) (nodes : List Node) (p : Nat) : Prop :=
  ∃ (c : Nat) (rhs : List String) (np : Node) (a : String),
    nodes[p]? = some np ∧ cell table np.symbol a = some rhs ∧
    (∀ (j : Nat) (m : Node), nodes[j]? = some m →
      (m.father = (p : Int) ↔ c ≤ j ∧ j < c + rhs.length)) ∧
    (∀ j, j < rhs.length → ∃ m : Node, nodes[c + j]? = some m ∧ rhs[j]? = some m.symbol ∧
      m.sibling = if j + 1 < rhs.length then ((c + j + 1 : Nat) : Int) else -1)

/-- The invariant of `parse_with_tree`. -/
structure TreeInv (g : Grammar) (table : LL1Table) (s : TreeState) : Prop where
  root : ∃ n0, s.nodes[0]? = some n0 ∧ n0.symbol = g.start_symbol ∧ n0.father = -1
  index : ∀ (k : Nat) (n : Node), s.nodes[k]? = some n → n.index = (k : Int)
  father : ∀ (k : Nat) (n : Node), s.nodes[k]? = some n → 0 < k →
    0 ≤ n.father ∧ n.father < (k : Int)
  stack : ∀ e ∈ s.st, e = (ENDMARK, -1) ∨
    ∃ (k : Nat) (n : Node), e.2 = (k : Int) ∧ s.nodes[k]? = some n ∧ n.symbol = e.1 ∧
      ∀ (j : Nat) (m : Node), s.nodes[j]? = some m → m.father ≠ (k : Int)
  distinct : (s.st.map Prod.snd).Nodup
  block : ∀ p : Nat, (∃ (j : Nat) (m : Node), s.nodes[j]? = some m ∧ m.father = (p : Int)) →
    Block table s.nodes p

/-- The node array `parse_with_tree` returns for `a a b b` in scenario 1. -/
def scenario1_tree : List Node :=
  [⟨0, "S", -1, -1⟩, ⟨1, "a", 0, 2⟩, ⟨2, "S", 0, 3⟩, ⟨3, "b", 0, -1⟩,
   ⟨4, "a", 2, 5⟩, ⟨5, "S", 2, 6⟩, ⟨6, "b", 2, -1⟩]

/-- Two FIRST maps give every symbol the same FIRST set, and the second holds
at least the elements of the first. -/
def FSim (x y : FirstFollow) : Prop :=
  (∀ k, sym_first x k = sym_first y k) ∧ (∀ k a, a ∈ get x k → a ∈ get y k)

/-- The FIRST map after `n` passes of the loop body of `compute_first_sets`. -/
def first_iter (g : Grammar) : Nat → FirstFollow
  | 0 => first_init g
  | n + 1 => (first_pass g (first_iter g n)).1


/-- The state reached after exactly `n` iterations of a parser loop, when none
of them leaves the loop. -/
def run_steps {σ ρ : Type} (step : σ → Step σ ρ) : Nat → σ → Option σ
  | 0, s => some s
  | n + 1, s =>
    match step s with
    | .halt _ => none
    | .next s1 => run_steps step n s1


/-- The stack of `parse_sequence` ends with the end-marker pushed at line 262. -/
def BottomInv (s : SeqState) : Prop := ∃ body, s.st = body ++ [ENDMARK]

/-- The end-marker is the bottom of the stack and nowhere else on it, and the
cursor is at most the position of the appended end-marker. -/
def BoundInv (tokens : List String) (s : SeqState) : Prop :=
  ∃ body, s.st = body ++ [ENDMARK] ∧ ENDMARK ∉ body ∧ s.i ≤ tokens.length


/-- The symbols of the right-hand sides of the productions of a list that are
not the `[epsilon]` production, concatenated in order. -/
def pushed_symbols (used : List (String × List String)) : List String :=
  (used.filter (fun p => decide (p.2 ≠ [EPSILON]))).flatMap (fun p => p.2)

/-- The states of the two parsers correspond: same stack symbols, same cursor,
and the nodes after the root spell the symbols pushed so far. -/
def ParseSim (ss : SeqState) (ts : TreeState) : Prop :=
  ss.st = ts.st.map Prod.fst ∧ ss.i = ts.i ∧ ts.nodes ≠ [] ∧
    (ts.nodes.drop 1).map Node.symbol = pushed_symbols ss.used

/-- The results of the two parsers correspond: the same error, or a production
list and a node array whose nodes after the root spell its pushed symbols. -/
def OutSim : Except ParseError (List (String × List String)) →
    Except ParseError (List Node) → Prop
  | .ok ps, .ok nodes => nodes ≠ [] ∧ (nodes.drop 1).map Node.symbol = pushed_symbols ps
  | .error e, .error e1 => e = e1
  | _, _ => False


/-- Every symbol on the stack of `parse_sequence` is a declared terminal, a
declared nonterminal or the end-marker. -/
def KnownInv (g : Grammar) (s : SeqState) : Prop :=
  ∀ X ∈ s.st, X ∈ g.terminals ∨ X ∈ g.nonterminals ∨ X = ENDMARK

/-- A grammar whose only production has the undeclared symbol `x` as its
right-hand side. -/
def undeclared_rhs : Grammar := ⟨["S"], [], "S", [("S", [["x"]])]⟩

/-- A grammar whose start symbol `S` is declared neither terminal nor
nonterminal. -/
def undeclared_start : Grammar := ⟨["A"], ["a"], "S", [("A", [["a"]])]⟩


/-! ## Specification vocabulary: derivations -/

/-- One derivation step: an occurrence of the left-hand side of a production is
replaced by its right-hand side, the `[epsilon]` right-hand side by nothing. -/
inductive DerivStep (g : Grammar) : List String → List String → Prop
  | mk (α β : List String) (A : String) (rhs : List String) :
      (A, rhs) ∈ production_pairs g →
      DerivStep g (α ++ A :: β) (α ++ ((if rhs = [EPSILON] then [] else rhs) ++ β))

/-- Derivation in zero or more steps. -/
inductive Derives (g : Grammar) : List String → List String → Prop
  | done (u : List String) : Derives g u u
  | step (u v w : List String) : DerivStep g u v → Derives g v w → Derives g u w

/-- The symbol derives the empty sequence, as a derivation tree. -/
inductive NullD (g : Grammar) : String → Prop
  | mk (A : String) (rhs : List String) :
      (A, rhs) ∈ production_pairs g → (rhs ≠ [EPSILON] → ∀ Y ∈ rhs, NullD g Y) → NullD g A

/-- The symbol derives a sequence that begins with `c`, as a derivation tree:
a symbol that is not a nonterminal begins itself, and a left-hand side begins
what the first symbol after a nullable stretch of a right-hand side begins. -/
inductive FirstD (g : Grammar) : String → String → Prop
  | self (X : String) : X ∉ g.nonterminals → X ≠ EPSILON → FirstD g X X
  | prod (A : String) (pre : List String) (Y : String) (post : List String) (c : String) :
      (A, pre ++ Y :: post) ∈ production_pairs g → pre ++ Y :: post ≠ [EPSILON] →
      (∀ Z ∈ pre, NullD g Z) → FirstD g Y c → FirstD g A c

/-- The grammars of the reference definitions: the declared terminals and
nonterminals are disjoint and hold neither epsilon nor the end-marker, every
left-hand side is a declared nonterminal, and every right-hand side is either
exactly `[epsilon]` or a non-empty sequence of declared symbols. -/
structure Proper (g : Grammar) : Prop where
  disj : ∀ x ∈ g.terminals, x ∉ g.nonterminals
  eps_t : EPSILON ∉ g.terminals
  eps_n : EPSILON ∉ g.nonterminals
  end_t : ENDMARK ∉ g.terminals
  end_n : ENDMARK ∉ g.nonterminals
  lhs : ∀ p ∈ production_pairs g, p.1 ∈ g.nonterminals
  rhs : ∀ p ∈ production_pairs g, p.2 = [EPSILON] ∨
    (p.2 ≠ [] ∧ ∀ X ∈ p.2, X ∈ g.terminals ∨ X ∈ g.nonterminals)


/-- The trailer of lines 182-205 after the walk has passed the symbols of a
list, given the trailer before it. -/
def scan_trailer (g : Grammar) (first_sets : FirstFollow) : List String → SetSS → SetSS
  | [], trailer => trailer
  | X :: rest, trailer =>
    scan_trailer g first_sets rest
      (if is_nonterminal g X then next_trailer first_sets X trailer else [X])


/-- A stack of grammar symbols generates a word of terminals by leftmost
expansion: a terminal on top is the next symbol of the word, a left-hand side on
top is replaced by one of its right-hand sides. -/
inductive GenSeq (g : Grammar) : List String → List String → Prop
  | nil : GenSeq g [] []
  | term (t : String) (rest w : List String) :
      t ∈ g.terminals → GenSeq g rest w → GenSeq g (t :: rest) (t :: w)
  | prod (A : String) (rhs rest w : List String) :
      (A, rhs) ∈ production_pairs g →
      GenSeq g ((if rhs = [EPSILON] then [] else rhs) ++ rest) w → GenSeq g (A :: rest) w

/-- Every nonterminal of a form has in its FOLLOW set what the rest of the form
can begin with, and the end-marker when that rest is nullable. -/
def FollowOK (g : Grammar) (F W : FirstFollow) (st : List String) : Prop :=
  ∀ pre X post, st = pre ++ X :: post → X ∈ g.nonterminals →
    (∀ a, seq_first F post a → a ∈ get W X) ∧ (seq_nullable F post → ENDMARK ∈ get W X)


/-- The loop of `parse_sequence` started with the given stack and cursor leaves
the loop after finitely many iterations, whatever productions were recorded
before. -/
def Halts (g : Grammar) (table : LL1Table) (toks : List String) (st : List String)
    (i : Nat) : Prop :=
  ∀ used, ∃ n r, run_loop (seq_step g table toks) n ⟨st, i, used⟩ = some r


/-- A grammar whose nonterminal `A` cannot be reached from the start symbol. -/
def unreachable_lhs : Grammar :=
  ⟨["S", "A"], ["t"], "S", [("S", [["t"]]), ("A", [["A", "t"]])]⟩


/-- The right-recursive grammar `S → a S | epsilon`. -/
def chain : Grammar := ⟨["S"], ["a"], "S", [("S", [["a", "S"], ["epsilon"]])]⟩

/-- The LL(1) table of `chain`. -/
def chain_table : LL1Table := [("S", [("a", ["a", "S"]), ("$", ["epsilon"])])]

/-- The node array `parse_with_tree` has built for `chain` when `k` tokens `a`
have been read: every expansion `S → a S` appends two nodes. -/
def chain_nodes : Nat → List Node
  | 0 => [Node.mk 0 "S" (-1) (-1)]
  | k + 1 =>
    chain_nodes k ++
      [Node.mk (to_int (2 * k + 1)) "a" (to_int (2 * k)) (to_int (2 * k + 2)),
       Node.mk (to_int (2 * k + 2)) "S" (to_int (2 * k)) (-1)]

/-! # Theorems -/

/-! ## Loops on fuel -/

theorem run_loop_mono {σ ρ : Type} (step : σ → Step σ ρ) :
    ∀ (n : Nat) (s : σ) (r : Except ParseError ρ), run_loop step n s = some r →
      ∀ k, run_loop step (n + k) s = some r := by
  intro n
  induction n with
  | zero => intro s r h; simp [run_loop] at h
  | succ n ih =>
    intro s r h k
    have e : n + 1 + k = (n + k) + 1 := by omega
    rw [e]
    simp only [run_loop] at h ⊢
    cases hs : step s with
    | halt r1 => rw [hs] at h; simpa using h
    | next s1 => rw [hs] at h; simpa using ih s1 r h k

theorem run_loop_inv {σ ρ : Type} (step : σ → Step σ ρ) (Inv : σ → Prop)
    (hnext : ∀ s s1, Inv s → step s = .next s1 → Inv s1) :
    ∀ (n : Nat) (s : σ) (r : Except ParseError ρ), Inv s → run_loop step n s = some r →
      ∃ s1, Inv s1 ∧ step s1 = .halt r := by
  intro n
  induction n with
  | zero => intro s r _ h; simp [run_loop] at h
  | succ n ih =>
    intro s r hi h
    simp only [run_loop] at h
    cases hs : step s with
    | halt r1 =>
      rw [hs] at h
      simp only [Option.some.injEq] at h
      exact ⟨s, hi, by rw [hs, h]⟩
    | next s1 =>
      rw [hs] at h
      exact ih s1 r (hnext s s1 hi hs) h

/-! ## Derivation replay -/

theorem push_rhs_eq (rhs st : List String) : push_rhs rhs st = rhs ++ st := by
  unfold push_rhs
  induction rhs generalizing st with
  | nil => simp
  | cons x xs ih =>
    simp only [List.reverse_cons, List.foldl_append, List.foldl_cons, List.foldl_nil]
    rw [ih]; simp

theorem replay_append (g : Grammar) (ps : List (String × List String)) (p : String × List String)
    (form : List String) :
    replay g (ps ++ [p]) form = (replay g ps form).bind (apply_leftmost g p) := by
  induction ps generalizing form with
  | nil => simp [replay]
  | cons q qs ih =>
    simp only [List.cons_append, replay]
    cases apply_leftmost g q form with
    | none => simp
    | some f => simp [ih]

theorem apply_leftmost_append (g : Grammar) (A : String) (rhs pre rest : List String)
    (hpre : ∀ x ∈ pre, x ∉ g.nonterminals) (hA : A ∈ g.nonterminals) :
    apply_leftmost g (A, rhs) (pre ++ A :: rest)
      = some (pre ++ ((if rhs = [EPSILON] then [] else rhs) ++ rest)) := by
  induction pre with
  | nil => simp [apply_leftmost, is_nonterminal, hA]
  | cons x xs ih =>
    have hx : x ∉ g.nonterminals := hpre x (by simp)
    have := ih (fun y hy => hpre y (by simp [hy]))
    simp [apply_leftmost, is_nonterminal, hx, this]

theorem take_no_nonterminal (g : Grammar) (tokens : List String) (i : Nat)
    (hdisj : ∀ x ∈ g.terminals, x ∉ g.nonterminals) (hend : ENDMARK ∉ g.nonterminals)
    (htok : ∀ t ∈ tokens, t ∈ g.terminals) :
    ∀ x ∈ (tokens ++ [ENDMARK]).take i, x ∉ g.nonterminals := by
  intro x hx
  have hx1 := List.mem_of_mem_take hx
  rcases List.mem_append.1 hx1 with h | h
  · exact hdisj x (htok x h)
  · simp only [List.mem_singleton] at h
    rw [h]; exact hend

theorem endmark_index (tokens : List String) (i : Nat) (hno : ENDMARK ∉ tokens)
    (h : (tokens ++ [ENDMARK])[i]? = some ENDMARK) : i = tokens.length := by
  rcases Nat.lt_trichotomy i tokens.length with hlt | heq | hgt
  · rw [List.getElem?_append_left hlt] at h
    exact absurd (List.mem_iff_getElem?.2 ⟨i, h⟩) hno
  · exact heq
  · rw [List.getElem?_eq_none (by simp; omega)] at h
    cases h

theorem split_last (form P st1 : List String) (top x : String)
    (h : form ++ [x] = P ++ top :: st1) (hne : top ≠ x) :
    ∃ st0, st1 = st0 ++ [x] ∧ form = P ++ top :: st0 := by
  rcases List.eq_nil_or_concat st1 with h0 | ⟨st0, y, h1⟩
  · subst h0
    have h2 : form ++ [x] = P ++ [top] := h
    have := List.append_inj' h2 rfl
    simp at this
    exact absurd this.2.symm hne
  · subst h1
    have h2 : form ++ [x] = (P ++ top :: st0) ++ [y] := by simpa using h
    have := List.append_inj' h2 rfl
    simp at this
    exact ⟨st0, by rw [this.2]; simp, this.1⟩

theorem seq_step_next (g : Grammar) (table : LL1Table) (tokens : List String)
    (hdisj : ∀ x ∈ g.terminals, x ∉ g.nonterminals) (hend : ENDMARK ∉ g.nonterminals)
    (htok : ∀ t ∈ tokens, t ∈ g.terminals) (s s1 : SeqState)
    (hi : SeqInv g tokens s) (hs : seq_step g table (tokens ++ [ENDMARK]) s = .next s1) :
    SeqInv g tokens s1 := by
  obtain ⟨form, hrep, hform⟩ := hi
  unfold seq_step at hs
  cases hst : s.st with
  | nil => simp [hst] at hs
  | cons top st1 =>
    cases hcur : (tokens ++ [ENDMARK])[s.i]? with
    | none => simp [hst, hcur] at hs
    | some current =>
      simp only [hst, hcur] at hs
      by_cases hterm : (is_terminal g top || decide (top = ENDMARK)) = true
      · simp only [hterm, if_true] at hs
        by_cases htc : top = current
        · rw [if_pos htc] at hs
          by_cases hc : current = ENDMARK ∧ st1 = []
          · rw [if_pos hc] at hs; cases hs
          · rw [if_neg hc] at hs
            cases hs
            refine ⟨form, hrep, ?_⟩
            simp only
            rw [hform, hst, List.take_succ, hcur, htc]
            simp
        · simp [htc] at hs
      · simp only [hterm] at hs
        by_cases hA : is_nonterminal g top = true
        · simp only [hA, if_true] at hs
          cases hcell : cell table top current with
          | none => simp [hcell] at hs
          | some rhs =>
            simp only [hcell] at hs
            by_cases hc : current = ENDMARK ∧ (if rhs = [EPSILON] then st1 else push_rhs rhs st1) = []
            · rw [if_pos hc] at hs; cases hs
            · rw [if_neg hc] at hs
              cases hs
              simp only [Bool.or_eq_true, decide_eq_true_eq, not_or] at hterm
              have hA1 : top ∈ g.nonterminals := by simpa [is_nonterminal] using hA
              rw [hst] at hform
              obtain ⟨st0, hst0, hform0⟩ := split_last _ _ _ _ _ hform hterm.2
              have hap := apply_leftmost_append g top rhs _ st0
                (take_no_nonterminal g tokens s.i hdisj hend htok) hA1
              refine ⟨List.take s.i (tokens ++ [ENDMARK]) ++
                ((if rhs = [EPSILON] then [] else rhs) ++ st0), ?_, ?_⟩
              · simp only
                rw [replay_append, hrep, hform0]
                simpa using hap
              · simp only
                rw [hst0]
                by_cases he : rhs = [EPSILON]
                · simp [he]
                · simp [he, push_rhs_eq]
        · simp [hA] at hs

theorem seq_step_halt (g : Grammar) (table : LL1Table) (tokens : List String)
    (hno : ENDMARK ∉ tokens) (s : SeqState) (ps : List (String × List String))
    (hi : SeqInv g tokens s) (hs : seq_step g table (tokens ++ [ENDMARK]) s = .halt (.ok ps)) :
    replay g ps [g.start_symbol] = some tokens := by
  obtain ⟨form, hrep, hform⟩ := hi
  unfold seq_step at hs
  cases hst : s.st with
  | nil =>
    simp only [hst, Step.halt.injEq, Except.ok.injEq] at hs
    rw [hst, List.append_nil] at hform
    rw [← hs, hrep]
    by_cases hle : s.i ≤ tokens.length
    · rw [List.take_append_of_le_length hle] at hform
      have : ENDMARK ∈ tokens.take s.i := by rw [← hform]; simp
      exact absurd (List.mem_of_mem_take this) hno
    · rw [List.take_of_length_le (by simp; omega)] at hform
      have := List.append_inj' hform rfl
      rw [this.1]
  | cons top st1 =>
    cases hcur : (tokens ++ [ENDMARK])[s.i]? with
    | none => simp [hst, hcur] at hs
    | some current =>
      simp only [hst, hcur] at hs
      by_cases hterm : (is_terminal g top || decide (top = ENDMARK)) = true
      · simp only [hterm, if_true] at hs
        by_cases htc : top = current
        · rw [if_pos htc] at hs
          by_cases hc : current = ENDMARK ∧ st1 = []
          · rw [if_pos hc] at hs
            simp only [Step.halt.injEq, Except.ok.injEq] at hs
            rw [hc.1] at hcur
            have hi := endmark_index tokens s.i hno hcur
            rw [hst, hc.2, htc, hc.1] at hform
            have := List.append_inj' hform rfl
            rw [← hs, hrep, this.1, hi]
            simp
          · rw [if_neg hc] at hs; cases hs
        · simp [htc] at hs
      · simp only [hterm] at hs
        by_cases hA : is_nonterminal g top = true
        · simp only [hA, if_true] at hs
          cases hcell : cell table top current with
          | none => simp [hcell] at hs
          | some rhs =>
            simp only [hcell] at hs
            by_cases hc : current = ENDMARK ∧ (if rhs = [EPSILON] then st1 else push_rhs rhs st1) = []
            · rw [if_pos hc] at hs
              simp only [Bool.or_eq_true, decide_eq_true_eq, not_or] at hterm
              rw [hst] at hform
              obtain ⟨st0, hst0, _⟩ := split_last _ _ _ _ _ hform hterm.2
              exfalso
              have h2 := hc.2
              rw [hst0] at h2
              by_cases he : rhs = [EPSILON]
              · simp [he] at h2
              · simp [he, push_rhs_eq] at h2
            · rw [if_neg hc] at hs; cases hs
        · simp [hA] at hs

theorem parse_sequence_mono (g : Grammar) (table : LL1Table) (tokens : List String) (n : Nat)
    (r : Except ParseError (List (String × List String)))
    (h : parse_sequence g table tokens n = some r) (k : Nat) :
    parse_sequence g table tokens (n + k) = some r :=
  run_loop_mono _ n _ r h k

theorem replay_of_parse (g : Grammar) (table : LL1Table) (tokens : List String) (n : Nat)
    (ps : List (String × List String))
    (hdisj : ∀ x ∈ g.terminals, x ∉ g.nonterminals)
    (hend : ENDMARK ∉ g.terminals ∧ ENDMARK ∉ g.nonterminals)
    (htok : ∀ t ∈ tokens, t ∈ g.terminals)
    (hp : parse_sequence g table tokens n = some (.ok ps)) :
    replay g ps [g.start_symbol] = some tokens := by
  have hno : ENDMARK ∉ tokens := fun h => hend.1 (htok _ h)
  obtain ⟨s1, hi, hs⟩ := run_loop_inv (seq_step g table (tokens ++ [ENDMARK])) (SeqInv g tokens)
    (fun s s1 => seq_step_next g table tokens hdisj hend.2 htok s s1) n _ _
    ⟨[g.start_symbol], by simp [replay], by simp⟩ hp
  exact seq_step_halt g table tokens hno s1 ps hi hs

/-- C1 (derivation replay): for a grammar whose declared terminals and
nonterminals are disjoint and contain neither epsilon nor the end-marker, with the
table built from the computed FIRST and FOLLOW sets, and an input made of declared
terminals, the production list returned by `parse_sequence` replays, as a
leftmost derivation from the start symbol in which each production rewrites the
leftmost nonterminal, to exactly the input. -/
theorem derivation_replay (g : Grammar) (F W : FirstFollow) (T : LL1Table)
    (tokens : List String) (n : Nat) (ps : List (String × List String))
    (hdisj : ∀ x ∈ g.terminals, x ∉ g.nonterminals)
    (heps : EPSILON ∉ g.terminals ∧ EPSILON ∉ g.nonterminals)
    (hend : ENDMARK ∉ g.terminals ∧ ENDMARK ∉ g.nonterminals)
    (hF : compute_first_sets g = some F) (hW : compute_follow_sets g F = some W)
    (hT : build_ll1_table g F W = .ok T)
    (htok : ∀ t ∈ tokens, t ∈ g.terminals)
    (hp : parse_sequence g T tokens n = some (.ok ps)) :
    replay g ps [g.start_symbol] = some tokens :=
  replay_of_parse g T tokens n ps hdisj hend htok hp

theorem derivation_replay_witness :
    replay scenario1 [("S", ["a", "S", "b"]), ("S", ["a", "S", "b"]), ("S", ["epsilon"])]
      [scenario1.start_symbol] = some ["a", "a", "b", "b"] :=
  derivation_replay scenario1 scenario1_first scenario1_follow scenario1_table
    ["a", "a", "b", "b"] 12 _ (by decide) (by decide) (by decide) (by decide) (by decide)
    rfl (by decide) rfl

/-- C2 (scenario 1): for `S -> a S b | epsilon` the FIRST sets, FOLLOW sets and
table are built without error; `[a,a,b,b]` is accepted with the productions
`S -> a S b`, `S -> a S b`, `S -> epsilon`; `[a,b,b]` fails with the mismatch
(expected `$`, got `b`) raised with the cursor on index 2.  Both parser results
are reached with every fuel from 12 on. -/
theorem scenario1_end_to_end :
    compute_first_sets scenario1 = some scenario1_first ∧
    compute_follow_sets scenario1 scenario1_first = some scenario1_follow ∧
    build_ll1_table scenario1 scenario1_first scenario1_follow = .ok scenario1_table ∧
    (∀ k, parse_sequence scenario1 scenario1_table ["a", "a", "b", "b"] (12 + k)
      = some (.ok [("S", ["a", "S", "b"]), ("S", ["a", "S", "b"]), ("S", ["epsilon"])])) ∧
    (∀ k, parse_sequence scenario1 scenario1_table ["a", "b", "b"] (12 + k)
      = some (.error (.mismatch "$" "b" 2))) ∧
    (["a", "b", "b"] : List String)[2]? = some "b" :=
  ⟨by decide, by decide, rfl,
    fun k => parse_sequence_mono _ _ _ 12 _ (by rfl) k,
    fun k => parse_sequence_mono _ _ _ 12 _ (by rfl) k, by decide⟩

/-! ## Maps -/

theorem find_assign {V : Type} (m : AMap V) (x y : String) (s : V) :
    find (assign m x s) y = if x = y then some s else find m y := by
  induction m with
  | nil => simp [assign, find]
  | cons kv m ih =>
    obtain ⟨k, v⟩ := kv
    by_cases hk : k = x
    · subst hk
      by_cases hy : k = y <;> simp [assign, find, hy]
    · by_cases hy : k = y
      · subst hy
        have : ¬ x = k := fun h => hk h.symm
        simp [assign, find, hk, this]
      · simp [assign, find, hk, hy, ih]

theorem get_assign (m : FirstFollow) (x y : String) (s : SetSS) :
    get (assign m x s) y = if x = y then s else get m y := by
  unfold get
  rw [find_assign]
  split <;> simp

theorem get_touch (m : FirstFollow) (x y : String) : get (touch m x) y = get m y := by
  unfold touch
  split
  · rename_i h
    rw [get_assign]
    split
    · rename_i hxy
      subst hxy
      simp only [Option.isNone_iff_eq_none] at h
      simp [get, h]
    · rfl
  · rfl

theorem mem_ss_insert (s : SetSS) (x a : String) : a ∈ ss_insert s x ↔ a ∈ s ∨ a = x := by
  unfold ss_insert
  split
  · rename_i h
    constructor
    · exact Or.inl
    · rintro (h1 | h1)
      · exact h1
      · rw [h1]; exact h
  · simp

theorem mem_insert_all (dst src : SetSS) (a : String) :
    a ∈ insert_all dst src ↔ a ∈ dst ∨ a ∈ src := by
  unfold insert_all
  induction src generalizing dst with
  | nil => simp
  | cons x xs ih =>
    simp only [List.foldl_cons, ih, mem_ss_insert, List.mem_cons]
    tauto

theorem nodup_ss_insert (s : SetSS) (x : String) (h : s.Nodup) : (ss_insert s x).Nodup := by
  unfold ss_insert
  split
  · exact h
  · rename_i hx
    rw [List.nodup_append]
    refine ⟨h, List.nodup_singleton x, ?_⟩
    intro a ha hb
    simp only [List.mem_singleton] at hb
    exact hx (hb ▸ ha)

theorem nodup_insert_all (dst src : SetSS) (h : dst.Nodup) : (insert_all dst src).Nodup := by
  unfold insert_all
  induction src generalizing dst with
  | nil => simpa using h
  | cons x xs ih => exact ih _ (nodup_ss_insert dst x h)

/-! ## The table builder as a list of writes -/

theorem cell_table_set (t : LL1Table) (A a B b : String) (rhs : List String) :
    cell (table_set t A a rhs) B b
      = if A = B ∧ a = b then some rhs else cell t B b := by
  unfold cell table_set
  rw [find_assign]
  by_cases hAB : A = B
  · subst hAB
    simp only [if_true, true_and, find_assign]
    by_cases hab : a = b
    · simp [hab]
    · simp only [hab, if_false]
      cases find t A <;> simp [find]
  · simp [hAB]

theorem find_table_set (t : LL1Table) (A a B : String) (rhs : List String) :
    (find (table_set t A a rhs) B).isSome = (decide (A = B) || (find t B).isSome) := by
  unfold table_set
  rw [find_assign]
  by_cases hAB : A = B <;> simp [hAB]

theorem table_first_eq (A : String) (rhs : List String) (l : List String) (t : LL1Table) :
    table_first A rhs l t
      = put_writes ((l.filter (fun a => a ≠ EPSILON)).map (fun a => ((A, a), rhs))) t := by
  induction l generalizing t with
  | nil => simp [table_first, put_writes]
  | cons a rest ih =>
    by_cases ha : a = EPSILON
    · simp [table_first, ha, ih]
    · simp only [table_first, ha, if_false, ne_eq, not_false_eq_true, decide_True,
        List.filter_cons_of_pos, List.map_cons, put_writes]
      cases table_put A rhs t a with
      | error e => rfl
      | ok t1 => simp [ih]

theorem table_follow_eq (A : String) (rhs : List String) (l : List String) (t : LL1Table) :
    table_follow A rhs l t = put_writes (l.map (fun a => ((A, a), rhs))) t := by
  induction l generalizing t with
  | nil => simp [table_follow, put_writes]
  | cons a rest ih =>
    simp only [table_follow, List.map_cons, put_writes]
    cases table_put A rhs t a with
    | error e => rfl
    | ok t1 => simp [ih]

theorem put_writes_append (ws1 ws2 : List ((String × String) × List String)) (t : LL1Table) :
    put_writes (ws1 ++ ws2) t
      = match put_writes ws1 t with
        | .error e => .error e
        | .ok t1 => put_writes ws2 t1 := by
  induction ws1 generalizing t with
  | nil => simp [put_writes]
  | cons w rest ih =>
    simp only [List.cons_append, put_writes]
    cases table_put w.1.1 w.2 t w.1.2 with
    | error e => rfl
    | ok t1 => simp [ih]

theorem table_prod_eq (F W : FirstFollow) (A : String) (rhs : List String) (t : LL1Table) :
    table_prod F W A t rhs
      = put_writes ((prod_cells F W A rhs).map (fun a => ((A, a), rhs))) t := by
  unfold table_prod prod_cells
  simp only [List.map_append, put_writes_append, table_first_eq]
  cases put_writes ((List.filter (fun a => decide (a ≠ EPSILON)) (first_of_sequence rhs F)).map
      (fun a => ((A, a), rhs))) t with
  | error e => rfl
  | ok t1 =>
    simp only
    by_cases he : EPSILON ∈ first_of_sequence rhs F
    · simp only [he, if_true]
      unfold get
      cases find W A with
      | none => simp [put_writes]
      | some fs => simp [table_follow_eq]
    · simp [he, put_writes]

theorem table_alts_eq (F W : FirstFollow) (A : String) (alts : List (List String))
    (t : LL1Table) :
    table_alts F W A alts t
      = put_writes (alts.flatMap (fun rhs =>
          (prod_cells F W A rhs).map (fun a => ((A, a), rhs)))) t := by
  induction alts generalizing t with
  | nil => simp [table_alts, put_writes]
  | cons rhs rest ih =>
    simp only [table_alts, List.flatMap_cons, put_writes_append, table_prod_eq]
    cases put_writes ((prod_cells F W A rhs).map (fun a => ((A, a), rhs))) t with
    | error e => rfl
    | ok t1 => simp [ih]

theorem table_prods_eq (F W : FirstFollow) (prods : AMap (List (List String))) (t : LL1Table) :
    table_prods F W prods t = put_writes (table_writes F W prods) t := by
  induction prods generalizing t with
  | nil => simp [table_prods, table_writes, put_writes]
  | cons kv rest ih =>
    simp only [table_prods, table_writes, List.flatMap_cons, put_writes_append, table_alts_eq]
    cases put_writes (kv.2.flatMap (fun rhs =>
        (prod_cells F W kv.1 rhs).map (fun a => ((kv.1, a), rhs)))) t with
    | error e => rfl
    | ok t1 =>
      simp only
      rw [ih]
      rfl

theorem put_writes_error (ws : List ((String × String) × List String)) (t : LL1Table)
    (e : ParseError) (h : put_writes ws t = .error e) : ∃ A a, e = .conflict A a := by
  induction ws generalizing t with
  | nil => simp [put_writes] at h
  | cons w rest ih =>
    simp only [put_writes, table_put] at h
    by_cases hc : (cell t w.1.1 w.1.2).isSome = true
    · simp only [hc, if_true] at h
      cases h
      exact ⟨_, _, rfl⟩
    · simp only [hc] at h
      exact ih _ h

theorem put_writes_ok (ws : List ((String × String) × List String)) (t T : LL1Table)
    (h : put_writes ws t = .ok T) :
    (∀ B b r, cell T B b = some r ↔ (cell t B b = some r ∨ ((B, b), r) ∈ ws)) ∧
    (ws.map (fun w => w.1)).Nodup ∧ (∀ w ∈ ws, cell t w.1.1 w.1.2 = none) ∧
    (∀ B, (find T B).isSome = true ↔
      ((find t B).isSome = true ∨ ∃ w ∈ ws, w.1.1 = B)) := by
  induction ws generalizing t with
  | nil =>
    simp only [put_writes, Except.ok.injEq] at h
    subst h
    simp
  | cons w rest ih =>
    obtain ⟨⟨A, a⟩, rhs⟩ := w
    simp only [put_writes, table_put] at h
    by_cases hc : (cell t A a).isSome = true
    · simp [hc] at h
    · simp only [hc] at h
      have hnone : cell t A a = none := by simpa using hc
      obtain ⟨h1, h2, h3, h4⟩ := ih _ h
      have hkey : ∀ w ∈ rest, w.1 ≠ (A, a) := by
        intro w hw hk
        have := h3 w hw
        rw [cell_table_set] at this
        have e1 : w.1.1 = A := by rw [hk]
        have e2 : w.1.2 = a := by rw [hk]
        simp [e1, e2] at this
      refine ⟨?_, ?_, ?_, ?_⟩
      · intro B b r
        rw [h1, cell_table_set]
        by_cases hAB : A = B ∧ a = b
        · obtain ⟨rfl, rfl⟩ := hAB
          simp only [and_self, if_true, Option.some.injEq, List.mem_cons, Prod.mk.injEq,
            true_and, hnone]
          constructor
          · rintro (h | h)
            · exact Or.inr (Or.inl h.symm)
            · exact Or.inr (Or.inr h)
          · rintro (h | h | h)
            · cases h
            · exact Or.inl h.symm
            · exact Or.inr h
        · simp only [hAB, if_false, List.mem_cons, Prod.mk.injEq]
          constructor
          · rintro (h | h)
            · exact Or.inl h
            · exact Or.inr (Or.inr h)
          · rintro (h | h | h)
            · exact Or.inl h
            · exact absurd ⟨h.1.1.symm, h.1.2.symm⟩ hAB
            · exact Or.inr h
      · simp only [List.map_cons, List.nodup_cons, List.mem_map, not_exists, not_and]
        exact ⟨fun w hw => hkey w hw, h2⟩
      · intro w hw
        rcases List.mem_cons.1 hw with h | h
        · rw [h]; exact hnone
        · have := h3 w h
          rw [cell_table_set] at this
          by_cases hAB : A = w.1.1 ∧ a = w.1.2
          · simp [hAB] at this
          · simpa [hAB] using this
      · intro B
        rw [h4, find_table_set]
        simp only [Bool.or_eq_true, decide_eq_true_eq, List.mem_cons, exists_eq_or_imp]
        tauto

theorem put_writes_total (ws : List ((String × String) × List String)) (t : LL1Table)
    (hnd : (ws.map (fun w => w.1)).Nodup) (hfree : ∀ w ∈ ws, cell t w.1.1 w.1.2 = none) :
    ∃ T, put_writes ws t = .ok T := by
  induction ws generalizing t with
  | nil => exact ⟨t, rfl⟩
  | cons w rest ih =>
    obtain ⟨⟨A, a⟩, rhs⟩ := w
    have hnone : cell t A a = none := hfree ((A, a), rhs) (by simp)
    simp only [put_writes, table_put, hnone, Option.isSome_none, Bool.false_eq_true, if_false]
    simp only [List.map_cons, List.nodup_cons, List.mem_map, not_exists, not_and] at hnd
    apply ih _ hnd.2
    intro w hw
    rw [cell_table_set]
    have hk := hnd.1 w hw
    by_cases hAB : A = w.1.1 ∧ a = w.1.2
    · exfalso
      apply hk
      obtain ⟨⟨x, y⟩, z⟩ := w
      simp only at hAB
      simp [hAB.1, hAB.2]
    · simp only [hAB, if_false]
      exact hfree w (by simp [hw])

theorem find_fold_rows (l : List String) (t : LL1Table) (B : String) :
    find (l.foldl (fun t nt => assign t nt ([] : Row)) t) B
      = if B ∈ l then some [] else find t B := by
  induction l generalizing t with
  | nil => simp
  | cons x xs ih =>
    simp only [List.foldl_cons, ih, find_assign, List.mem_cons]
    by_cases h1 : B ∈ xs
    · simp [h1]
    · by_cases h2 : x = B
      · simp [h1, h2]
      · have : ¬ B = x := fun h => h2 h.symm
        simp [h1, h2, this]

theorem cell_init_rows (l : List String) (B b : String) :
    cell (l.foldl (fun t nt => assign t nt ([] : Row)) []) B b = none := by
  unfold cell
  rw [find_fold_rows]
  by_cases h : B ∈ l <;> simp [h, find]

theorem build_eq_writes (g : Grammar) (F W : FirstFollow) :
    build_ll1_table g F W
      = put_writes (table_writes F W g.productions)
          (g.nonterminals.foldl (fun t nt => assign t nt ([] : Row)) []) := by
  unfold build_ll1_table
  exact table_prods_eq F W g.productions _

theorem mem_table_writes (F W : FirstFollow) (prods : AMap (List (List String)))
    (A a : String) (rhs : List String) :
    ((A, a), rhs) ∈ table_writes F W prods ↔
      (∃ alts, (A, alts) ∈ prods ∧ rhs ∈ alts) ∧ a ∈ prod_cells F W A rhs := by
  unfold table_writes
  simp only [List.mem_flatMap, List.mem_map, Prod.mk.injEq, Prod.exists]
  constructor
  · rintro ⟨k, alts, hk, r, hr, c, hc, ⟨rfl, rfl⟩, rfl⟩
    exact ⟨⟨alts, hk, hr⟩, hc⟩
  · rintro ⟨⟨alts, hk, hr⟩, hc⟩
    exact ⟨A, alts, hk, rhs, hr, a, hc, ⟨rfl, rfl⟩, rfl⟩

theorem mem_prod_cells (F W : FirstFollow) (A a : String) (rhs : List String) :
    a ∈ prod_cells F W A rhs ↔
      ((a ∈ first_of_sequence rhs F ∧ a ≠ EPSILON) ∨
        (EPSILON ∈ first_of_sequence rhs F ∧ a ∈ get W A)) := by
  unfold prod_cells
  by_cases he : EPSILON ∈ first_of_sequence rhs F <;> simp [he]

/-- C4 (table characterisation): when `build_ll1_table` succeeds, the cell
`table[A][a]` holds `rhs` exactly when `rhs` is an alternative of `A` and either `a`
is a non-epsilon element of `first_of_sequence(rhs)`, or epsilon is in
`first_of_sequence(rhs)` and `a` is in `FOLLOW(A)`. -/
theorem table_characterisation (g : Grammar) (F W : FirstFollow) (T : LL1Table)
    (h : build_ll1_table g F W = .ok T) (A a : String) (rhs : List String) :
    cell T A a = some rhs ↔
      ((∃ alts, (A, alts) ∈ g.productions ∧ rhs ∈ alts) ∧
        ((a ∈ first_of_sequence rhs F ∧ a ≠ EPSILON) ∨
          (EPSILON ∈ first_of_sequence rhs F ∧ a ∈ get W A))) := by
  rw [build_eq_writes] at h
  rw [(put_writes_ok _ _ _ h).1, cell_init_rows, mem_table_writes, mem_prod_cells]
  simp

theorem table_characterisation_witness :
    cell scenario1_table "S" "b" = some ["epsilon"] ↔
      ((∃ alts, ("S", alts) ∈ scenario1.productions ∧ ["epsilon"] ∈ alts) ∧
        (("b" ∈ first_of_sequence ["epsilon"] scenario1_first ∧ "b" ≠ EPSILON) ∨
          (EPSILON ∈ first_of_sequence ["epsilon"] scenario1_first ∧
            "b" ∈ get scenario1_follow "S"))) :=
  table_characterisation scenario1 scenario1_first scenario1_follow scenario1_table rfl
    "S" "b" ["epsilon"]

theorem table_writes_keys (F W : FirstFollow) (prods : AMap (List (List String))) :
    (table_writes F W prods).map (fun w => w.1)
      = prods.flatMap (fun kv =>
          kv.2.flatMap (fun rhs => (prod_cells F W kv.1 rhs).map (fun a => (kv.1, a)))) := by
  unfold table_writes
  simp only [List.map_flatMap, List.map_map]
  rfl

theorem alts_conflict (F W : FirstFollow) (prods : AMap (List (List String)))
    (A : String) (alts : List (List String)) (i j : Nat) (r1 r2 : List String) (x : String)
    (hnd : ((table_writes F W prods).map (fun w => w.1)).Nodup)
    (hA : (A, alts) ∈ prods) (hij : i < j)
    (h1 : alts[i]? = some r1) (h2 : alts[j]? = some r2)
    (hx1 : x ∈ prod_cells F W A r1) (hx2 : x ∈ prod_cells F W A r2) : False := by
  rw [table_writes_keys, List.nodup_flatMap] at hnd
  have h := (List.nodup_flatMap.1 (hnd.1 (A, alts) hA)).2
  rw [List.pairwise_iff_getElem] at h
  obtain ⟨hi, e1⟩ := List.getElem?_eq_some.1 h1
  obtain ⟨hj, e2⟩ := List.getElem?_eq_some.1 h2
  have hd := h i j hi hj hij
  simp only [Function.onFun, e1, e2] at hd
  exact hd (List.mem_map.2 ⟨x, hx1, rfl⟩) (List.mem_map.2 ⟨x, hx2, rfl⟩)

/-- C3 (conflict detection): for every grammar and FIRST/FOLLOW maps, if a
left-hand side `A` has alternatives at two distinct positions of its list whose
`first_of_sequence` both contain the same symbol `x` other than epsilon, then
`build_ll1_table` fails with an LL(1) conflict error (and so returns no table). -/
theorem conflict_detection (g : Grammar) (F W : FirstFollow)
    (A : String) (alts : List (List String)) (i j : Nat) (r1 r2 : List String) (x : String)
    (hA : (A, alts) ∈ g.productions) (hij : i ≠ j)
    (h1 : alts[i]? = some r1) (h2 : alts[j]? = some r2) (hx : x ≠ EPSILON)
    (hx1 : x ∈ first_of_sequence r1 F) (hx2 : x ∈ first_of_sequence r2 F) :
    ∃ B b, build_ll1_table g F W = .error (.conflict B b) := by
  rw [build_eq_writes]
  cases hb : put_writes (table_writes F W g.productions)
      (g.nonterminals.foldl (fun t nt => assign t nt ([] : Row)) []) with
  | error e =>
    obtain ⟨B, b, he⟩ := put_writes_error _ _ _ hb
    exact ⟨B, b, by rw [he]⟩
  | ok T =>
    exfalso
    have hnd := (put_writes_ok _ _ _ hb).2.1
    have c1 : x ∈ prod_cells F W A r1 := (mem_prod_cells F W A x r1).2 (Or.inl ⟨hx1, hx⟩)
    have c2 : x ∈ prod_cells F W A r2 := (mem_prod_cells F W A x r2).2 (Or.inl ⟨hx2, hx⟩)
    rcases Nat.lt_or_gt_of_ne hij with hlt | hgt
    · exact alts_conflict F W g.productions A alts i j r1 r2 x hnd hA hlt h1 h2 c1 c2
    · exact alts_conflict F W g.productions A alts j i r2 r1 x hnd hA hgt h2 h1 c2 c1

theorem conflict_detection_witness :
    ∃ B b, build_ll1_table ⟨["S"], ["x", "a", "b"], "S", [("S", [["x", "a"], ["x", "b"]])]⟩
      [("x", ["x"]), ("a", ["a"]), ("b", ["b"]), ("S", ["x"]), ("epsilon", ["epsilon"])]
      [("S", ["$"])] = .error (.conflict B b) :=
  conflict_detection ⟨["S"], ["x", "a", "b"], "S", [("S", [["x", "a"], ["x", "b"]])]⟩
    [("x", ["x"]), ("a", ["a"]), ("b", ["b"]), ("S", ["x"]), ("epsilon", ["epsilon"])]
    [("S", ["$"])] "S" [["x", "a"], ["x", "b"]] 0 1 ["x", "a"] ["x", "b"] "x"
    (by decide) (by decide) (by decide) (by decide) (by decide) (by decide) (by decide)

/-! ## Fixed-point loops -/

theorem fix_loop_result {σ : Type} (pass : σ → σ × Bool) (Inv : σ → Prop)
    (hpass : ∀ s, Inv s → Inv (pass s).1) :
    ∀ (n : Nat) (s r : σ), Inv s → fix_loop pass n s = some r →
      ∃ s1, Inv s1 ∧ (pass s1).1 = r ∧ (pass s1).2 = false := by
  intro n
  induction n with
  | zero => intro s r _ h; simp [fix_loop] at h
  | succ n ih =>
    intro s r hi h
    simp only [fix_loop] at h
    by_cases hc : (pass s).2 = true
    · rw [if_pos hc] at h
      exact ih _ r (hpass s hi) h
    · rw [if_neg hc] at h
      simp only [Option.some.injEq] at h
      exact ⟨s, hi, h, by simpa using hc⟩

theorem fix_loop_total {σ : Type} (pass : σ → σ × Bool) (Inv : σ → Prop) (μ : σ → Nat)
    (B : Nat) (hpass : ∀ s, Inv s → Inv (pass s).1) (hB : ∀ s, Inv s → μ s ≤ B)
    (hgrow : ∀ s, Inv s → (pass s).2 = true → μ s < μ (pass s).1) :
    ∀ (n : Nat) (s : σ), Inv s → B < μ s + n → ∃ r, fix_loop pass n s = some r := by
  intro n
  induction n with
  | zero =>
    intro s hi hlt
    have := hB s hi
    omega
  | succ n ih =>
    intro s hi hlt
    simp only [fix_loop]
    by_cases hc : (pass s).2 = true
    · rw [if_pos hc]
      have := hgrow s hi hc
      exact ih _ (hpass s hi) (by omega)
    · rw [if_neg hc]
      exact ⟨_, rfl⟩

theorem filter_length_le {α : Type} (l : List α) (p q : α → Bool)
    (h : ∀ x ∈ l, p x = true → q x = true) : (l.filter p).length ≤ (l.filter q).length := by
  induction l with
  | nil => simp
  | cons x xs ih =>
    have ih1 := ih (fun y hy => h y (by simp [hy]))
    have hx := h x (by simp)
    by_cases hp : p x = true
    · simp [List.filter_cons, hp, hx hp, ih1]
    · by_cases hq : q x = true
      · simp only [List.filter_cons, hp, hq, if_true, List.length_cons]
        simp only [Bool.false_eq_true, if_false]
        omega
      · simp [List.filter_cons, hp, hq, ih1]

theorem filter_length_lt {α : Type} (l : List α) (p q : α → Bool)
    (h : ∀ x ∈ l, p x = true → q x = true) (x : α) (hx : x ∈ l) (hpx : p x = false)
    (hqx : q x = true) : (l.filter p).length < (l.filter q).length := by
  induction l with
  | nil => simp at hx
  | cons y ys ih =>
    have hle := filter_length_le ys p q (fun z hz => h z (by simp [hz]))
    rcases List.mem_cons.1 hx with rfl | hx1
    · simp only [List.filter_cons, hpx, hqx, if_true, List.length_cons]
      simp only [Bool.false_eq_true, if_false]
      omega
    · have ih1 := ih (fun z hz => h z (by simp [hz])) hx1
      have hy := h y (by simp)
      by_cases hp : p y = true
      · simp [List.filter_cons, hp, hy hp, ih1]
      · by_cases hq : q y = true
        · simp only [List.filter_cons, hp, hq, if_true, List.length_cons]
          simp only [Bool.false_eq_true, if_false]
          omega
        · simp [List.filter_cons, hp, hq, ih1]

theorem pairs_in_le_sq (S : List String) (F : FirstFollow) : pairs_in S F ≤ S.length ^ 2 := by
  unfold pairs_in
  calc ((List.product S S).filter _).length ≤ (List.product S S).length := List.length_filter_le _ _
    _ = S.length ^ 2 := by
      have := List.length_product S S
      rw [sq]; exact this

theorem pairs_in_mono (S : List String) (F F1 : FirstFollow)
    (h : ∀ k a, a ∈ get F k → a ∈ get F1 k) : pairs_in S F ≤ pairs_in S F1 := by
  unfold pairs_in
  apply filter_length_le
  intro p _ hp
  simp only [decide_eq_true_eq] at hp ⊢
  exact h _ _ hp

theorem pairs_in_lt (S : List String) (F F1 : FirstFollow)
    (h : ∀ k a, a ∈ get F k → a ∈ get F1 k) (k a : String) (hk : k ∈ S) (ha : a ∈ S)
    (hnew : a ∈ get F1 k) (hold : a ∉ get F k) : pairs_in S F < pairs_in S F1 := by
  unfold pairs_in
  apply filter_length_lt _ _ _ _ (k, a)
  · exact List.mem_product.2 ⟨hk, ha⟩
  · simpa using hold
  · simpa using hnew
  · intro p _ hp
    simp only [decide_eq_true_eq] at hp ⊢
    exact h _ _ hp

/-! ## The FIRST pass -/

theorem frel_refl (S : List String) (D : String → Prop) (st : FirstFollow × Bool)
    (h : FInv S st.1) : FRel S D st st :=
  ⟨fun _ _ h => h, fun _ h => h, fun h => h, fun h => Or.inl h, fun _ _ => rfl, h, fun h => h⟩

theorem frel_trans {S : List String} {D : String → Prop} {st st1 st2 : FirstFollow × Bool}
    (h1 : FRel S D st st1) (h2 : FRel S D st1 st2) : FRel S D st st2 := by
  refine ⟨fun k a h => h2.mono k a (h1.mono k a h), fun k h => h2.keys k (h1.keys k h),
    fun h => h2.flag (h1.flag h), ?_, ?_, h2.inv, fun h => h2.own (h1.own h)⟩
  · intro h
    rcases h2.grow h with h3 | ⟨k, a, ha, hb⟩
    · rcases h1.grow h3 with h4 | ⟨k, a, ha, hb⟩
      · exact Or.inl h4
      · exact Or.inr ⟨k, a, h2.mono k a ha, hb⟩
    · exact Or.inr ⟨k, a, ha, fun hc => hb (h1.mono k a hc)⟩
  · intro h k
    have h3 : st1.2 = false := by
      cases hb : st1.2 with
      | false => rfl
      | true => rw [h2.flag hb] at h; cases h
    rw [h2.same h k, h1.same h3 k]

theorem get_eq_of_mem (F : FirstFollow) (k a : String) (h : a ∈ get F k) :
    find F k = some (get F k) := by
  unfold get at h ⊢
  cases hf : find F k with
  | none => rw [hf] at h; simp at h
  | some s => simp

theorem sym_first_of_find (F : FirstFollow) (k : String) (h : find F k ≠ none) :
    sym_first F k = get F k := by
  unfold sym_first get
  cases hf : find F k with
  | none => exact absurd hf h
  | some s => simp

theorem sym_first_assign (F : FirstFollow) (x k : String) (s : SetSS) :
    sym_first (assign F x s) k = if x = k then s else sym_first F k := by
  unfold sym_first
  rw [find_assign]
  by_cases hk : x = k <;> simp [hk]

theorem first_insert_rel (S : List String) (D : String → Prop) (A a : String)
    (st : FirstFollow × Bool) (hinv : FInv S st.1) (hA : A ∈ S) (hD : D A) (ha : a ∈ S) :
    FRel S D st (first_insert A a st) := by
  unfold first_insert
  refine ⟨?_, ?_, ?_, ?_, ?_, ?_, ?_⟩
  rotate_right
  · intro hown k hk hf
    simp only [find_assign, get_assign] at hf ⊢
    by_cases hAk : A = k
    · subst hAk
      exact absurd hD hk
    · simp only [hAk, if_false] at hf ⊢
      exact hown k hk hf
  · intro k b hb
    simp only [get_assign]
    split
    · rename_i hk
      subst hk
      exact (mem_ss_insert _ _ _).2 (Or.inl hb)
    · exact hb
  · intro k hk
    simp only [find_assign]
    split
    · simp
    · exact hk
  · intro h
    simp [h]
  · intro h
    simp only [Bool.or_eq_true, decide_eq_true_eq] at h
    rcases h with h | h
    · exact Or.inl h
    · refine Or.inr ⟨A, a, ?_, h⟩
      simp only [get_assign, if_true]
      exact (mem_ss_insert _ _ _).2 (Or.inr rfl)
  · intro h k
    simp only [Bool.or_eq_false_iff, decide_eq_false_iff_not, not_not] at h
    have hfind := get_eq_of_mem _ _ _ h.2
    have hins : ss_insert (get st.1 A) a = get st.1 A := by simp [ss_insert, h.2]
    rw [hins, sym_first_assign]
    by_cases hk : A = k
    · subst hk
      simp [sym_first, hfind]
    · simp [hk]
  · intro k b hb
    simp only [get_assign] at hb
    split at hb
    · rename_i hk
      subst hk
      rcases (mem_ss_insert _ _ _).1 hb with h | h
      · exact hinv _ _ h
      · exact ⟨hA, h ▸ ha⟩
    · exact hinv _ _ hb

theorem create_rel (S : List String) (D : String → Prop) (X : String)
    (st : FirstFollow × Bool) (hinv : FInv S st.1) (hX : X ∈ S) :
    FRel S D st (if (find st.1 X).isNone then assign st.1 X [X] else st.1, st.2) := by
  by_cases hn : (find st.1 X).isNone = true
  · simp only [hn, if_true]
    have hnone : find st.1 X = none := by simpa using hn
    have hget : get st.1 X = [] := by simp [get, hnone]
    refine ⟨?_, ?_, fun h => h, fun h => Or.inl h, ?_, ?_, ?_⟩
    rotate_right
    · intro hown k hk hf
      simp only [find_assign, get_assign] at hf ⊢
      by_cases hXk : X = k
      · subst hXk
        simp
      · simp only [hXk, if_false] at hf ⊢
        exact hown k hk hf
    · intro k b hb
      simp only [get_assign]
      split
      · rename_i hk
        subst hk
        rw [hget] at hb
        simp at hb
      · exact hb
    · intro k hk
      simp only [find_assign]
      split
      · simp
      · exact hk
    · intro _ k
      simp only [sym_first_assign]
      by_cases hk : X = k
      · subst hk
        simp [sym_first, hnone]
      · simp [hk]
    · intro k b hb
      simp only [get_assign] at hb
      split at hb
      · rename_i hk
        subst hk
        simp only [List.mem_singleton] at hb
        exact ⟨hX, hb ▸ hX⟩
      · exact hinv _ _ hb
  · simp only [hn]
    exact frel_refl S D st hinv

theorem first_add_rel (S : List String) (D : String → Prop) (A : String) (l : List String)
    (st : FirstFollow × Bool) (hinv : FInv S st.1) (hA : A ∈ S) (hD : D A)
    (hl : ∀ a ∈ l, a ∈ S) :
    FRel S D st (first_add A l st) ∧
      ((first_add A l st).2 = false → ∀ a ∈ l, a ≠ EPSILON → a ∈ get (first_add A l st).1 A) := by
  induction l generalizing st with
  | nil => exact ⟨frel_refl S D st hinv, by simp⟩
  | cons x xs ih =>
    by_cases hx : x = EPSILON
    · simp only [first_add, hx, ne_eq, not_true_eq_false, if_false]
      obtain ⟨h1, h2⟩ := ih st hinv (fun a ha => hl a (by simp [ha]))
      refine ⟨h1, fun hf a ha hne => ?_⟩
      rcases List.mem_cons.1 ha with h | h
      · exact absurd h hne
      · exact h2 hf a h hne
    · simp only [first_add, ne_eq, hx, not_false_eq_true, if_true]
      have hr := first_insert_rel S D A x st hinv hA hD (hl x (by simp))
      obtain ⟨h1, h2⟩ := ih (first_insert A x st) hr.inv (fun a ha => hl a (by simp [ha]))
      refine ⟨frel_trans hr h1, fun hf a ha hne => ?_⟩
      rcases List.mem_cons.1 ha with h | h
      · subst h
        apply h1.mono
        have hf1 : (first_insert A a st).2 = false := by
          cases hb : (first_insert A a st).2 with
          | false => rfl
          | true => rw [h1.flag hb] at hf; cases hf
        simp only [first_insert, get_assign, if_true]
        exact (mem_ss_insert _ _ _).2 (Or.inr rfl)
      · exact h2 hf a h hne

theorem fos_scan_congr (F F1 : FirstFollow) (h : ∀ k, sym_first F k = sym_first F1 k)
    (rest : List String) (result : SetSS) : fos_scan F rest result = fos_scan F1 rest result := by
  induction rest generalizing result with
  | nil => rfl
  | cons X rest ih => simp only [fos_scan, h X, ih]

theorem first_of_sequence_congr (F F1 : FirstFollow) (h : ∀ k, sym_first F k = sym_first F1 k)
    (seq : List String) : first_of_sequence seq F = first_of_sequence seq F1 := by
  unfold first_of_sequence
  rw [fos_scan_congr F F1 h]

theorem get_create (F : FirstFollow) (X : String) :
    get (if (find F X).isNone then assign F X [X] else F) X = sym_first F X ∧
    find (if (find F X).isNone then assign F X [X] else F) X ≠ none := by
  cases hf : find F X with
  | none => simp [get_assign, sym_first, hf, find_assign]
  | some s => simp [get, sym_first, hf]

theorem flag_false_of {S : List String} {D : String → Prop} {st st1 : FirstFollow × Bool}
    (h : FRel S D st st1)
    (hf : st1.2 = false) : st.2 = false := by
  cases hb : st.2 with
  | false => rfl
  | true => rw [h.flag hb] at hf; cases hf

theorem first_scan_rel (S : List String) (D : String → Prop) (A : String)
    (rest : List String) (st : FirstFollow × Bool) (hinv : FInv S st.1) (hA : A ∈ S)
    (hD : D A) (hr : ∀ X ∈ rest, X ∈ S) :
    FRel S D st ((first_scan A rest st).1, (first_scan A rest st).2.1) ∧
    ((first_scan A rest st).2.1 = false → ∀ result,
      (fos_scan st.1 rest result).2 = (first_scan A rest st).2.2 ∧
      ∀ a ∈ (fos_scan st.1 rest result).1, a ∈ result ∨ a ∈ get (first_scan A rest st).1 A) := by
  induction rest generalizing st with
  | nil =>
    refine ⟨frel_refl S D st hinv, fun _ result => ?_⟩
    simp only [fos_scan, first_scan, true_and]
    exact fun a ha => Or.inl ha
  | cons X rest ih =>
    have hc := create_rel S D X st hinv (hr X (by simp))
    obtain ⟨hg, hk⟩ := get_create st.1 X
    generalize hst0 : (if (find st.1 X).isNone then assign st.1 X [X] else st.1) = first1
      at hc hg hk
    have hl : ∀ a ∈ get first1 X, a ∈ S := fun a ha => (hc.inv _ _ ha).2
    obtain ⟨h1, h2⟩ := first_add_rel S D A (get first1 X) (first1, st.2) hc.inv hA hD hl
    have hstep : first_scan A (X :: rest) st
        = if EPSILON ∈ get (first_add A (get first1 X) (first1, st.2)).1 X
          then first_scan A rest (first_add A (get first1 X) (first1, st.2))
          else ((first_add A (get first1 X) (first1, st.2)).1,
                (first_add A (get first1 X) (first1, st.2)).2, false) := by
      simp only [first_scan, hst0]
    generalize hst2 : first_add A (get first1 X) (first1, st.2) = st2 at h1 h2 hstep
    have h01 : FRel S D st st2 := frel_trans hc h1
    have hk2 : find st2.1 X ≠ none := h1.keys X hk
    by_cases he : EPSILON ∈ get st2.1 X
    · rw [if_pos he] at hstep
      obtain ⟨h3, h4⟩ := ih st2 h1.inv (fun Y hY => hr Y (by simp [hY]))
      rw [hstep]
      refine ⟨frel_trans h01 h3, fun hf result => ?_⟩
      have hf2 : st2.2 = false := flag_false_of h3 hf
      have hsame := h01.same hf2
      have hX : get st2.1 X = sym_first st.1 X := by
        rw [← sym_first_of_find _ _ hk2, hsame X]
      have he1 : EPSILON ∈ sym_first st.1 X := hX ▸ he
      simp only [fos_scan, he1, if_true]
      rw [← fos_scan_congr st2.1 st.1 hsame]
      obtain ⟨h5, h6⟩ := h4 hf
        (insert_all result ((sym_first st.1 X).filter (fun a => a ≠ EPSILON)))
      refine ⟨h5, fun a ha => ?_⟩
      rcases h6 a ha with h7 | h7
      · rcases (mem_insert_all _ _ _).1 h7 with h8 | h8
        · exact Or.inl h8
        · right
          simp only [ne_eq, decide_not, List.mem_filter, Bool.not_eq_eq_eq_not, Bool.not_true,
            decide_eq_false_iff_not] at h8
          apply h3.mono
          exact h2 hf2 a (by rw [hg]; exact h8.1) h8.2
      · exact Or.inr h7
    · rw [if_neg he] at hstep
      rw [hstep]
      refine ⟨h01, fun hf result => ?_⟩
      have hf2 : st2.2 = false := hf
      have hsame := h01.same hf2
      have hX : get st2.1 X = sym_first st.1 X := by
        rw [← sym_first_of_find _ _ hk2, hsame X]
      have he1 : EPSILON ∉ sym_first st.1 X := hX ▸ he
      simp only [fos_scan, he1, if_false]
      refine ⟨trivial, fun a ha => ?_⟩
      rcases (mem_insert_all _ _ _).1 ha with h8 | h8
      · exact Or.inl h8
      · right
        simp only [ne_eq, decide_not, List.mem_filter, Bool.not_eq_eq_eq_not, Bool.not_true,
          decide_eq_false_iff_not] at h8
        exact h2 hf2 a (by rw [hg]; exact h8.1) h8.2

theorem first_prod_rel (S : List String) (D : String → Prop) (A : String)
    (rhs : List String) (st : FirstFollow × Bool) (hinv : FInv S st.1) (hA : A ∈ S)
    (hD : D A) (hr : ∀ X ∈ rhs, X ∈ S) (heps : EPSILON ∈ S) :
    FRel S D st (first_prod A st rhs) ∧
    ((first_prod A st rhs).2 = false → first_closed_at (first_prod A st rhs).1 A rhs) := by
  by_cases he : rhs = [EPSILON]
  · have hp : first_prod A st rhs = first_insert A EPSILON st := by simp [first_prod, he]
    rw [hp]
    refine ⟨first_insert_rel S D A EPSILON st hinv hA hD heps,
      fun _ => ⟨fun _ => ?_, fun h => absurd he h⟩⟩
    simp only [first_insert, get_assign, if_true]
    exact (mem_ss_insert _ _ _).2 (Or.inr rfl)
  · obtain ⟨h1, h2⟩ := first_scan_rel S D A rhs st hinv hA hD hr
    have hp : first_prod A st rhs
        = if (first_scan A rhs st).2.2 then
            first_insert A EPSILON ((first_scan A rhs st).1, (first_scan A rhs st).2.1)
          else ((first_scan A rhs st).1, (first_scan A rhs st).2.1) := by
      simp [first_prod, he]
    generalize first_scan A rhs st = r at h1 h2 hp
    by_cases hn : r.2.2 = true
    · rw [if_pos hn] at hp
      have h3 := first_insert_rel S D A EPSILON (r.1, r.2.1) h1.inv hA hD heps
      rw [hp]
      refine ⟨frel_trans h1 h3, fun hf => ⟨fun h => absurd h he, fun _ a ha => ?_⟩⟩
      have hin : EPSILON ∈ get (first_insert A EPSILON (r.1, r.2.1)).1 A := by
        simp only [first_insert, get_assign, if_true]
        exact (mem_ss_insert _ _ _).2 (Or.inr rfl)
      have hf1 : r.2.1 = false := flag_false_of h3 hf
      rw [first_of_sequence_congr _ st.1 ((frel_trans h1 h3).same hf)] at ha
      unfold first_of_sequence at ha
      split at ha
      · simp only [List.mem_singleton] at ha
        rw [ha]; exact hin
      · obtain ⟨h4, h5⟩ := h2 hf1 []
        simp only [h4, hn, if_true] at ha
        rcases (mem_ss_insert _ _ _).1 ha with h6 | h6
        · rcases h5 a h6 with h7 | h7
          · simp at h7
          · exact h3.mono _ _ h7
        · rw [h6]; exact hin
    · rw [if_neg hn] at hp
      rw [hp]
      refine ⟨h1, fun hf => ⟨fun h => absurd h he, fun _ a ha => ?_⟩⟩
      have hf1 : r.2.1 = false := hf
      rw [first_of_sequence_congr _ st.1 (h1.same hf)] at ha
      obtain ⟨h4, h5⟩ := h2 hf1 []
      unfold first_of_sequence at ha
      split at ha
      · rename_i hc
        rcases hc with hc | hc
        · subst hc
          simp [fos_scan] at h4
          exact absurd h4 hn
        · exact absurd hc he
      · simp only [h4, hn] at ha
        rcases h5 a ha with h7 | h7
        · simp at h7
        · exact h7

theorem closed_transport {S : List String} {D : String → Prop} {st st1 : FirstFollow × Bool}
    (h : FRel S D st st1)
    (hf : st1.2 = false) (A : String) (rhs : List String)
    (hc : first_closed_at st.1 A rhs) : first_closed_at st1.1 A rhs := by
  refine ⟨fun he => h.mono _ _ (hc.1 he), fun he a ha => ?_⟩
  rw [first_of_sequence_congr _ st.1 (h.same hf)] at ha
  exact h.mono _ _ (hc.2 he a ha)

theorem first_alts_rel (S : List String) (D : String → Prop) (A : String)
    (alts : List (List String)) (st : FirstFollow × Bool) (hinv : FInv S st.1) (hA : A ∈ S)
    (hD : alts ≠ [] → D A) (hr : ∀ rhs ∈ alts, ∀ X ∈ rhs, X ∈ S) (heps : EPSILON ∈ S) :
    FRel S D st (alts.foldl (first_prod A) st) ∧
    ((alts.foldl (first_prod A) st).2 = false →
      ∀ rhs ∈ alts, first_closed_at (alts.foldl (first_prod A) st).1 A rhs) := by
  induction alts generalizing st with
  | nil => exact ⟨frel_refl S D st hinv, by simp⟩
  | cons rhs rest ih =>
    have hDA : D A := hD (by simp)
    obtain ⟨h1, h2⟩ := first_prod_rel S D A rhs st hinv hA hDA (hr rhs (by simp)) heps
    obtain ⟨h3, h4⟩ := ih (first_prod A st rhs) h1.inv (fun _ => hDA)
      (fun r hr1 => hr r (by simp [hr1]))
    simp only [List.foldl_cons]
    refine ⟨frel_trans h1 h3, fun hf r hr1 => ?_⟩
    rcases List.mem_cons.1 hr1 with h | h
    · subst h
      exact closed_transport h3 hf A r (h2 (flag_false_of h3 hf))
    · exact h4 hf r h

theorem first_prods_rel (S : List String) (D : String → Prop)
    (prods : AMap (List (List String))) (st : FirstFollow × Bool) (hinv : FInv S st.1)
    (hp : ∀ kv ∈ prods, kv.1 ∈ S ∧ ∀ rhs ∈ kv.2, ∀ X ∈ rhs, X ∈ S)
    (hD : ∀ kv ∈ prods, kv.2 ≠ [] → D kv.1) (heps : EPSILON ∈ S) :
    FRel S D st (prods.foldl (fun st kv => kv.2.foldl (first_prod kv.1) st) st) ∧
    ((prods.foldl (fun st kv => kv.2.foldl (first_prod kv.1) st) st).2 = false →
      ∀ kv ∈ prods, ∀ rhs ∈ kv.2,
        first_closed_at (prods.foldl (fun st kv => kv.2.foldl (first_prod kv.1) st) st).1
          kv.1 rhs) := by
  induction prods generalizing st with
  | nil => exact ⟨frel_refl S D st hinv, by simp⟩
  | cons kv rest ih =>
    obtain ⟨h1, h2⟩ := first_alts_rel S D kv.1 kv.2 st hinv (hp kv (by simp)).1
      (hD kv (by simp)) (hp kv (by simp)).2 heps
    obtain ⟨h3, h4⟩ := ih (kv.2.foldl (first_prod kv.1) st) h1.inv
      (fun x hx => hp x (by simp [hx])) (fun x hx => hD x (by simp [hx]))
    simp only [List.foldl_cons]
    refine ⟨frel_trans h1 h3, fun hf x hx rhs hrhs => ?_⟩
    rcases List.mem_cons.1 hx with h | h
    · subst h
      exact closed_transport h3 hf x.1 rhs (h2 (flag_false_of h3 hf) rhs hrhs)
    · exact h4 hf x h rhs hrhs

theorem symbols_prods (g : Grammar) :
    ∀ kv ∈ g.productions, kv.1 ∈ symbols g ∧ ∀ rhs ∈ kv.2, ∀ X ∈ rhs, X ∈ symbols g := by
  intro kv hkv
  unfold symbols
  refine ⟨?_, fun rhs hrhs X hX => ?_⟩
  · simp only [List.mem_cons, List.mem_append, List.mem_flatMap]
    exact Or.inr (Or.inr ⟨kv, hkv, Or.inl rfl⟩)
  · simp only [List.mem_cons, List.mem_append, List.mem_flatMap, List.mem_flatten]
    exact Or.inr (Or.inr ⟨kv, hkv, Or.inr ⟨rhs, hrhs, hX⟩⟩)

theorem epsilon_mem_symbols (g : Grammar) : EPSILON ∈ symbols g := by simp [symbols]

theorem first_pass_rel (g : Grammar) (D : String → Prop)
    (hD : ∀ kv ∈ g.productions, kv.2 ≠ [] → D kv.1) (F : FirstFollow)
    (hinv : FInv (symbols g) F) :
    FRel (symbols g) D (F, false) (first_pass g F) ∧
    ((first_pass g F).2 = false → ∀ kv ∈ g.productions, ∀ rhs ∈ kv.2,
      first_closed_at (first_pass g F).1 kv.1 rhs) :=
  first_prods_rel (symbols g) D g.productions (F, false) hinv (symbols_prods g) hD
    (epsilon_mem_symbols g)

theorem first_pass_rel_any (g : Grammar) (F : FirstFollow) (hinv : FInv (symbols g) F) :
    FRel (symbols g) (fun _ => True) (F, false) (first_pass g F) ∧
    ((first_pass g F).2 = false → ∀ kv ∈ g.productions, ∀ rhs ∈ kv.2,
      first_closed_at (first_pass g F).1 kv.1 rhs) :=
  first_pass_rel g (fun _ => True) (fun _ _ _ => trivial) F hinv

theorem find_fold_assign {V : Type} (v : String → V) (l : List String) (m : AMap V)
    (k : String) :
    find (l.foldl (fun f x => assign f x (v x)) m) k
      = if k ∈ l then some (v k) else find m k := by
  induction l generalizing m with
  | nil => simp
  | cons x xs ih =>
    simp only [List.foldl_cons, ih, find_assign, List.mem_cons]
    by_cases h1 : k ∈ xs
    · simp [h1]
    · by_cases h2 : x = k
      · simp [h1, h2]
      · have : ¬ k = x := fun h => h2 h.symm
        simp [h1, h2, this]

theorem find_first_init (g : Grammar) (k : String) :
    find (first_init g) k
      = if EPSILON = k then some [EPSILON]
        else if k ∈ g.nonterminals then some []
        else if k ∈ g.terminals then some [k] else none := by
  unfold first_init
  rw [find_assign, find_fold_assign (fun _ => ([] : SetSS)),
    find_fold_assign (fun t => ([t] : SetSS))]
  rfl

theorem first_init_inv (g : Grammar) : FInv (symbols g) (first_init g) := by
  intro k a ha
  unfold get at ha
  rw [find_first_init] at ha
  by_cases h1 : EPSILON = k
  · subst h1
    simp only [if_true, Option.getD_some, List.mem_singleton] at ha
    subst ha
    exact ⟨epsilon_mem_symbols g, epsilon_mem_symbols g⟩
  · simp only [h1, if_false] at ha
    by_cases h2 : k ∈ g.nonterminals
    · simp [h2] at ha
    · simp only [h2, if_false] at ha
      by_cases h3 : k ∈ g.terminals
      · simp only [h3, if_true, Option.getD_some, List.mem_singleton] at ha
        subst ha
        have : a ∈ symbols g := by simp [symbols, h3]
        exact ⟨this, this⟩
      · simp [h3] at ha

theorem first_pass_grows (g : Grammar) (F : FirstFollow) (hinv : FInv (symbols g) F)
    (hc : (first_pass g F).2 = true) :
    pairs_in (symbols g) F < pairs_in (symbols g) (first_pass g F).1 := by
  have h := (first_pass_rel_any g F hinv).1
  rcases h.grow hc with h1 | ⟨k, a, ha, hb⟩
  · cases h1
  · exact pairs_in_lt _ _ _ h.mono k a (h.inv k a ha).1 (h.inv k a ha).2 ha hb

theorem compute_first_sets_total (g : Grammar) : ∃ F, compute_first_sets g = some F := by
  unfold compute_first_sets
  apply fix_loop_total (first_pass g) (FInv (symbols g)) (pairs_in (symbols g))
    ((symbols g).length ^ 2)
  · exact fun s hs => (first_pass_rel_any g s hs).1.inv
  · exact fun s _ => pairs_in_le_sq _ s
  · exact fun s hs hc => first_pass_grows g s hs hc
  · exact first_init_inv g
  · omega

theorem compute_first_sets_last (g : Grammar) (F : FirstFollow)
    (h : compute_first_sets g = some F) :
    ∃ F0, FInv (symbols g) F0 ∧ (first_pass g F0).1 = F ∧ (first_pass g F0).2 = false :=
  fix_loop_result (first_pass g) (FInv (symbols g))
    (fun s hs => (first_pass_rel_any g s hs).1.inv) _ _ F (first_init_inv g) h

theorem compute_first_sets_closed (g : Grammar) (F : FirstFollow)
    (h : compute_first_sets g = some F) :
    ∀ kv ∈ g.productions, ∀ rhs ∈ kv.2, first_closed_at F kv.1 rhs := by
  obtain ⟨F0, hinv, h1, h2⟩ := compute_first_sets_last g F h
  have := (first_pass_rel_any g F0 hinv).2 h2
  rw [h1] at this
  exact this

/-! ## The FOLLOW pass -/

theorem grel_refl (S : List String) (st : FirstFollow × Bool) (h : FInv S st.1) :
    GRel S st st :=
  ⟨fun _ _ h => h, fun h => h, fun h => Or.inl h, fun _ _ => rfl, h, fun h => h⟩

theorem grel_trans {S : List String} {st st1 st2 : FirstFollow × Bool}
    (h1 : GRel S st st1) (h2 : GRel S st1 st2) : GRel S st st2 := by
  refine ⟨fun k a h => h2.mono k a (h1.mono k a h), fun h => h2.flag (h1.flag h), ?_, ?_, h2.inv,
    fun h => h2.nd (h1.nd h)⟩
  · intro h
    rcases h2.grow h with h3 | ⟨k, a, ha, hb⟩
    · rcases h1.grow h3 with h4 | ⟨k, a, ha, hb⟩
      · exact Or.inl h4
      · exact Or.inr ⟨k, a, h2.mono k a ha, hb⟩
    · exact Or.inr ⟨k, a, ha, fun hc => hb (h1.mono k a hc)⟩
  · intro h k
    have h3 : st1.2 = false := by
      cases hb : st1.2 with
      | false => rfl
      | true => rw [h2.flag hb] at h; cases h
    rw [h2.same h k, h1.same h3 k]

theorem gflag_false_of {S : List String} {st st1 : FirstFollow × Bool} (h : GRel S st st1)
    (hf : st1.2 = false) : st.2 = false := by
  cases hb : st.2 with
  | false => rfl
  | true => rw [h.flag hb] at hf; cases hf

theorem ss_insert_length (s : SetSS) (x : String) :
    (ss_insert s x).length = if x ∈ s then s.length else s.length + 1 := by
  unfold ss_insert
  split <;> simp

theorem insert_all_length_le (dst src : SetSS) : dst.length ≤ (insert_all dst src).length := by
  unfold insert_all
  induction src generalizing dst with
  | nil => simp
  | cons x xs ih =>
    simp only [List.foldl_cons]
    have h1 := ih (ss_insert dst x)
    have h2 := ss_insert_length dst x
    split at h2 <;> omega

theorem insert_all_eq_of_subset (dst src : SetSS) (h : ∀ a ∈ src, a ∈ dst) :
    insert_all dst src = dst := by
  unfold insert_all
  induction src generalizing dst with
  | nil => simp
  | cons x xs ih =>
    have hx : x ∈ dst := h x (by simp)
    simp only [List.foldl_cons, ss_insert, hx, if_true]
    exact ih dst (fun a ha => h a (by simp [ha]))

theorem insert_all_length_lt (dst src : SetSS) (a : String) (ha : a ∈ src) (hn : a ∉ dst) :
    dst.length < (insert_all dst src).length := by
  induction src generalizing dst with
  | nil => simp at ha
  | cons x xs ih =>
    have hstep : insert_all dst (x :: xs) = insert_all (ss_insert dst x) xs := by
      simp [insert_all]
    rw [hstep]
    have h1 := insert_all_length_le (ss_insert dst x) xs
    have h2 := ss_insert_length dst x
    by_cases hx : x ∈ dst
    · rw [if_pos hx] at h2
      rcases List.mem_cons.1 ha with h | h
      · subst h; exact absurd hx hn
      · have hn1 : a ∉ ss_insert dst x := by
          rw [mem_ss_insert]
          rintro (h3 | h3)
          · exact hn h3
          · subst h3; exact hn hx
        have := ih (ss_insert dst x) h hn1
        omega
    · rw [if_neg hx] at h2
      omega

theorem insert_all_grow_iff (dst src : SetSS) :
    dst.length < (insert_all dst src).length ↔ ∃ a ∈ src, a ∉ dst := by
  constructor
  · intro h
    by_contra hc
    push_neg at hc
    rw [insert_all_eq_of_subset dst src hc] at h
    omega
  · rintro ⟨a, ha, hn⟩
    exact insert_all_length_lt dst src a ha hn

theorem follow_closed_scan_mono (g : Grammar) (first_sets W W1 : FirstFollow)
    (h : ∀ k a, a ∈ get W k → a ∈ get W1 k) (rest : List String) (trailer : SetSS)
    (hc : follow_closed_scan g first_sets W rest trailer) :
    follow_closed_scan g first_sets W1 rest trailer := by
  induction rest generalizing trailer with
  | nil => trivial
  | cons X rest ih =>
    unfold follow_closed_scan at hc ⊢
    by_cases hX : is_nonterminal g X = true
    · rw [if_pos hX] at hc ⊢
      exact ⟨fun a ha => h _ _ (hc.1 a ha), ih _ hc.2⟩
    · rw [if_neg hX] at hc ⊢
      exact ih _ hc

theorem mem_next_trailer (first_sets : FirstFollow) (X : String) (trailer : SetSS) (a : String)
    (h : a ∈ next_trailer first_sets X trailer) : a ∈ trailer ∨ a ∈ get first_sets X := by
  unfold next_trailer at h
  simp only at h
  split at h
  · rcases (mem_insert_all _ _ _).1 h with h1 | h1
    · exact Or.inl h1
    · rcases (mem_insert_all _ _ _).1 h1 with h2 | h2
      · simp at h2
      · exact Or.inr (List.mem_of_mem_filter h2)
  · rcases (mem_insert_all _ _ _).1 h with h2 | h2
    · simp at h2
    · exact Or.inr (List.mem_of_mem_filter h2)

theorem follow_scan_rel (S : List String) (g : Grammar) (first_sets : FirstFollow)
    (hfirst : ∀ k a, a ∈ get first_sets k → a ∈ S) (rest : List String)
    (st : FirstFollow × Bool × SetSS) (hinv : FInv S st.1) (hr : ∀ X ∈ rest, X ∈ S)
    (ht : ∀ a ∈ st.2.2, a ∈ S) :
    GRel S (st.1, st.2.1)
      ((follow_scan g first_sets rest st).1, (follow_scan g first_sets rest st).2.1) ∧
    follow_closed_scan g first_sets (follow_scan g first_sets rest st).1 rest st.2.2 := by
  induction rest generalizing st with
  | nil => exact ⟨grel_refl S _ hinv, trivial⟩
  | cons X rest ih =>
    have hXS : X ∈ S := hr X (by simp)
    by_cases hX : is_nonterminal g X = true
    · have hstep : follow_scan g first_sets (X :: rest) st
          = follow_scan g first_sets rest
              (assign st.1 X (insert_all (get st.1 X) st.2.2),
               st.2.1 || decide ((get (assign st.1 X (insert_all (get st.1 X) st.2.2)) X).length
                  > (get st.1 X).length),
               next_trailer first_sets X st.2.2) := by
        simp [follow_scan, hX]
      rw [hstep]
      have hget : get (assign st.1 X (insert_all (get st.1 X) st.2.2)) X
          = insert_all (get st.1 X) st.2.2 := by simp [get_assign]
      rw [hget]
      have h1 : GRel S (st.1, st.2.1)
          (assign st.1 X (insert_all (get st.1 X) st.2.2),
            st.2.1 || decide ((insert_all (get st.1 X) st.2.2).length > (get st.1 X).length)) := by
        refine ⟨?_, ?_, ?_, ?_, ?_, ?_⟩
        rotate_right
        · intro hnd k
          simp only [get_assign]
          split
          · exact nodup_insert_all _ _ (hnd X)
          · exact hnd k
        · intro k a ha
          simp only [get_assign]
          split
          · rename_i hk
            subst hk
            exact (mem_insert_all _ _ _).2 (Or.inl ha)
          · exact ha
        · intro h
          simp only at h
          simp [h]
        · intro h
          simp only [Bool.or_eq_true, decide_eq_true_eq] at h
          rcases h with h | h
          · exact Or.inl h
          · obtain ⟨a, ha, hn⟩ := (insert_all_grow_iff _ _).1 h
            refine Or.inr ⟨X, a, ?_, hn⟩
            simp only [get_assign, if_true]
            exact (mem_insert_all _ _ _).2 (Or.inr ha)
        · intro h k
          simp only [Bool.or_eq_false_iff, decide_eq_false_iff_not] at h
          have hsub : ∀ a ∈ st.2.2, a ∈ get st.1 X := by
            by_contra hc
            push_neg at hc
            exact h.2 ((insert_all_grow_iff _ _).2 hc)
          simp only [get_assign, insert_all_eq_of_subset _ _ hsub]
          split
          · rename_i hk
            subst hk
            rfl
          · rfl
        · intro k a ha
          simp only [get_assign] at ha
          split at ha
          · rename_i hk
            subst hk
            rcases (mem_insert_all _ _ _).1 ha with h | h
            · exact hinv _ _ h
            · exact ⟨hXS, ht a h⟩
          · exact hinv _ _ ha
      obtain ⟨h2, h3⟩ := ih
        (assign st.1 X (insert_all (get st.1 X) st.2.2),
          st.2.1 || decide ((insert_all (get st.1 X) st.2.2).length > (get st.1 X).length),
          next_trailer first_sets X st.2.2)
        h1.inv (fun Y hY => hr Y (by simp [hY]))
        (fun a ha => by
          rcases mem_next_trailer _ _ _ _ ha with h | h
          · exact ht a h
          · exact hfirst _ _ h)
      refine ⟨grel_trans h1 h2, ?_⟩
      unfold follow_closed_scan
      rw [if_pos hX]
      refine ⟨fun a ha => ?_, h3⟩
      apply h2.mono
      simp only [get_assign, if_true]
      exact (mem_insert_all _ _ _).2 (Or.inr ha)
    · have hstep : follow_scan g first_sets (X :: rest) st
          = follow_scan g first_sets rest (st.1, st.2.1, [X]) := by
        simp [follow_scan, hX]
      rw [hstep]
      obtain ⟨h2, h3⟩ := ih (st.1, st.2.1, [X]) hinv (fun Y hY => hr Y (by simp [hY]))
        (fun a ha => by simp only [List.mem_singleton] at ha; exact ha ▸ hXS)
      refine ⟨h2, ?_⟩
      unfold follow_closed_scan
      rw [if_neg hX]
      exact h3

theorem touch_rel (S : List String) (A : String) (st : FirstFollow × Bool)
    (hinv : FInv S st.1) : GRel S st (touch st.1 A, st.2) :=
  ⟨fun k a h => by simpa [get_touch] using h, fun h => h, fun h => Or.inl h,
    fun _ k => by simp [get_touch], fun k a h => hinv k a (by simpa [get_touch] using h),
    fun h k => by simpa [get_touch] using h k⟩

theorem follow_prod_rel (S : List String) (g : Grammar) (first_sets : FirstFollow)
    (hfirst : ∀ k a, a ∈ get first_sets k → a ∈ S) (A : String) (rhs : List String)
    (st : FirstFollow × Bool) (hinv : FInv S st.1) (hr : ∀ X ∈ rhs, X ∈ S) :
    GRel S st (follow_prod g first_sets A st rhs) ∧
    ((follow_prod g first_sets A st rhs).2 = false →
      follow_closed_at g first_sets (follow_prod g first_sets A st rhs).1 A rhs) := by
  have h0 := touch_rel S A st hinv
  obtain ⟨h1, h2⟩ := follow_scan_rel S g first_sets hfirst rhs.reverse
    (touch st.1 A, st.2, get (touch st.1 A) A) h0.inv
    (fun X hX => hr X (List.mem_reverse.1 hX)) (fun a ha => (h0.inv _ _ ha).2)
  have hp : follow_prod g first_sets A st rhs
      = ((follow_scan g first_sets rhs.reverse (touch st.1 A, st.2, get (touch st.1 A) A)).1,
         (follow_scan g first_sets rhs.reverse (touch st.1 A, st.2, get (touch st.1 A) A)).2.1) :=
    rfl
  rw [hp]
  refine ⟨grel_trans h0 h1, fun hf => ?_⟩
  unfold follow_closed_at
  rw [h1.same hf A]
  exact h2

theorem follow_closed_transport {S : List String} {st st1 : FirstFollow × Bool}
    (h : GRel S st st1) (hf : st1.2 = false) (g : Grammar) (first_sets : FirstFollow)
    (A : String) (rhs : List String) (hc : follow_closed_at g first_sets st.1 A rhs) :
    follow_closed_at g first_sets st1.1 A rhs := by
  unfold follow_closed_at at hc ⊢
  rw [h.same hf A]
  exact follow_closed_scan_mono g first_sets st.1 st1.1 h.mono _ _ hc

theorem follow_alts_rel (S : List String) (g : Grammar) (first_sets : FirstFollow)
    (hfirst : ∀ k a, a ∈ get first_sets k → a ∈ S) (A : String) (alts : List (List String))
    (st : FirstFollow × Bool) (hinv : FInv S st.1) (hr : ∀ rhs ∈ alts, ∀ X ∈ rhs, X ∈ S) :
    GRel S st (alts.foldl (follow_prod g first_sets A) st) ∧
    ((alts.foldl (follow_prod g first_sets A) st).2 = false →
      ∀ rhs ∈ alts,
        follow_closed_at g first_sets (alts.foldl (follow_prod g first_sets A) st).1 A rhs) := by
  induction alts generalizing st with
  | nil => exact ⟨grel_refl S st hinv, by simp⟩
  | cons rhs rest ih =>
    obtain ⟨h1, h2⟩ := follow_prod_rel S g first_sets hfirst A rhs st hinv (hr rhs (by simp))
    obtain ⟨h3, h4⟩ := ih (follow_prod g first_sets A st rhs) h1.inv
      (fun r hr1 => hr r (by simp [hr1]))
    simp only [List.foldl_cons]
    refine ⟨grel_trans h1 h3, fun hf r hr1 => ?_⟩
    rcases List.mem_cons.1 hr1 with h | h
    · subst h
      exact follow_closed_transport h3 hf g first_sets A r (h2 (gflag_false_of h3 hf))
    · exact h4 hf r h

theorem follow_prods_rel (S : List String) (g : Grammar) (first_sets : FirstFollow)
    (hfirst : ∀ k a, a ∈ get first_sets k → a ∈ S) (prods : AMap (List (List String)))
    (st : FirstFollow × Bool) (hinv : FInv S st.1)
    (hp : ∀ kv ∈ prods, ∀ rhs ∈ kv.2, ∀ X ∈ rhs, X ∈ S) :
    GRel S st (prods.foldl (fun st kv => kv.2.foldl (follow_prod g first_sets kv.1) st) st) ∧
    ((prods.foldl (fun st kv => kv.2.foldl (follow_prod g first_sets kv.1) st) st).2 = false →
      ∀ kv ∈ prods, ∀ rhs ∈ kv.2,
        follow_closed_at g first_sets
          (prods.foldl (fun st kv => kv.2.foldl (follow_prod g first_sets kv.1) st) st).1
          kv.1 rhs) := by
  induction prods generalizing st with
  | nil => exact ⟨grel_refl S st hinv, by simp⟩
  | cons kv rest ih =>
    obtain ⟨h1, h2⟩ := follow_alts_rel S g first_sets hfirst kv.1 kv.2 st hinv (hp kv (by simp))
    obtain ⟨h3, h4⟩ := ih (kv.2.foldl (follow_prod g first_sets kv.1) st) h1.inv
      (fun x hx => hp x (by simp [hx]))
    simp only [List.foldl_cons]
    refine ⟨grel_trans h1 h3, fun hf x hx rhs hrhs => ?_⟩
    rcases List.mem_cons.1 hx with h | h
    · subst h
      exact follow_closed_transport h3 hf g first_sets x.1 rhs
        (h2 (gflag_false_of h3 hf) rhs hrhs)
    · exact h4 hf x h rhs hrhs

theorem find_some_mem {V : Type} (m : AMap V) (k : String) (v : V) (h : find m k = some v) :
    (k, v) ∈ m := by
  induction m with
  | nil => simp [find] at h
  | cons kv m ih =>
    obtain ⟨k1, v1⟩ := kv
    simp only [find] at h
    by_cases hk : k1 = k
    · simp only [hk, if_true, Option.some.injEq] at h
      simp [hk, h]
    · simp only [hk, if_false] at h
      simp [ih h]

theorem first_mem_follow_symbols (g : Grammar) (first_sets : FirstFollow) :
    ∀ k a, a ∈ get first_sets k → a ∈ follow_symbols g first_sets := by
  intro k a ha
  have hf := get_eq_of_mem _ _ _ ha
  have hm := find_some_mem _ _ _ hf
  unfold follow_symbols
  simp only [List.mem_cons, List.mem_append, List.mem_flatMap]
  exact Or.inr (Or.inr (Or.inr ⟨_, hm, ha⟩))

theorem symbols_sub_follow_symbols (g : Grammar) (first_sets : FirstFollow) (x : String)
    (h : x ∈ symbols g) : x ∈ follow_symbols g first_sets := by
  unfold follow_symbols
  simp [h]

theorem follow_pass_rel (g : Grammar) (first_sets F : FirstFollow)
    (hinv : FInv (follow_symbols g first_sets) F) :
    GRel (follow_symbols g first_sets) (F, false) (follow_pass g first_sets F) ∧
    ((follow_pass g first_sets F).2 = false → ∀ kv ∈ g.productions, ∀ rhs ∈ kv.2,
      follow_closed_at g first_sets (follow_pass g first_sets F).1 kv.1 rhs) :=
  follow_prods_rel (follow_symbols g first_sets) g first_sets
    (first_mem_follow_symbols g first_sets) g.productions (F, false) hinv
    (fun kv hkv rhs hrhs X hX =>
      symbols_sub_follow_symbols g first_sets X ((symbols_prods g kv hkv).2 rhs hrhs X hX))

theorem get_follow_init (g : Grammar) (k : String) :
    get (follow_init g) k = if g.start_symbol = k then [ENDMARK] else [] := by
  unfold follow_init
  simp only [get_assign]
  have hget : ∀ x, get (g.nonterminals.foldl (fun f nt => assign f nt ([] : SetSS)) []) x = [] := by
    intro x
    unfold get
    rw [find_fold_assign (fun _ => ([] : SetSS))]
    by_cases hx : x ∈ g.nonterminals <;> simp [hx, find]
  rw [hget, hget]
  simp [ss_insert]

theorem follow_init_inv (g : Grammar) (first_sets : FirstFollow) :
    FInv (follow_symbols g first_sets) (follow_init g) := by
  intro k a ha
  rw [get_follow_init] at ha
  by_cases hk : g.start_symbol = k
  · simp only [hk, if_true, List.mem_singleton] at ha
    subst ha
    subst hk
    simp [follow_symbols]
  · simp [hk] at ha

theorem follow_pass_grows (g : Grammar) (first_sets F : FirstFollow)
    (hinv : FInv (follow_symbols g first_sets) F)
    (hc : (follow_pass g first_sets F).2 = true) :
    pairs_in (follow_symbols g first_sets) F
      < pairs_in (follow_symbols g first_sets) (follow_pass g first_sets F).1 := by
  have h := (follow_pass_rel g first_sets F hinv).1
  rcases h.grow hc with h1 | ⟨k, a, ha, hb⟩
  · cases h1
  · exact pairs_in_lt _ _ _ h.mono k a (h.inv k a ha).1 (h.inv k a ha).2 ha hb

theorem compute_follow_sets_total (g : Grammar) (first_sets : FirstFollow) :
    ∃ W, compute_follow_sets g first_sets = some W := by
  unfold compute_follow_sets
  apply fix_loop_total (follow_pass g first_sets) (FInv (follow_symbols g first_sets))
    (pairs_in (follow_symbols g first_sets)) ((follow_symbols g first_sets).length ^ 2)
  · exact fun s hs => (follow_pass_rel g first_sets s hs).1.inv
  · exact fun s _ => pairs_in_le_sq _ s
  · exact fun s hs hc => follow_pass_grows g first_sets s hs hc
  · exact follow_init_inv g first_sets
  · omega

theorem compute_follow_sets_last (g : Grammar) (first_sets W : FirstFollow)
    (h : compute_follow_sets g first_sets = some W) :
    ∃ W0, (FInv (follow_symbols g first_sets) W0 ∧ ENDMARK ∈ get W0 g.start_symbol) ∧
      (follow_pass g first_sets W0).1 = W ∧ (follow_pass g first_sets W0).2 = false :=
  fix_loop_result (follow_pass g first_sets)
    (fun W0 => FInv (follow_symbols g first_sets) W0 ∧ ENDMARK ∈ get W0 g.start_symbol)
    (fun s hs => ⟨(follow_pass_rel g first_sets s hs.1).1.inv,
      (follow_pass_rel g first_sets s hs.1).1.mono _ _ hs.2⟩) _ _ W
    ⟨follow_init_inv g first_sets, by simp [get_follow_init]⟩ h

/-- C8: for every grammar and every FIRST map, `compute_follow_sets` returns a
FOLLOW map whose set for the start symbol contains the end-marker. -/
theorem follow_start_has_endmark (g : Grammar) (first_sets : FirstFollow) :
    ∃ W, compute_follow_sets g first_sets = some W ∧ ENDMARK ∈ get W g.start_symbol := by
  obtain ⟨W, hW⟩ := compute_follow_sets_total g first_sets
  refine ⟨W, hW, ?_⟩
  obtain ⟨W0, hinv, h1, _⟩ := compute_follow_sets_last g first_sets W hW
  rw [← h1]
  exact (follow_pass_rel g first_sets W0 hinv.1).1.mono _ _ hinv.2

/-! ## FIRST of a sequence, by membership -/

theorem mem_fos_scan (U : FirstFollow) (rest : List String) (result : SetSS) (a : String) :
    a ∈ (fos_scan U rest result).1 ↔ a ∈ result ∨ seq_first U rest a := by
  induction rest generalizing result with
  | nil => simp [fos_scan, seq_first]
  | cons X rest ih =>
    unfold fos_scan seq_first
    by_cases he : EPSILON ∈ sym_first U X
    · simp only [he, if_true, ih, mem_insert_all, List.mem_filter, decide_eq_true_eq, true_and]
      tauto
    · simp only [he, if_false, mem_insert_all, List.mem_filter, decide_eq_true_eq, false_and,
        or_false]

theorem fos_scan_nullable (U : FirstFollow) (rest : List String) (result : SetSS) :
    (fos_scan U rest result).2 = true ↔ seq_nullable U rest := by
  induction rest generalizing result with
  | nil => simp [fos_scan, seq_nullable]
  | cons X rest ih =>
    unfold fos_scan seq_nullable
    by_cases he : EPSILON ∈ sym_first U X
    · simp only [he, if_true, ih, true_and]
    · simp [he]

theorem mem_first_of_sequence (seq : List String) (U : FirstFollow) (a : String) :
    a ∈ first_of_sequence seq U ↔
      if seq = [] ∨ seq = [EPSILON] then a = EPSILON
      else (seq_first U seq a ∨ (a = EPSILON ∧ seq_nullable U seq)) := by
  unfold first_of_sequence
  by_cases hs : seq = [] ∨ seq = [EPSILON]
  · simp [hs]
  · simp only [hs, if_false]
    by_cases hn : (fos_scan U seq []).2 = true
    · simp only [hn, if_true, mem_ss_insert, mem_fos_scan, List.not_mem_nil, false_or,
        (fos_scan_nullable U seq []).1 hn, and_true]
    · have hn1 : ¬ seq_nullable U seq := fun h => hn ((fos_scan_nullable U seq []).2 h)
      simp [hn, mem_fos_scan, hn1]

theorem nodup_fos_scan (U : FirstFollow) (rest : List String) (result : SetSS)
    (h : result.Nodup) : (fos_scan U rest result).1.Nodup := by
  induction rest generalizing result with
  | nil => simpa [fos_scan] using h
  | cons X rest ih =>
    unfold fos_scan
    by_cases he : EPSILON ∈ sym_first U X
    · simp only [he, if_true]
      exact ih _ (nodup_insert_all _ _ h)
    · simp only [he, if_false]
      exact nodup_insert_all _ _ h

theorem nodup_first_of_sequence (seq : List String) (U : FirstFollow) :
    (first_of_sequence seq U).Nodup := by
  unfold first_of_sequence
  split
  · simp
  · simp only
    split
    · exact nodup_ss_insert _ _ (nodup_fos_scan U seq [] List.nodup_nil)
    · exact nodup_fos_scan U seq [] List.nodup_nil

/-! ## The FIRST solver computes the least closed map -/

theorem first_insert_le (U : FirstFollow) (A a : String) (st : FirstFollow × Bool)
    (hle : FLe st.1 U) (ha : a ∈ get U A) : FLe (first_insert A a st).1 U := by
  intro k b hb
  simp only [first_insert, sym_first_assign] at hb
  by_cases hk : A = k
  · subst hk
    simp only [if_true] at hb
    have hU : sym_first U A = get U A :=
      sym_first_of_find U A (by rw [get_eq_of_mem U A a ha]; simp)
    rcases (mem_ss_insert _ _ _).1 hb with h | h
    · apply hle
      rw [sym_first_of_find st.1 A (by rw [get_eq_of_mem st.1 A b h]; simp)]
      exact h
    · rw [h, hU]; exact ha
  · simp only [hk, if_false] at hb
    exact hle k b hb

theorem sym_first_create (F : FirstFollow) (X k : String) :
    sym_first (if (find F X).isNone then assign F X [X] else F) k = sym_first F k := by
  cases hf : find F X with
  | none =>
    simp only [Option.isNone_none, if_true, sym_first_assign]
    by_cases hk : X = k
    · subst hk
      simp [sym_first, hf]
    · simp [hk]
  | some s => simp

theorem first_add_le (U : FirstFollow) (A : String) (l : List String)
    (st : FirstFollow × Bool) (hle : FLe st.1 U)
    (hl : ∀ a ∈ l, a ≠ EPSILON → a ∈ get U A) : FLe (first_add A l st).1 U := by
  induction l generalizing st with
  | nil => exact hle
  | cons x xs ih =>
    by_cases hx : x = EPSILON
    · simp only [first_add, hx, ne_eq, not_true_eq_false, if_false]
      exact ih st hle (fun a ha => hl a (by simp [ha]))
    · simp only [first_add, ne_eq, hx, not_false_eq_true, if_true]
      exact ih _ (first_insert_le U A x st hle (hl x (by simp) hx))
        (fun a ha => hl a (by simp [ha]))

theorem first_scan_le (U : FirstFollow) (A : String) (rest : List String)
    (st : FirstFollow × Bool) (hle : FLe st.1 U)
    (h1 : ∀ a, seq_first U rest a → a ∈ get U A) :
    FLe (first_scan A rest st).1 U ∧
      ((first_scan A rest st).2.2 = true → seq_nullable U rest) := by
  induction rest generalizing st with
  | nil => exact ⟨hle, fun _ => trivial⟩
  | cons X rest ih =>
    obtain ⟨hg, _⟩ := get_create st.1 X
    have hle1 : FLe (if (find st.1 X).isNone then assign st.1 X [X] else st.1) U := by
      intro k a ha
      rw [sym_first_create] at ha
      exact hle k a ha
    generalize hst0 : (if (find st.1 X).isNone then assign st.1 X [X] else st.1) = first1
      at hg hle1
    have hl : ∀ a ∈ get first1 X, a ≠ EPSILON → a ∈ get U A := by
      intro a ha hne
      apply h1
      unfold seq_first
      exact Or.inl ⟨hle X a (hg ▸ ha), hne⟩
    have hle2 := first_add_le U A (get first1 X) (first1, st.2) hle1 hl
    have hstep : first_scan A (X :: rest) st
        = if EPSILON ∈ get (first_add A (get first1 X) (first1, st.2)).1 X
          then first_scan A rest (first_add A (get first1 X) (first1, st.2))
          else ((first_add A (get first1 X) (first1, st.2)).1,
                (first_add A (get first1 X) (first1, st.2)).2, false) := by
      simp only [first_scan, hst0]
    generalize first_add A (get first1 X) (first1, st.2) = st2 at hle2 hstep
    by_cases he : EPSILON ∈ get st2.1 X
    · rw [if_pos he] at hstep
      rw [hstep]
      have heU : EPSILON ∈ sym_first U X := by
        apply hle2
        rw [sym_first_of_find st2.1 X (by rw [get_eq_of_mem st2.1 X _ he]; simp)]
        exact he
      obtain ⟨h3, h4⟩ := ih st2 hle2 (fun a ha => h1 a (by
        unfold seq_first
        exact Or.inr ⟨heU, ha⟩))
      exact ⟨h3, fun hn => ⟨heU, h4 hn⟩⟩
    · rw [if_neg he] at hstep
      rw [hstep]
      exact ⟨hle2, fun hn => by simp at hn⟩

theorem first_prod_le (U : FirstFollow) (A : String) (rhs : List String)
    (st : FirstFollow × Bool) (hle : FLe st.1 U) (hc : first_closed_at U A rhs) :
    FLe (first_prod A st rhs).1 U := by
  by_cases he : rhs = [EPSILON]
  · have hp : first_prod A st rhs = first_insert A EPSILON st := by simp [first_prod, he]
    rw [hp]
    exact first_insert_le U A EPSILON st hle (hc.1 he)
  · have hfos := hc.2 he
    have hp : first_prod A st rhs
        = if (first_scan A rhs st).2.2 then
            first_insert A EPSILON ((first_scan A rhs st).1, (first_scan A rhs st).2.1)
          else ((first_scan A rhs st).1, (first_scan A rhs st).2.1) := by
      simp [first_prod, he]
    by_cases h0 : rhs = []
    · subst h0
      have hin : EPSILON ∈ get U A := hfos EPSILON (by simp [first_of_sequence])
      rw [hp]
      simp only [first_scan, if_true]
      exact first_insert_le U A EPSILON _ hle hin
    · have hcond : ¬ (rhs = [] ∨ rhs = [EPSILON]) := by tauto
      obtain ⟨h3, h4⟩ := first_scan_le U A rhs st hle (fun a ha => hfos a (by
        rw [mem_first_of_sequence, if_neg hcond]
        exact Or.inl ha))
      rw [hp]
      by_cases hn : (first_scan A rhs st).2.2 = true
      · rw [if_pos hn]
        exact first_insert_le U A EPSILON _ h3 (hfos EPSILON (by
          rw [mem_first_of_sequence, if_neg hcond]
          exact Or.inr ⟨rfl, h4 hn⟩))
      · rw [if_neg hn]
        exact h3

theorem first_prods_le (U : FirstFollow) (prods : AMap (List (List String)))
    (st : FirstFollow × Bool) (hle : FLe st.1 U)
    (hc : ∀ kv ∈ prods, ∀ rhs ∈ kv.2, first_closed_at U kv.1 rhs) :
    FLe (prods.foldl (fun st kv => kv.2.foldl (first_prod kv.1) st) st).1 U := by
  induction prods generalizing st with
  | nil => exact hle
  | cons kv rest ih =>
    simp only [List.foldl_cons]
    apply ih _ _ (fun x hx => hc x (by simp [hx]))
    have hkv := hc kv (by simp)
    generalize kv.2 = alts at hkv
    induction alts generalizing st with
    | nil => exact hle
    | cons rhs more ih2 =>
      simp only [List.foldl_cons]
      exact ih2 _ (first_prod_le U kv.1 rhs st hle (hkv rhs (by simp)))
        (fun r hr => hkv r (by simp [hr]))

theorem compute_first_sets_le (g : Grammar) (F U : FirstFollow)
    (hF : compute_first_sets g = some F) (hinit : FLe (first_init g) U)
    (hc : ∀ kv ∈ g.productions, ∀ rhs ∈ kv.2, first_closed_at U kv.1 rhs) : FLe F U := by
  obtain ⟨F0, h0, h1, _⟩ := fix_loop_result (first_pass g) (fun F => FLe F U)
    (fun s hs => first_prods_le U g.productions (s, false) hs hc) _ _ F hinit hF
  rw [← h1]
  exact first_prods_le U g.productions (F0, false) h0 hc

theorem mem_production_pairs (g : Grammar) (A : String) (rhs : List String) :
    (A, rhs) ∈ production_pairs g ↔ ∃ alts, (A, alts) ∈ g.productions ∧ rhs ∈ alts := by
  unfold production_pairs
  simp only [List.mem_flatMap, List.mem_map, Prod.mk.injEq, Prod.exists]
  constructor
  · rintro ⟨k, alts, hk, r, hr, rfl, rfl⟩
    exact ⟨alts, hk, hr⟩
  · rintro ⟨alts, hk, hr⟩
    exact ⟨A, alts, hk, rhs, hr, rfl, rfl⟩

theorem first_init_le_result (g : Grammar) (F : FirstFollow)
    (hF : compute_first_sets g = some F)
    (hH : ∀ kv ∈ g.productions, kv.2 ≠ [] → find (first_init g) kv.1 ≠ none) :
    FLe (first_init g) F ∧ ∀ k, find (first_init g) k ≠ none → find F k ≠ none := by
  have hstep : ∀ s : FirstFollow,
      (FInv (symbols g) s ∧ OwnKeys (fun k => find (first_init g) k ≠ none) s ∧
        (∀ k a, a ∈ get (first_init g) k → a ∈ get s k) ∧
        (∀ k, find (first_init g) k ≠ none → find s k ≠ none)) →
      (FInv (symbols g) (first_pass g s).1 ∧
        OwnKeys (fun k => find (first_init g) k ≠ none) (first_pass g s).1 ∧
        (∀ k a, a ∈ get (first_init g) k → a ∈ get (first_pass g s).1 k) ∧
        (∀ k, find (first_init g) k ≠ none → find (first_pass g s).1 k ≠ none)) := by
    intro s hs
    have h := (first_pass_rel g (fun k => find (first_init g) k ≠ none) hH s hs.1).1
    exact ⟨h.inv, h.own hs.2.1, fun k a ha => h.mono k a (hs.2.2.1 k a ha),
      fun k hk => h.keys k (hs.2.2.2 k hk)⟩
  obtain ⟨F0, h0, h1, _⟩ := fix_loop_result (first_pass g) _ hstep _ _ F
    ⟨first_init_inv g, fun k hk hf => absurd hf hk, fun _ _ h => h, fun _ h => h⟩ hF
  have hres := hstep F0 h0
  rw [h1] at hres
  obtain ⟨_, hown, hmono, hkeys⟩ := hres
  refine ⟨fun k a ha => ?_, hkeys⟩
  by_cases hk : find (first_init g) k = none
  · have hak : a = k := by simpa [sym_first, hk] using ha
    subst hak
    by_cases hfk : find F a = none
    · simp [sym_first, hfk]
    · rw [sym_first_of_find F a hfk]
      exact hown a (fun h => h hk) hfk
  · rw [sym_first_of_find _ k hk] at ha
    rw [sym_first_of_find F k (hkeys k hk)]
    exact hmono k a ha

theorem find_first_init_congr (g1 g2 : Grammar)
    (hN : ∀ x, x ∈ g1.nonterminals ↔ x ∈ g2.nonterminals)
    (hT : ∀ x, x ∈ g1.terminals ↔ x ∈ g2.terminals) (k : String) :
    find (first_init g1) k = find (first_init g2) k := by
  rw [find_first_init, find_first_init]
  simp only [hN k, hT k]

theorem declared_lhs_init (g : Grammar)
    (hH : ∀ p ∈ production_pairs g,
      p.1 ∈ g.nonterminals ∨ p.1 ∈ g.terminals ∨ p.1 = EPSILON) :
    ∀ kv ∈ g.productions, kv.2 ≠ [] → find (first_init g) kv.1 ≠ none := by
  intro kv hkv hne
  obtain ⟨rhs, hrhs⟩ := List.exists_mem_of_ne_nil _ hne
  have hp : (kv.1, rhs) ∈ production_pairs g :=
    (mem_production_pairs g kv.1 rhs).2 ⟨kv.2, hkv, hrhs⟩
  rw [find_first_init]
  rcases hH _ hp with h | h | h
  · by_cases he : EPSILON = kv.1 <;> simp [he, h]
  · by_cases he : EPSILON = kv.1
    · simp [he]
    · by_cases hn : kv.1 ∈ g.nonterminals <;> simp [he, hn, h]
  · simp at h
    simp [h]

theorem first_le_of_perm (g1 g2 : Grammar)
    (hN : ∀ x, x ∈ g1.nonterminals ↔ x ∈ g2.nonterminals)
    (hT : ∀ x, x ∈ g1.terminals ↔ x ∈ g2.terminals)
    (hP : ∀ p, p ∈ production_pairs g1 ↔ p ∈ production_pairs g2)
    (hH : ∀ p ∈ production_pairs g2,
      p.1 ∈ g2.nonterminals ∨ p.1 ∈ g2.terminals ∨ p.1 = EPSILON)
    (F1 F2 : FirstFollow) (h1 : compute_first_sets g1 = some F1)
    (h2 : compute_first_sets g2 = some F2) : FLe F1 F2 := by
  apply compute_first_sets_le g1 F1 F2 h1
  · intro k a ha
    apply (first_init_le_result g2 F2 h2 (declared_lhs_init g2 hH)).1
    unfold sym_first at ha ⊢
    rw [← find_first_init_congr g1 g2 hN hT]
    exact ha
  · intro kv hkv rhs hrhs
    have hp : (kv.1, rhs) ∈ production_pairs g2 :=
      (hP _).1 ((mem_production_pairs g1 kv.1 rhs).2 ⟨kv.2, hkv, hrhs⟩)
    obtain ⟨alts, ha, hr⟩ := (mem_production_pairs g2 kv.1 rhs).1 hp
    exact compute_first_sets_closed g2 F2 h2 (kv.1, alts) ha rhs hr

/-! ## The FOLLOW solver computes the least closed map -/

theorem mem_next_trailer_iff (first_sets : FirstFollow) (X : String) (trailer : SetSS)
    (a : String) :
    a ∈ next_trailer first_sets X trailer ↔
      (a ∈ get first_sets X ∧ a ≠ EPSILON) ∨ (EPSILON ∈ get first_sets X ∧ a ∈ trailer) := by
  unfold next_trailer
  by_cases he : EPSILON ∈ get first_sets X
  · simp only [he, if_true, mem_insert_all, List.not_mem_nil, false_or, List.mem_filter,
      decide_eq_true_eq, true_and]
    tauto
  · simp only [he, if_false, mem_insert_all, List.not_mem_nil, false_or, List.mem_filter,
      decide_eq_true_eq, false_and, or_false]

theorem follow_closed_scan_congr (g1 g2 : Grammar) (F1 F2 U : FirstFollow)
    (hN : ∀ X, is_nonterminal g1 X = is_nonterminal g2 X)
    (hF : ∀ X, is_nonterminal g1 X = true → ∀ a, a ∈ get F1 X ↔ a ∈ get F2 X)
    (rest : List String) (t1 t2 : SetSS) (ht : ∀ a, a ∈ t2 → a ∈ t1)
    (hc : follow_closed_scan g1 F1 U rest t1) : follow_closed_scan g2 F2 U rest t2 := by
  induction rest generalizing t1 t2 with
  | nil => trivial
  | cons X rest ih =>
    unfold follow_closed_scan at hc ⊢
    by_cases hX : is_nonterminal g1 X = true
    · rw [if_pos hX] at hc
      rw [if_pos (hN X ▸ hX)]
      refine ⟨fun a ha => hc.1 a (ht a ha), ih _ _ ?_ hc.2⟩
      intro a ha
      rw [mem_next_trailer_iff] at ha ⊢
      rcases ha with h | h
      · exact Or.inl ⟨(hF X hX a).2 h.1, h.2⟩
      · exact Or.inr ⟨(hF X hX EPSILON).2 h.1, ht a h.2⟩
    · rw [if_neg hX] at hc
      rw [if_neg (hN X ▸ hX)]
      exact ih _ _ (fun a ha => ha) hc

theorem follow_scan_le (g : Grammar) (first_sets U : FirstFollow) (rest : List String)
    (st : FirstFollow × Bool × SetSS) (tU : SetSS)
    (hle : ∀ k a, a ∈ get st.1 k → a ∈ get U k) (ht : ∀ a ∈ st.2.2, a ∈ tU)
    (hc : follow_closed_scan g first_sets U rest tU) :
    ∀ k a, a ∈ get (follow_scan g first_sets rest st).1 k → a ∈ get U k := by
  induction rest generalizing st tU with
  | nil => exact hle
  | cons X rest ih =>
    unfold follow_closed_scan at hc
    by_cases hX : is_nonterminal g X = true
    · rw [if_pos hX] at hc
      have hstep : follow_scan g first_sets (X :: rest) st
          = follow_scan g first_sets rest
              (assign st.1 X (insert_all (get st.1 X) st.2.2),
               st.2.1 || decide ((get (assign st.1 X (insert_all (get st.1 X) st.2.2)) X).length
                  > (get st.1 X).length),
               next_trailer first_sets X st.2.2) := by
        simp [follow_scan, hX]
      rw [hstep]
      apply ih _ (next_trailer first_sets X tU) _ _ hc.2
      · intro k a ha
        simp only [get_assign] at ha
        by_cases hk : X = k
        · subst hk
          simp only [if_true] at ha
          rcases (mem_insert_all _ _ _).1 ha with h | h
          · exact hle _ _ h
          · exact hc.1 a (ht a h)
        · simp only [hk, if_false] at ha
          exact hle _ _ ha
      · intro a ha
        simp only [mem_next_trailer_iff] at ha ⊢
        rcases ha with h | h
        · exact Or.inl h
        · exact Or.inr ⟨h.1, ht a h.2⟩
    · rw [if_neg hX] at hc
      have hstep : follow_scan g first_sets (X :: rest) st
          = follow_scan g first_sets rest (st.1, st.2.1, [X]) := by
        simp [follow_scan, hX]
      rw [hstep]
      exact ih _ [X] hle (fun a ha => ha) hc

theorem follow_prods_le (g : Grammar) (first_sets U : FirstFollow)
    (prods : AMap (List (List String))) (st : FirstFollow × Bool)
    (hle : ∀ k a, a ∈ get st.1 k → a ∈ get U k)
    (hc : ∀ kv ∈ prods, ∀ rhs ∈ kv.2, follow_closed_at g first_sets U kv.1 rhs) :
    ∀ k a, a ∈ get (prods.foldl
      (fun st kv => kv.2.foldl (follow_prod g first_sets kv.1) st) st).1 k → a ∈ get U k := by
  induction prods generalizing st with
  | nil => exact hle
  | cons kv rest ih =>
    simp only [List.foldl_cons]
    apply ih _ _ (fun x hx => hc x (by simp [hx]))
    have hkv := hc kv (by simp)
    generalize kv.2 = alts at hkv
    induction alts generalizing st with
    | nil => exact hle
    | cons rhs more ih2 =>
      simp only [List.foldl_cons]
      apply ih2 _ _ (fun r hr => hkv r (by simp [hr]))
      have hp : follow_prod g first_sets kv.1 st rhs
          = ((follow_scan g first_sets rhs.reverse
                (touch st.1 kv.1, st.2, get (touch st.1 kv.1) kv.1)).1,
             (follow_scan g first_sets rhs.reverse
                (touch st.1 kv.1, st.2, get (touch st.1 kv.1) kv.1)).2.1) := rfl
      rw [hp]
      apply follow_scan_le g first_sets U rhs.reverse _ (get U kv.1)
      · intro k a ha
        rw [get_touch] at ha
        exact hle k a ha
      · intro a ha
        simp only [get_touch] at ha
        exact hle _ _ ha
      · exact hkv rhs (by simp)

theorem compute_follow_sets_le (g : Grammar) (first_sets W U : FirstFollow)
    (hW : compute_follow_sets g first_sets = some W)
    (hinit : ENDMARK ∈ get U g.start_symbol)
    (hc : ∀ kv ∈ g.productions, ∀ rhs ∈ kv.2, follow_closed_at g first_sets U kv.1 rhs) :
    ∀ k a, a ∈ get W k → a ∈ get U k := by
  obtain ⟨W0, h0, h1, _⟩ := fix_loop_result (follow_pass g first_sets)
    (fun W => ∀ k a, a ∈ get W k → a ∈ get U k)
    (fun s hs => follow_prods_le g first_sets U g.productions (s, false) hs hc) _ _ W
    (by
      intro k a ha
      rw [get_follow_init] at ha
      by_cases hk : g.start_symbol = k
      · simp only [hk, if_true, List.mem_singleton] at ha
        rw [ha, ← hk]; exact hinit
      · simp [hk] at ha) hW
  rw [← h1]
  exact follow_prods_le g first_sets U g.productions (W0, false) h0 hc

theorem compute_follow_sets_nodup (g : Grammar) (first_sets W : FirstFollow)
    (hW : compute_follow_sets g first_sets = some W) : ∀ k, (get W k).Nodup := by
  obtain ⟨W0, h0, h1, _⟩ := fix_loop_result (follow_pass g first_sets)
    (fun W => FInv (follow_symbols g first_sets) W ∧ ∀ k, (get W k).Nodup)
    (fun s hs => ⟨(follow_pass_rel g first_sets s hs.1).1.inv,
      (follow_pass_rel g first_sets s hs.1).1.nd hs.2⟩) _ _ W
    ⟨follow_init_inv g first_sets, fun k => by
      rw [get_follow_init]
      split <;> simp⟩ hW
  rw [← h1]
  exact (follow_pass_rel g first_sets W0 h0.1).1.nd h0.2

theorem compute_follow_sets_closed (g : Grammar) (first_sets W : FirstFollow)
    (hW : compute_follow_sets g first_sets = some W) :
    (∀ kv ∈ g.productions, ∀ rhs ∈ kv.2, follow_closed_at g first_sets W kv.1 rhs) ∧
      ENDMARK ∈ get W g.start_symbol := by
  obtain ⟨W0, hinv, h1, h2⟩ := compute_follow_sets_last g first_sets W hW
  have h3 := follow_pass_rel g first_sets W0 hinv.1
  have h4 := h3.1.mono _ _ hinv.2
  have h5 := h3.2 h2
  rw [h1] at h4 h5
  exact ⟨h5, h4⟩

/-! ## Order independence -/

theorem seq_first_congr (F1 F2 : FirstFollow)
    (h : ∀ k a, a ∈ sym_first F1 k ↔ a ∈ sym_first F2 k) (seq : List String) (a : String) :
    seq_first F1 seq a ↔ seq_first F2 seq a := by
  induction seq with
  | nil => simp [seq_first]
  | cons X rest ih => simp only [seq_first, h, ih]

theorem seq_nullable_congr (F1 F2 : FirstFollow)
    (h : ∀ k a, a ∈ sym_first F1 k ↔ a ∈ sym_first F2 k) (seq : List String) :
    seq_nullable F1 seq ↔ seq_nullable F2 seq := by
  induction seq with
  | nil => simp [seq_nullable]
  | cons X rest ih => simp only [seq_nullable, h, ih]

theorem mem_first_of_sequence_congr (F1 F2 : FirstFollow)
    (h : ∀ k a, a ∈ sym_first F1 k ↔ a ∈ sym_first F2 k) (seq : List String) (a : String) :
    a ∈ first_of_sequence seq F1 ↔ a ∈ first_of_sequence seq F2 := by
  rw [mem_first_of_sequence, mem_first_of_sequence, seq_first_congr F1 F2 h,
    seq_nullable_congr F1 F2 h]

theorem prod_cells_perm (F1 W1 F2 W2 : FirstFollow) (A : String) (rhs : List String)
    (hF : ∀ k a, a ∈ sym_first F1 k ↔ a ∈ sym_first F2 k)
    (hW : ∀ a, a ∈ get W1 A ↔ a ∈ get W2 A)
    (hn1 : (get W1 A).Nodup) (hn2 : (get W2 A).Nodup) :
    (prod_cells F1 W1 A rhs).Perm (prod_cells F2 W2 A rhs) := by
  unfold prod_cells
  apply List.Perm.append
  · rw [List.perm_ext_iff_of_nodup ((nodup_first_of_sequence rhs F1).filter _)
      ((nodup_first_of_sequence rhs F2).filter _)]
    intro a
    simp only [List.mem_filter, mem_first_of_sequence_congr F1 F2 hF rhs a]
  · by_cases he : EPSILON ∈ first_of_sequence rhs F1
    · have he2 := (mem_first_of_sequence_congr F1 F2 hF rhs EPSILON).1 he
      simp only [he, he2, if_true]
      exact (List.perm_ext_iff_of_nodup hn1 hn2).2 hW
    · have he2 : EPSILON ∉ first_of_sequence rhs F2 :=
        fun h => he ((mem_first_of_sequence_congr F1 F2 hF rhs EPSILON).2 h)
      simp [he, he2]

theorem table_writes_pairs (F W : FirstFollow) (g : Grammar) :
    table_writes F W g.productions
      = (production_pairs g).flatMap
          (fun p => (prod_cells F W p.1 p.2).map (fun a => ((p.1, a), p.2))) := by
  unfold table_writes production_pairs
  rw [List.flatMap_assoc]
  congr 1
  funext kv
  rw [List.flatMap_map]

theorem table_writes_perm (g1 g2 : Grammar) (F1 W1 F2 W2 : FirstFollow)
    (hP : (production_pairs g1).Perm (production_pairs g2))
    (hcells : ∀ p ∈ production_pairs g1,
      (prod_cells F1 W1 p.1 p.2).Perm (prod_cells F2 W2 p.1 p.2)) :
    (table_writes F1 W1 g1.productions).Perm (table_writes F2 W2 g2.productions) := by
  rw [table_writes_pairs, table_writes_pairs]
  exact (List.Perm.flatMap_left _ (fun p hp => (hcells p hp).map _)).trans
    (List.Perm.flatMap_right _ hP)

theorem put_writes_perm (ws1 ws2 : List ((String × String) × List String))
    (t1 t2 : LL1Table) (hws : ws1.Perm ws2)
    (h1 : ∀ B b, cell t1 B b = none) (h2 : ∀ B b, cell t2 B b = none)
    (hrows : ∀ B, (find t1 B).isSome = (find t2 B).isSome) :
    (∃ A a B b, put_writes ws1 t1 = .error (.conflict A a) ∧
        put_writes ws2 t2 = .error (.conflict B b)) ∨
    (∃ T1 T2, put_writes ws1 t1 = .ok T1 ∧ put_writes ws2 t2 = .ok T2 ∧
        (∀ B b, cell T1 B b = cell T2 B b) ∧
        (∀ B, (find T1 B).isSome = (find T2 B).isSome)) := by
  have hkeys : (ws1.map (fun w => w.1)).Perm (ws2.map (fun w => w.1)) := hws.map _
  cases hr1 : put_writes ws1 t1 with
  | error e1 =>
    cases hr2 : put_writes ws2 t2 with
    | error e2 =>
      obtain ⟨A, a, he1⟩ := put_writes_error _ _ _ hr1
      obtain ⟨B, b, he2⟩ := put_writes_error _ _ _ hr2
      exact Or.inl ⟨A, a, B, b, by rw [he1], by rw [he2]⟩
    | ok T2 =>
      exfalso
      have hnd := hkeys.nodup_iff.2 (put_writes_ok _ _ _ hr2).2.1
      obtain ⟨T, hT⟩ := put_writes_total ws1 t1 hnd (fun w _ => h1 _ _)
      rw [hT] at hr1
      cases hr1
  | ok T1 =>
    cases hr2 : put_writes ws2 t2 with
    | error e2 =>
      exfalso
      have hnd := hkeys.nodup_iff.1 (put_writes_ok _ _ _ hr1).2.1
      obtain ⟨T, hT⟩ := put_writes_total ws2 t2 hnd (fun w _ => h2 _ _)
      rw [hT] at hr2
      cases hr2
    | ok T2 =>
      right
      refine ⟨T1, T2, rfl, rfl, fun B b => ?_, fun B => ?_⟩
      · obtain ⟨c1, _, _, _⟩ := put_writes_ok _ _ _ hr1
        obtain ⟨c2, _, _, _⟩ := put_writes_ok _ _ _ hr2
        apply Option.ext
        intro r
        simp only [Option.mem_def]
        rw [c1, c2, h1, h2, hws.mem_iff]
      · obtain ⟨_, _, _, r1⟩ := put_writes_ok _ _ _ hr1
        obtain ⟨_, _, _, r2⟩ := put_writes_ok _ _ _ hr2
        rw [Bool.eq_iff_iff, r1, r2, hrows B]
        constructor
        · rintro (h | ⟨w, hw, hB⟩)
          · exact Or.inl h
          · exact Or.inr ⟨w, hws.mem_iff.1 hw, hB⟩
        · rintro (h | ⟨w, hw, hB⟩)
          · exact Or.inl h
          · exact Or.inr ⟨w, hws.mem_iff.2 hw, hB⟩

theorem build_perm (g1 g2 : Grammar) (F1 W1 F2 W2 : FirstFollow)
    (hN : ∀ x, x ∈ g1.nonterminals ↔ x ∈ g2.nonterminals)
    (hP : (production_pairs g1).Perm (production_pairs g2))
    (hcells : ∀ p ∈ production_pairs g1,
      (prod_cells F1 W1 p.1 p.2).Perm (prod_cells F2 W2 p.1 p.2)) :
    (∃ A a B b, build_ll1_table g1 F1 W1 = .error (.conflict A a) ∧
        build_ll1_table g2 F2 W2 = .error (.conflict B b)) ∨
    (∃ T1 T2, build_ll1_table g1 F1 W1 = .ok T1 ∧ build_ll1_table g2 F2 W2 = .ok T2 ∧
        (∀ B b, cell T1 B b = cell T2 B b) ∧
        (∀ B, (find T1 B).isSome = (find T2 B).isSome)) := by
  rw [build_eq_writes, build_eq_writes]
  apply put_writes_perm _ _ _ _ (table_writes_perm g1 g2 F1 W1 F2 W2 hP hcells)
    (cell_init_rows _) (cell_init_rows _)
  intro B
  rw [find_fold_rows, find_fold_rows]
  by_cases hB : B ∈ g1.nonterminals
  · simp [hB, (hN B).1 hB]
  · have hB2 : B ∉ g2.nonterminals := fun h => hB ((hN B).2 h)
    simp [hB, hB2]

theorem get_first_nonterminal (g : Grammar) (F : FirstFollow)
    (hF : compute_first_sets g = some F)
    (hH : ∀ p ∈ production_pairs g,
      p.1 ∈ g.nonterminals ∨ p.1 ∈ g.terminals ∨ p.1 = EPSILON)
    (X : String) (hX : is_nonterminal g X = true) : get F X = sym_first F X := by
  rw [sym_first_of_find]
  apply (first_init_le_result g F hF (declared_lhs_init g hH)).2
  rw [find_first_init]
  have hX1 : X ∈ g.nonterminals := by simpa [is_nonterminal] using hX
  by_cases he : EPSILON = X <;> simp [he, hX1]

theorem follow_le_of_perm (g1 g2 : Grammar) (F1 F2 W1 W2 : FirstFollow)
    (hN : ∀ x, x ∈ g1.nonterminals ↔ x ∈ g2.nonterminals)
    (hS : g1.start_symbol = g2.start_symbol)
    (hP : ∀ p, p ∈ production_pairs g1 ↔ p ∈ production_pairs g2)
    (hF : ∀ X, is_nonterminal g2 X = true → ∀ a, a ∈ get F2 X ↔ a ∈ get F1 X)
    (hW1 : compute_follow_sets g1 F1 = some W1) (hW2 : compute_follow_sets g2 F2 = some W2) :
    ∀ k a, a ∈ get W1 k → a ∈ get W2 k := by
  obtain ⟨hc, hend⟩ := compute_follow_sets_closed g2 F2 W2 hW2
  apply compute_follow_sets_le g1 F1 W1 W2 hW1 (hS ▸ hend)
  intro kv hkv rhs hrhs
  have hp : (kv.1, rhs) ∈ production_pairs g2 :=
    (hP _).1 ((mem_production_pairs g1 kv.1 rhs).2 ⟨kv.2, hkv, hrhs⟩)
  obtain ⟨alts, ha, hr⟩ := (mem_production_pairs g2 kv.1 rhs).1 hp
  have := hc (kv.1, alts) ha rhs hr
  unfold follow_closed_at at this ⊢
  refine follow_closed_scan_congr g2 g1 F2 F1 W2 ?_ hF _ _ _ (fun a ha => ha) this
  intro X
  unfold is_nonterminal
  simp only [(hN X)]

/-- C5, amended (order independence of table construction): for two grammars
with the same declared terminals, nonterminals and start symbol whose production
lists are permutations of each other, and in which every production's left-hand
side is a declared nonterminal or terminal (or epsilon), `compute_first_sets`
and `compute_follow_sets` return on both, and `build_ll1_table` either fails
with a conflict on both or succeeds on both with the same cells and the same rows. -/
theorem order_independence (g1 g2 : Grammar)
    (hN : ∀ x, x ∈ g1.nonterminals ↔ x ∈ g2.nonterminals)
    (hT : ∀ x, x ∈ g1.terminals ↔ x ∈ g2.terminals)
    (hS : g1.start_symbol = g2.start_symbol)
    (hP : (production_pairs g1).Perm (production_pairs g2))
    (hH : ∀ p ∈ production_pairs g1,
      p.1 ∈ g1.nonterminals ∨ p.1 ∈ g1.terminals ∨ p.1 = EPSILON) :
    ∃ F1 W1 F2 W2,
      compute_first_sets g1 = some F1 ∧ compute_follow_sets g1 F1 = some W1 ∧
      compute_first_sets g2 = some F2 ∧ compute_follow_sets g2 F2 = some W2 ∧
      ((∃ A a B b, build_ll1_table g1 F1 W1 = .error (.conflict A a) ∧
          build_ll1_table g2 F2 W2 = .error (.conflict B b)) ∨
       (∃ T1 T2, build_ll1_table g1 F1 W1 = .ok T1 ∧ build_ll1_table g2 F2 W2 = .ok T2 ∧
          (∀ B b, cell T1 B b = cell T2 B b) ∧
          (∀ B, (find T1 B).isSome = (find T2 B).isSome))) := by
  obtain ⟨F1, hF1⟩ := compute_first_sets_total g1
  obtain ⟨F2, hF2⟩ := compute_first_sets_total g2
  obtain ⟨W1, hW1⟩ := compute_follow_sets_total g1 F1
  obtain ⟨W2, hW2⟩ := compute_follow_sets_total g2 F2
  refine ⟨F1, W1, F2, W2, hF1, hW1, hF2, hW2, ?_⟩
  have hPm : ∀ p, p ∈ production_pairs g1 ↔ p ∈ production_pairs g2 := fun p => hP.mem_iff
  have hH2 : ∀ p ∈ production_pairs g2,
      p.1 ∈ g2.nonterminals ∨ p.1 ∈ g2.terminals ∨ p.1 = EPSILON := by
    intro p hp
    have := hH p ((hPm p).2 hp)
    rw [hN, hT] at this
    exact this
  have hle12 := first_le_of_perm g1 g2 hN hT hPm hH2 F1 F2 hF1 hF2
  have hle21 := first_le_of_perm g2 g1 (fun x => (hN x).symm) (fun x => (hT x).symm)
    (fun p => (hPm p).symm) hH F2 F1 hF2 hF1
  have hF : ∀ k a, a ∈ sym_first F1 k ↔ a ∈ sym_first F2 k :=
    fun k a => ⟨hle12 k a, hle21 k a⟩
  have hNt : ∀ X, is_nonterminal g1 X = is_nonterminal g2 X := by
    intro X
    unfold is_nonterminal
    simp only [(hN X)]
  have hget : ∀ X, is_nonterminal g1 X = true → ∀ a, a ∈ get F1 X ↔ a ∈ get F2 X := by
    intro X hX a
    rw [get_first_nonterminal g1 F1 hF1 hH X hX,
      get_first_nonterminal g2 F2 hF2 hH2 X (hNt X ▸ hX)]
    exact hF X a
  have hW12 := follow_le_of_perm g1 g2 F1 F2 W1 W2 hN hS hPm
    (fun X hX a => (hget X ((hNt X).symm ▸ hX) a).symm) hW1 hW2
  have hW21 := follow_le_of_perm g2 g1 F2 F1 W2 W1 (fun x => (hN x).symm) hS.symm
    (fun p => (hPm p).symm) (fun X hX a => hget X hX a) hW2 hW1
  apply build_perm g1 g2 F1 W1 F2 W2 hN hP
  intro p _
  exact prod_cells_perm F1 W1 F2 W2 p.1 p.2 hF (fun a => ⟨hW12 _ a, hW21 _ a⟩)
    (compute_follow_sets_nodup g1 F1 W1 hW1 _) (compute_follow_sets_nodup g2 F2 W2 hW2 _)

theorem order_independence_witness :
    ∃ F1 W1 F2 W2,
      compute_first_sets scenario1 = some F1 ∧ compute_follow_sets scenario1 F1 = some W1 ∧
      compute_first_sets scenario1_reordered
        = some F2 ∧
      compute_follow_sets scenario1_reordered F2
        = some W2 ∧
      ((∃ A a B b, build_ll1_table scenario1 F1 W1 = .error (.conflict A a) ∧
          build_ll1_table scenario1_reordered
            F2 W2 = .error (.conflict B b)) ∨
       (∃ T1 T2, build_ll1_table scenario1 F1 W1 = .ok T1 ∧
          build_ll1_table scenario1_reordered
            F2 W2 = .ok T2 ∧
          (∀ B b, cell T1 B b = cell T2 B b) ∧
          (∀ B, (find T1 B).isSome = (find T2 B).isSome))) :=
  order_independence scenario1
    scenario1_reordered
    (fun _ => Iff.rfl) (by intro x; simp [scenario1, scenario1_reordered]; tauto) rfl
    (by simp [production_pairs, scenario1, scenario1_reordered]; exact List.Perm.swap _ _ _)
    (by decide)

/-- C5 as stated fails: `order_a` and `order_b` declare the same symbols and list
the same two productions in different orders; both tables are built without
error, yet only the first has an entry in cell `(S, A)`. -/
theorem order_independence_counterexample :
    (production_pairs order_a).Perm (production_pairs order_b) ∧
    order_a.nonterminals = order_b.nonterminals ∧ order_a.terminals = order_b.terminals ∧
    order_a.start_symbol = order_b.start_symbol ∧
    ∃ F1 W1 T1 F2 W2 T2,
      compute_first_sets order_a = some F1 ∧ compute_follow_sets order_a F1 = some W1 ∧
      build_ll1_table order_a F1 W1 = .ok T1 ∧
      compute_first_sets order_b = some F2 ∧ compute_follow_sets order_b F2 = some W2 ∧
      build_ll1_table order_b F2 W2 = .ok T2 ∧
      cell T1 "S" "A" = some ["A"] ∧ cell T2 "S" "A" = none :=
  ⟨by simp [production_pairs, order_a, order_b]; exact List.Perm.swap _ _ _, rfl, rfl, rfl,
    [("a", ["a"]), ("S", ["A", "a"]), ("epsilon", ["epsilon"]), ("A", ["A", "a"])],
    [("S", ["$"]), ("A", [])],
    [("S", [("A", ["A"]), ("a", ["A"])]), ("A", [("a", ["a"])])],
    [("a", ["a"]), ("S", ["a"]), ("epsilon", ["epsilon"]), ("A", ["a"])],
    [("S", ["$"]), ("A", [])],
    [("S", [("a", ["A"])]), ("A", [("a", ["a"])])],
    by decide, by decide, rfl, by decide, by decide, rfl, by decide, by decide⟩

/-! ## The tree builder: one expansion in closed form -/

theorem to_int_of_lt (n : Nat) (h : n < 2147483648) : to_int n = (n : Int) := by
  unfold to_int
  rw [Nat.mod_eq_of_lt (by omega), if_pos h]

theorem alloc_children_fold (top_idx : Int) (rhs : List String) (acc : List Node × List Int)
    (hb : acc.1.length + rhs.length ≤ 2147483648) :
    rhs.foldl
        (fun acc sym =>
          let idx : Int := to_int acc.1.length
          (acc.1 ++ [Node.mk idx sym top_idx (-1)], acc.2 ++ [idx]))
        acc
      = (acc.1 ++ child_block top_idx acc.1.length rhs,
         acc.2 ++ idx_from acc.1.length rhs.length) := by
  induction rhs generalizing acc with
  | nil => simp [child_block, idx_from]
  | cons x xs ih =>
    simp only [List.length_cons] at hb
    have hlt : acc.1.length < 2147483648 := by omega
    rw [List.foldl_cons]
    simp only [to_int_of_lt _ hlt]
    rw [ih _ (by simp only [List.length_append, List.length_singleton]; omega)]
    simp only [List.length_append, List.length_singleton, child_block,
      List.length_cons, idx_from, List.append_assoc, List.singleton_append, List.length_nil,
      Nat.zero_add]

theorem alloc_children_symbols (top_idx : Int) (rhs : List String) (nodes : List Node) :
    (alloc_children top_idx rhs nodes).1.map Node.symbol = nodes.map Node.symbol ++ rhs := by
  have key : ∀ acc : List Node × List Int,
      (rhs.foldl
        (fun acc sym =>
          let idx : Int := to_int acc.1.length
          (acc.1 ++ [Node.mk idx sym top_idx (-1)], acc.2 ++ [idx]))
        acc).1.map Node.symbol = acc.1.map Node.symbol ++ rhs := by
    induction rhs with
    | nil => intro acc; simp
    | cons x xs ih =>
      intro acc
      rw [List.foldl_cons, ih]
      simp
  exact key (nodes, [])

theorem set_sibling_symbols (nodes : List Node) (idx sib : Int) :
    (set_sibling nodes idx sib).map Node.symbol = nodes.map Node.symbol := by
  unfold set_sibling
  by_cases hneg : idx < 0
  · rw [if_pos hneg]
  rw [if_neg hneg]
  cases h : nodes[idx.toNat]? with
  | none => rfl
  | some n =>
    simp only
    apply List.ext_getElem?
    intro j
    simp only [List.getElem?_map, List.getElem?_set]
    by_cases hj : idx.toNat = j
    · subst hj
      simp [h]
      exact (List.getElem?_eq_some.1 h).1
    · simp [hj]

theorem link_siblings_symbols (cs : List Int) (nodes : List Node) :
    (link_siblings cs nodes).map Node.symbol = nodes.map Node.symbol := by
  unfold link_siblings
  generalize List.range (cs.length - 1) = l
  induction l generalizing nodes with
  | nil => rfl
  | cons j js ih =>
    rw [List.foldl_cons, ih, set_sibling_symbols]

theorem expand_symbols (top_idx : Int) (rhs : List String) (nodes : List Node) :
    (link_siblings (alloc_children top_idx rhs nodes).2
      (alloc_children top_idx rhs nodes).1).map Node.symbol = nodes.map Node.symbol ++ rhs := by
  rw [link_siblings_symbols, alloc_children_symbols]

theorem expand_length (top_idx : Int) (rhs : List String) (nodes : List Node) :
    (link_siblings (alloc_children top_idx rhs nodes).2
      (alloc_children top_idx rhs nodes).1).length = nodes.length + rhs.length := by
  have := congrArg List.length (expand_symbols top_idx rhs nodes)
  simpa using this

theorem alloc_children_eq (top_idx : Int) (rhs : List String) (nodes : List Node)
    (hb : nodes.length + rhs.length ≤ 2147483648) :
    alloc_children top_idx rhs nodes
      = (nodes ++ child_block top_idx nodes.length rhs, idx_from nodes.length rhs.length) := by
  unfold alloc_children
  rw [alloc_children_fold top_idx rhs (nodes, []) hb]
  simp

theorem idx_from_length (n m : Nat) : (idx_from n m).length = m := by
  induction m generalizing n with
  | zero => rfl
  | succ m ih => simp [idx_from, ih]

theorem idx_from_getD (n m j : Nat) (h : j < m) : (idx_from n m).getD j 0 = (n : Int) + j := by
  induction m generalizing n j with
  | zero => omega
  | succ m ih =>
    cases j with
    | zero => simp [idx_from]
    | succ j =>
      simp only [idx_from, List.getD_cons_succ]
      rw [ih (n + 1) j (by omega)]
      push_cast
      omega

theorem child_block_length (top_idx : Int) (n : Nat) (rhs : List String) :
    (child_block top_idx n rhs).length = rhs.length := by
  induction rhs generalizing n with
  | nil => rfl
  | cons x xs ih => simp [child_block, ih]

theorem linked_block_length (top_idx : Int) (n : Nat) (rhs : List String) :
    (linked_block top_idx n rhs).length = rhs.length := by
  induction rhs generalizing n with
  | nil => rfl
  | cons x xs ih => simp [linked_block, ih]

theorem set_sibling_append (nodes : List Node) (c : Node) (rest : List Node) (sib : Int) :
    set_sibling (nodes ++ c :: rest) (nodes.length : Int) sib
      = nodes ++ { c with sibling := sib } :: rest := by
  have h : (nodes ++ c :: rest)[nodes.length]? = some c := by
    rw [List.getElem?_append_right (le_refl _)]
    simp
  unfold set_sibling
  rw [if_neg (by omega)]
  simp only [Int.toNat_ofNat, h]
  simp

theorem link_siblings_eq (top_idx : Int) (rhs : List String) (nodes : List Node) :
    link_siblings (idx_from nodes.length rhs.length)
        (nodes ++ child_block top_idx nodes.length rhs)
      = nodes ++ linked_block top_idx nodes.length rhs := by
  induction rhs generalizing nodes with
  | nil => simp [link_siblings, idx_from, child_block, linked_block]
  | cons x xs ih =>
    cases xs with
    | nil => simp [link_siblings, idx_from, child_block, linked_block]
    | cons y ys =>
      have hih := ih (nodes ++ [Node.mk nodes.length x top_idx ((nodes.length : Int) + 1)])
      simp only [List.length_append, List.length_singleton, List.append_assoc,
        List.singleton_append] at hih
      have hl : link_siblings (idx_from nodes.length (x :: y :: ys).length)
            (nodes ++ child_block top_idx nodes.length (x :: y :: ys))
          = link_siblings (idx_from (nodes.length + 1) (y :: ys).length)
              (nodes ++ Node.mk nodes.length x top_idx ((nodes.length : Int) + 1)
                :: child_block top_idx (nodes.length + 1) (y :: ys)) := by
        unfold link_siblings
        simp only [List.length_cons, idx_from, idx_from_length, Nat.add_sub_cancel]
        rw [List.range_succ_eq_map, List.foldl_cons, List.foldl_map]
        congr 1
        simp only [child_block, List.getD_cons_zero, List.getD_cons_succ]
        rw [set_sibling_append]
        simp
      rw [hl, hih]
      simp [linked_block]

theorem child_block_getElem? (top_idx : Int) (n : Nat) (rhs : List String) (j : Nat) :
    (child_block top_idx n rhs)[j]?
      = (rhs[j]?).map (fun sym => Node.mk ((n : Int) + j) sym top_idx (-1)) := by
  induction rhs generalizing n j with
  | nil => simp [child_block]
  | cons x xs ih =>
    cases j with
    | zero => simp [child_block]
    | succ j =>
      simp only [child_block, List.getElem?_cons_succ, ih]
      congr 1
      funext sym
      push_cast
      congr 1
      omega

theorem linked_block_getElem? (top_idx : Int) (n : Nat) (rhs : List String) (j : Nat) :
    (linked_block top_idx n rhs)[j]?
      = (rhs[j]?).map (fun sym => Node.mk ((n : Int) + j) sym top_idx
          (if j + 1 < rhs.length then (n : Int) + j + 1 else -1)) := by
  induction rhs generalizing n j with
  | nil => simp [linked_block]
  | cons x xs ih =>
    cases j with
    | zero =>
      cases xs <;> simp [linked_block]
    | succ j =>
      simp only [linked_block, List.getElem?_cons_succ, ih, List.length_cons,
        Nat.add_lt_add_iff_right]
      congr 1
      funext sym
      push_cast
      congr 1
      · omega
      · split <;> omega

theorem push_children_eq (rhs : List String) (cs : List Int) (st : List (String × Int)) :
    push_children rhs cs st
      = (List.range rhs.length).map (fun k => (rhs.getD k "", cs.getD k 0)) ++ st := by
  unfold push_children
  generalize List.range rhs.length = l
  induction l generalizing st with
  | nil => simp
  | cons k ks ih =>
    simp only [List.reverse_cons, List.foldl_append, List.foldl_cons, List.foldl_nil,
      List.map_cons, List.cons_append]
    rw [ih]

theorem expand_nodes_eq (top_idx : Int) (rhs : List String) (nodes : List Node)
    (hb : nodes.length + rhs.length ≤ 2147483648) :
    link_siblings (alloc_children top_idx rhs nodes).2 (alloc_children top_idx rhs nodes).1
      = nodes ++ linked_block top_idx nodes.length rhs := by
  rw [alloc_children_eq top_idx rhs nodes hb]
  exact link_siblings_eq top_idx rhs nodes

theorem expand_stack_eq (top_idx : Int) (rhs : List String) (nodes : List Node)
    (st : List (String × Int)) (hb : nodes.length + rhs.length ≤ 2147483648) :
    push_children rhs (alloc_children top_idx rhs nodes).2 st
      = (List.range rhs.length).map (fun k => (rhs.getD k "", (nodes.length : Int) + k))
          ++ st := by
  rw [alloc_children_eq top_idx rhs nodes hb, push_children_eq]
  congr 1
  apply List.map_congr_left
  intro k hk
  rw [idx_from_getD _ _ k (List.mem_range.1 hk)]

theorem expand_old (nodes : List Node) (top : Int) (rhs : List String) (j : Nat) (m : Node)
    (h : nodes[j]? = some m) : (nodes ++ linked_block top nodes.length rhs)[j]? = some m := by
  have hj : j < nodes.length := (List.getElem?_eq_some.1 h).1
  rw [List.getElem?_append_left hj]
  exact h

theorem expand_new (nodes : List Node) (top : Int) (rhs : List String) (i : Nat)
    (sym : String) (h : rhs[i]? = some sym) :
    (nodes ++ linked_block top nodes.length rhs)[nodes.length + i]?
      = some (Node.mk ((nodes.length : Int) + i) sym top
          (if i + 1 < rhs.length then (nodes.length : Int) + i + 1 else -1)) := by
  rw [List.getElem?_append_right (by omega)]
  simp only [Nat.add_sub_cancel_left, linked_block_getElem?, h, Option.map_some']

theorem expand_cases (nodes : List Node) (top : Int) (rhs : List String) (j : Nat) (m : Node)
    (h : (nodes ++ linked_block top nodes.length rhs)[j]? = some m) :
    (j < nodes.length ∧ nodes[j]? = some m) ∨
    (∃ i sym, j = nodes.length + i ∧ rhs[i]? = some sym ∧
      m = Node.mk ((nodes.length : Int) + i) sym top
          (if i + 1 < rhs.length then (nodes.length : Int) + i + 1 else -1)) := by
  by_cases hj : j < nodes.length
  · rw [List.getElem?_append_left hj] at h
    exact Or.inl ⟨hj, h⟩
  · rw [List.getElem?_append_right (by omega), linked_block_getElem?] at h
    right
    cases hr : rhs[j - nodes.length]? with
    | none => simp [hr] at h
    | some sym =>
      simp only [hr, Option.map_some', Option.some.injEq] at h
      exact ⟨j - nodes.length, sym, by omega, hr, h.symm⟩

theorem tree_inv_init (g : Grammar) (table : LL1Table) :
    TreeInv g table
      ⟨[Node.mk 0 g.start_symbol (-1) (-1)], [(g.start_symbol, 0), (ENDMARK, -1)], 0⟩ := by
  refine ⟨⟨_, rfl, rfl, rfl⟩, ?_, ?_, ?_, ?_, ?_⟩
  · intro k n h
    cases k with
    | zero => simp at h; rw [← h]; rfl
    | succ k => simp at h
  · intro k n h hk
    cases k with
    | zero => omega
    | succ k => simp at h
  · intro e he
    simp only [List.mem_cons, List.mem_singleton, List.not_mem_nil, or_false] at he
    rcases he with he | he
    · right
      refine ⟨0, Node.mk 0 g.start_symbol (-1) (-1), by rw [he]; rfl, rfl, by rw [he], ?_⟩
      intro j m hj
      cases j with
      | zero => simp at hj; rw [← hj]; simp
      | succ j => simp at hj
    · exact Or.inl he
  · simp
  · rintro p ⟨j, m, hj, hm⟩
    exfalso
    cases j with
    | zero =>
      simp at hj
      rw [← hj] at hm
      simp at hm
    | succ j => simp at hj

/-! ## The tree invariant is preserved -/

theorem tree_inv_pop (g : Grammar) (table : LL1Table) (nodes : List Node)
    (e : String × Int) (st1 : List (String × Int)) (i i1 : Nat)
    (h : TreeInv g table ⟨nodes, e :: st1, i⟩) : TreeInv g table ⟨nodes, st1, i1⟩ :=
  ⟨h.root, h.index, h.father, fun x hx => h.stack x (List.mem_cons_of_mem _ hx),
    (List.nodup_cons.1 h.distinct).2, h.block⟩

theorem block_bound (table : LL1Table) (nodes : List Node) (c : Nat) (rhs : List String)
    (h4 : ∀ j, j < rhs.length → ∃ m : Node, nodes[c + j]? = some m ∧ rhs[j]? = some m.symbol ∧
      m.sibling = if j + 1 < rhs.length then ((c + j + 1 : Nat) : Int) else -1) :
    rhs.length = 0 ∨ c + rhs.length ≤ nodes.length := by
  by_cases h0 : rhs.length = 0
  · exact Or.inl h0
  · right
    obtain ⟨m, hm, _⟩ := h4 (rhs.length - 1) (by omega)
    have := (List.getElem?_eq_some.1 hm).1
    omega

theorem tree_inv_expand (g : Grammar) (table : LL1Table) (nodes : List Node)
    (top_sym current : String) (top_idx : Int) (st1 : List (String × Int)) (i : Nat)
    (rhs : List String) (h : TreeInv g table ⟨nodes, (top_sym, top_idx) :: st1, i⟩)
    (hne : top_sym ≠ ENDMARK) (hcell : cell table top_sym current = some rhs) :
    TreeInv g table
      ⟨nodes ++ linked_block top_idx nodes.length rhs,
       (List.range rhs.length).map (fun k => (rhs.getD k "", (nodes.length : Int) + k)) ++ st1,
       i⟩ := by
  have htop := h.stack (top_sym, top_idx) (by simp)
  rcases htop with htop | ⟨k, nk, hk1, hk2, hk3, hk4⟩
  · simp only [Prod.mk.injEq] at htop
    exact absurd htop.1 hne
  simp only at hk1 hk2 hk3 hk4
  subst hk1
  have hkn : k < nodes.length := (List.getElem?_eq_some.1 hk2).1
  obtain ⟨n0, hr1, hr2, hr3⟩ := h.root
  have hidx := h.index
  have hfa := h.father
  have hst := h.stack
  have hdi := h.distinct
  have hbl := h.block
  simp only at hr1 hidx hfa hst hdi hbl
  have hfa_lt : ∀ (j : Nat) (m : Node), nodes[j]? = some m → m.father < (nodes.length : Int) := by
    intro j m hj
    have hjn : j < nodes.length := (List.getElem?_eq_some.1 hj).1
    cases j with
    | zero =>
      rw [hr1] at hj
      simp only [Option.some.injEq] at hj
      rw [← hj, hr3]
      omega
    | succ j =>
      have := (hfa _ m hj (by omega)).2
      omega
  refine ⟨⟨n0, expand_old _ _ _ _ _ hr1, hr2, hr3⟩, ?_, ?_, ?_, ?_, ?_⟩
  · intro j m hj
    rcases expand_cases _ _ _ _ _ hj with ⟨_, hold⟩ | ⟨i1, sym, rfl, _, rfl⟩
    · exact hidx j m hold
    · simp
  · intro j m hj hpos
    rcases expand_cases _ _ _ _ _ hj with ⟨_, hold⟩ | ⟨i1, sym, rfl, _, rfl⟩
    · exact hfa j m hold hpos
    · simp only [Nat.cast_add]
      omega
  · intro e he
    rcases List.mem_append.1 he with hnew | hold
    · right
      obtain ⟨j, hj, rfl⟩ := List.mem_map.1 hnew
      have hjl : j < rhs.length := List.mem_range.1 hj
      have hget : rhs[j]? = some (rhs.getD j "") := by
        rw [List.getD_eq_getElem?_getD, List.getElem?_eq_getElem hjl]
        simp
      refine ⟨nodes.length + j, _, by simp, expand_new nodes _ rhs j _ hget, rfl, ?_⟩
      intro j1 m hj1
      rcases expand_cases _ _ _ _ _ hj1 with ⟨_, hold⟩ | ⟨i1, sym, rfl, _, rfl⟩
      · have := hfa_lt j1 m hold
        simp only [Nat.cast_add]
        omega
      · simp only [Nat.cast_add]
        omega
    · rcases hst e (List.mem_cons_of_mem _ hold) with hb | ⟨k1, n1, he1, he2, he3, he4⟩
      · exact Or.inl hb
      · right
        refine ⟨k1, n1, he1, expand_old _ _ _ _ _ he2, he3, ?_⟩
        intro j1 m hj1
        rcases expand_cases _ _ _ _ _ hj1 with ⟨_, hold1⟩ | ⟨i1, sym, rfl, _, rfl⟩
        · exact he4 j1 m hold1
        · simp only
          intro hkk
          have hnot := (List.nodup_cons.1 hdi).1
          apply hnot
          simp only [List.mem_map]
          exact ⟨e, hold, by rw [he1, hkk]⟩
  · simp only [List.map_append, List.map_map]
    rw [List.nodup_append]
    refine ⟨?_, (List.nodup_cons.1 hdi).2, ?_⟩
    · apply List.Nodup.map _ (List.nodup_range _)
      intro a b hab
      simp only [Function.comp] at hab
      omega
    · intro x hx1 hx2
      obtain ⟨j, _, rfl⟩ := List.mem_map.1 hx1
      obtain ⟨e, he, hex⟩ := List.mem_map.1 hx2
      simp only [Function.comp] at hex
      rcases hst e (List.mem_cons_of_mem _ he) with hb | ⟨k1, n1, he1, he2, _, _⟩
      · rw [hb] at hex
        simp only at hex
        omega
      · have hk1n : k1 < nodes.length := (List.getElem?_eq_some.1 he2).1
        rw [he1] at hex
        omega
  · rintro p ⟨j, m, hj, hm⟩
    by_cases hp : p = k
    · subst hp
      refine ⟨nodes.length, rhs, nk, current, expand_old _ _ _ _ _ hk2, by rw [hk3]; exact hcell,
        ?_, ?_⟩
      · intro j1 m1 hj1
        rcases expand_cases _ _ _ _ _ hj1 with ⟨hlt, hold1⟩ | ⟨i1, sym, rfl, hsym, rfl⟩
        · constructor
          · intro hf
            exact absurd hf (hk4 j1 m1 hold1)
          · intro hc
            omega
        · have hi1 : i1 < rhs.length := (List.getElem?_eq_some.1 hsym).1
          simp only [true_iff]
          omega
      · intro j1 hj1
        have hget : rhs[j1]? = some (rhs.getD j1 "") := by
          rw [List.getD_eq_getElem?_getD, List.getElem?_eq_getElem hj1]
          simp
        refine ⟨_, expand_new nodes _ rhs j1 _ hget, hget, ?_⟩
        simp only
        split
        · push_cast; rfl
        · rfl
    · rcases expand_cases _ _ _ _ _ hj with ⟨_, hold⟩ | ⟨i1, sym, rfl, _, rfl⟩
      · obtain ⟨c, rhs1, np, a, h1, h2, h3, h4⟩ := hbl p ⟨j, m, hold, hm⟩
        have hbound := block_bound table nodes c rhs1 h4
        refine ⟨c, rhs1, np, a, expand_old _ _ _ _ _ h1, h2, ?_, ?_⟩
        · intro j1 m1 hj1
          rcases expand_cases _ _ _ _ _ hj1 with ⟨_, hold1⟩ | ⟨i1, sym, rfl, _, rfl⟩
          · exact h3 j1 m1 hold1
          · simp only
            constructor
            · intro hf
              exact absurd (Int.ofNat_inj.1 hf).symm hp
            · intro hc
              omega
        · intro j1 hj1
          obtain ⟨m1, ha, hb, hc⟩ := h4 j1 hj1
          exact ⟨m1, expand_old _ _ _ _ _ ha, hb, hc⟩
      · simp only at hm
        exact absurd (Int.ofNat_inj.1 hm).symm hp

theorem tree_step_next (g : Grammar) (table : LL1Table) (tokens : List String)
    (s s1 : TreeState) (hi : TreeInv g table s) (hs : tree_step g table tokens s = .next s1)
    (hb : s1.nodes.length ≤ 2147483648) :
    TreeInv g table s1 := by
  obtain ⟨nodes, st, i⟩ := s
  unfold tree_step at hs
  cases st with
  | nil => simp at hs
  | cons e st1 =>
    obtain ⟨top_sym, top_idx⟩ := e
    cases hcur : tokens[i]? with
    | none => simp [hcur] at hs
    | some current =>
      simp only [hcur] at hs
      by_cases hterm : (is_terminal g top_sym || decide (top_sym = ENDMARK)) = true
      · rw [if_pos hterm] at hs
        by_cases htc : top_sym = current
        · rw [if_pos htc] at hs
          by_cases hc : current = ENDMARK ∧ st1 = []
          · rw [if_pos hc] at hs; cases hs
          · rw [if_neg hc] at hs
            cases hs
            exact tree_inv_pop g table nodes _ st1 i _ hi
        · rw [if_neg htc] at hs; cases hs
      · rw [if_neg hterm] at hs
        by_cases hA : is_nonterminal g top_sym = true
        · rw [if_pos hA] at hs
          cases hcell : cell table top_sym current with
          | none => simp [hcell] at hs
          | some rhs =>
            simp only [hcell] at hs
            simp only [Bool.or_eq_true, decide_eq_true_eq, not_or] at hterm
            by_cases he : rhs = [EPSILON]
            · rw [if_pos he] at hs
              by_cases hc : current = ENDMARK ∧ st1 = []
              · rw [if_pos hc] at hs; cases hs
              · rw [if_neg hc] at hs
                cases hs
                exact tree_inv_pop g table nodes _ st1 i _ hi
            · rw [if_neg he] at hs
              split at hs
              · cases hs
              · cases hs
                simp only [expand_length] at hb
                rw [expand_nodes_eq _ _ _ hb, expand_stack_eq _ _ _ _ hb]
                exact tree_inv_expand g table nodes top_sym current top_idx st1 i rhs hi
                  hterm.2 hcell
        · rw [if_neg hA] at hs; cases hs

theorem tree_step_halt (g : Grammar) (table : LL1Table) (tokens : List String)
    (s : TreeState) (nodes : List Node) (hi : TreeInv g table s)
    (hs : tree_step g table tokens s = .halt (.ok nodes))
    (hb : nodes.length ≤ 2147483648) :
    ∃ st i, TreeInv g table ⟨nodes, st, i⟩ := by
  obtain ⟨nodes0, st, i⟩ := s
  unfold tree_step at hs
  cases st with
  | nil =>
    simp only [Step.halt.injEq, Except.ok.injEq] at hs
    exact ⟨[], i, hs ▸ hi⟩
  | cons e st1 =>
    obtain ⟨top_sym, top_idx⟩ := e
    cases hcur : tokens[i]? with
    | none => simp [hcur] at hs
    | some current =>
      simp only [hcur] at hs
      by_cases hterm : (is_terminal g top_sym || decide (top_sym = ENDMARK)) = true
      · rw [if_pos hterm] at hs
        by_cases htc : top_sym = current
        · rw [if_pos htc] at hs
          by_cases hc : current = ENDMARK ∧ st1 = []
          · rw [if_pos hc] at hs
            simp only [Step.halt.injEq, Except.ok.injEq] at hs
            exact ⟨_, i, hs ▸ hi⟩
          · rw [if_neg hc] at hs; cases hs
        · rw [if_neg htc] at hs
          simp at hs
      · rw [if_neg hterm] at hs
        by_cases hA : is_nonterminal g top_sym = true
        · rw [if_pos hA] at hs
          cases hcell : cell table top_sym current with
          | none => simp [hcell] at hs
          | some rhs =>
            simp only [hcell] at hs
            simp only [Bool.or_eq_true, decide_eq_true_eq, not_or] at hterm
            by_cases he : rhs = [EPSILON]
            · rw [if_pos he] at hs
              by_cases hc : current = ENDMARK ∧ st1 = []
              · rw [if_pos hc] at hs
                simp only [Step.halt.injEq, Except.ok.injEq] at hs
                exact ⟨_, i, hs ▸ hi⟩
              · rw [if_neg hc] at hs; cases hs
            · rw [if_neg he] at hs
              split at hs
              · simp only [Step.halt.injEq, Except.ok.injEq] at hs
                subst hs
                simp only [expand_length] at hb
                have := tree_inv_expand g table nodes0 top_sym current top_idx st1 i rhs hi
                  hterm.2 hcell
                rw [expand_nodes_eq _ _ _ hb]
                exact ⟨_, i, this⟩
              · cases hs
        · rw [if_neg hA] at hs; cases hs

/-- The node array never shrinks. -/
theorem tree_step_length (g : Grammar) (table : LL1Table) (tokens : List String)
    (s : TreeState) :
    (∀ s1, tree_step g table tokens s = .next s1 → s.nodes.length ≤ s1.nodes.length) ∧
    (∀ nodes, tree_step g table tokens s = .halt (.ok nodes) →
      s.nodes.length ≤ nodes.length) := by
  obtain ⟨nodes0, st, i⟩ := s
  unfold tree_step
  cases st with
  | nil =>
    refine ⟨(fun s1 hs => by cases hs), fun nodes hs => ?_⟩
    simp only [Step.halt.injEq, Except.ok.injEq] at hs
    rw [← hs]
  | cons e st1 =>
    obtain ⟨top_sym, top_idx⟩ := e
    cases hcur : tokens[i]? with
    | none => exact ⟨(fun s1 hs => by cases hs), fun nodes hs => by cases hs⟩
    | some current =>
      simp only
      split
      · split
        · split
          · refine ⟨(fun s1 hs => by cases hs), fun nodes hs => ?_⟩
            simp only [Step.halt.injEq, Except.ok.injEq] at hs
            rw [← hs]
          · refine ⟨fun s1 hs => ?_, fun nodes hs => by cases hs⟩
            cases hs; exact le_refl _
        · exact ⟨(fun s1 hs => by cases hs), fun nodes hs => by cases hs⟩
      · split
        · cases hcell : cell table top_sym current with
          | none => exact ⟨(fun s1 hs => by cases hs), fun nodes hs => by cases hs⟩
          | some rhs =>
            simp only
            split
            · split
              · refine ⟨(fun s1 hs => by cases hs), fun nodes hs => ?_⟩
                simp only [Step.halt.injEq, Except.ok.injEq] at hs
                rw [← hs]
              · refine ⟨fun s1 hs => ?_, fun nodes hs => by cases hs⟩
                cases hs; exact le_refl _
            · split
              · refine ⟨(fun s1 hs => by cases hs), fun nodes hs => ?_⟩
                simp only [Step.halt.injEq, Except.ok.injEq] at hs
                rw [← hs, expand_length]
                omega
              · refine ⟨fun s1 hs => ?_, fun nodes hs => by cases hs⟩
                cases hs
                simp only [expand_length]
                omega
        · exact ⟨(fun s1 hs => by cases hs), fun nodes hs => by cases hs⟩

theorem parse_with_tree_inv (g : Grammar) (table : LL1Table) (tokens : List String)
    (fuel : Nat) (nodes : List Node)
    (h : parse_with_tree g table tokens fuel = some (.ok nodes))
    (hb : nodes.length ≤ 2147483648) :
    ∃ st i, TreeInv g table ⟨nodes, st, i⟩ := by
  obtain ⟨s1, hi, hs⟩ := run_loop_inv (tree_step g table (tokens ++ [ENDMARK]))
    (fun s => s.nodes.length ≤ 2147483648 → TreeInv g table s)
    (fun s s1 hi hs hb1 => tree_step_next g table _ s s1
      (hi (le_trans ((tree_step_length g table _ s).1 s1 hs) hb1)) hs hb1) fuel _ _
    (fun _ => tree_inv_init g table) h
  exact tree_step_halt g table _ s1 nodes
    (hi (le_trans ((tree_step_length g table _ s1).2 nodes hs) hb)) hs hb

/-- C9 (tree root and father order), for node arrays that the `int` index
can address: on every node array of at most 2^31 nodes returned by
`parse_with_tree`, node 0 carries the start symbol and father -1, the node at
position `k` has index field `k`, and every node at a position `k > 0` has a
father `f` with `0 <= f < k`. -/
theorem tree_root_and_fathers (g : Grammar) (table : LL1Table) (tokens : List String)
    (fuel : Nat) (nodes : List Node)
    (h : parse_with_tree g table tokens fuel = some (.ok nodes))
    (hb : nodes.length ≤ 2147483648) :
    (∃ n0, nodes[0]? = some n0 ∧ n0.symbol = g.start_symbol ∧ n0.father = -1) ∧
    (∀ (k : Nat) (n : Node), nodes[k]? = some n → n.index = (k : Int)) ∧
    (∀ (k : Nat) (n : Node), nodes[k]? = some n → 0 < k →
      0 ≤ n.father ∧ n.father < (k : Int)) := by
  obtain ⟨st, i, hinv⟩ := parse_with_tree_inv g table tokens fuel nodes h hb
  exact ⟨hinv.root, hinv.index, hinv.father⟩

/-- C10 (sibling chain), for node arrays that the `int` index can address: on
every node array of at most 2^31 nodes returned by `parse_with_tree`, for
every position `p` that is the father of some node, the nodes whose father is
`p` are exactly those at positions `c, ..., c+m-1`; node `c+j` has sibling
`c+j+1` for `j+1 < m` and the last has sibling -1; and their symbols in this
order are a right-hand side `rhs` of length `m` stored in the table row of the
symbol of node `p`. -/
theorem tree_sibling_chain (g : Grammar) (table : LL1Table) (tokens : List String)
    (fuel : Nat) (nodes : List Node)
    (h : parse_with_tree g table tokens fuel = some (.ok nodes))
    (hb : nodes.length ≤ 2147483648) (p : Nat)
    (hp : ∃ (j : Nat) (m : Node), nodes[j]? = some m ∧ m.father = (p : Int)) :
    ∃ (c : Nat) (rhs : List String) (np : Node) (a : String),
      nodes[p]? = some np ∧ cell table np.symbol a = some rhs ∧
      (∀ (j : Nat) (m : Node), nodes[j]? = some m →
        (m.father = (p : Int) ↔ c ≤ j ∧ j < c + rhs.length)) ∧
      (∀ j, j < rhs.length → ∃ m : Node, nodes[c + j]? = some m ∧
        rhs[j]? = some m.symbol ∧
        m.sibling = if j + 1 < rhs.length then ((c + j + 1 : Nat) : Int) else -1) := by
  obtain ⟨st, i, hinv⟩ := parse_with_tree_inv g table tokens fuel nodes h hb
  exact hinv.block p hp

theorem tree_root_and_fathers_witness :
    (∃ n0, scenario1_tree[0]? = some n0 ∧ n0.symbol = scenario1.start_symbol ∧
      n0.father = -1) ∧
    (∀ (k : Nat) (n : Node), scenario1_tree[k]? = some n → n.index = (k : Int)) ∧
    (∀ (k : Nat) (n : Node), scenario1_tree[k]? = some n → 0 < k →
      0 ≤ n.father ∧ n.father < (k : Int)) :=
  tree_root_and_fathers scenario1 scenario1_table ["a", "a", "b", "b"] 12 scenario1_tree rfl
    (by decide)

theorem tree_sibling_chain_witness :
    ∃ (c : Nat) (rhs : List String) (np : Node) (a : String),
      scenario1_tree[2]? = some np ∧ cell scenario1_table np.symbol a = some rhs ∧
      (∀ (j : Nat) (m : Node), scenario1_tree[j]? = some m →
        (m.father = ((2 : Nat) : Int) ↔ c ≤ j ∧ j < c + rhs.length)) ∧
      (∀ j, j < rhs.length → ∃ m : Node, scenario1_tree[c + j]? = some m ∧
        rhs[j]? = some m.symbol ∧
        m.sibling = if j + 1 < rhs.length then ((c + j + 1 : Nat) : Int) else -1) :=
  tree_sibling_chain scenario1 scenario1_table ["a", "a", "b", "b"] 12 scenario1_tree rfl
    (by decide) 2 ⟨4, ⟨4, "a", 2, 5⟩, rfl, rfl⟩

/-! ## One more pass changes nothing -/

theorem first_insert_flag (A a : String) (st : FirstFollow × Bool)
    (h : (first_insert A a st).2 = false) : st.2 = false ∧ a ∈ get st.1 A := by
  simpa [first_insert] using h

theorem first_insert_keys (A a : String) (st : FirstFollow × Bool) (k : String)
    (h : find st.1 k ≠ none) : find (first_insert A a st).1 k ≠ none := by
  simp only [first_insert, find_assign]
  split
  · simp
  · exact h

theorem first_add_flag (A : String) (l : List String) (st : FirstFollow × Bool)
    (h : (first_add A l st).2 = false) : st.2 = false := by
  induction l generalizing st with
  | nil => exact h
  | cons x xs ih =>
    by_cases hx : x = EPSILON
    · simp only [first_add, hx, ne_eq, not_true_eq_false, if_false] at h
      exact ih st h
    · simp only [first_add, ne_eq, hx, not_false_eq_true, if_true] at h
      exact (first_insert_flag A x st (ih _ h)).1

theorem first_add_keys (A : String) (l : List String) (st : FirstFollow × Bool) (k : String)
    (h : find st.1 k ≠ none) : find (first_add A l st).1 k ≠ none := by
  induction l generalizing st with
  | nil => exact h
  | cons x xs ih =>
    by_cases hx : x = EPSILON
    · simp only [first_add, hx, ne_eq, not_true_eq_false, if_false]
      exact ih st h
    · simp only [first_add, ne_eq, hx, not_false_eq_true, if_true]
      exact ih _ (first_insert_keys A x st k h)

theorem first_insert_sim (A a : String) (sx sy : FirstFollow × Bool) (hR : FSim sx.1 sy.1)
    (hf : (first_insert A a sx).2 = false) :
    (first_insert A a sy).2 = sy.2 ∧ FSim (first_insert A a sx).1 (first_insert A a sy).1 := by
  obtain ⟨x, cx⟩ := sx
  obtain ⟨y, cy⟩ := sy
  obtain ⟨_, hax⟩ := first_insert_flag A a (x, cx) hf
  simp only at hR hax
  have hay : a ∈ get y A := hR.2 A a hax
  have hx1 : ss_insert (get x A) a = get x A := by simp [ss_insert, hax]
  have hy1 : ss_insert (get y A) a = get y A := by simp [ss_insert, hay]
  have hfx := get_eq_of_mem x A a hax
  have hfy := get_eq_of_mem y A a hay
  refine ⟨by simp [first_insert, hay], ?_, ?_⟩
  · intro k
    simp only [first_insert, hx1, hy1, sym_first_assign]
    by_cases hk : A = k
    · subst hk
      have := hR.1 A
      simp only [sym_first, hfx, hfy] at this
      simp [this]
    · simp only [hk, if_false]
      exact hR.1 k
  · intro k b hb
    simp only [first_insert, hx1, hy1, get_assign] at hb ⊢
    by_cases hk : A = k
    · subst hk
      simp only [if_true] at hb ⊢
      exact hR.2 A b hb
    · simp only [hk, if_false] at hb ⊢
      exact hR.2 k b hb

theorem first_add_sim (A : String) (l : List String) (sx sy : FirstFollow × Bool)
    (hR : FSim sx.1 sy.1) (hf : (first_add A l sx).2 = false) :
    (first_add A l sy).2 = sy.2 ∧ FSim (first_add A l sx).1 (first_add A l sy).1 := by
  induction l generalizing sx sy with
  | nil => exact ⟨rfl, hR⟩
  | cons a rest ih =>
    by_cases ha : a = EPSILON
    · simp only [first_add, ha, ne_eq, not_true_eq_false, if_false] at hf ⊢
      exact ih sx sy hR hf
    · simp only [first_add, ne_eq, ha, not_false_eq_true, if_true] at hf ⊢
      have hf1 := first_add_flag A rest _ hf
      obtain ⟨h1, h2⟩ := first_insert_sim A a sx sy hR hf1
      obtain ⟨h3, h4⟩ := ih (first_insert A a sx) (first_insert A a sy) h2 hf
      exact ⟨h3.trans h1, h4⟩

theorem create_sim (X : String) (x y : FirstFollow) (hR : FSim x y) :
    FSim (if (find x X).isNone then assign x X [X] else x)
      (if (find y X).isNone then assign y X [X] else y) := by
  refine ⟨fun k => by rw [sym_first_create, sym_first_create]; exact hR.1 k, ?_⟩
  intro k b hb
  by_cases hk : X = k
  · subst hk
    rw [(get_create x X).1] at hb
    rw [(get_create y X).1, ← hR.1 X]
    exact hb
  · have hgx : get (if (find x X).isNone then assign x X [X] else x) k = get x k := by
      split
      · simp [get_assign, hk]
      · rfl
    have hgy : get (if (find y X).isNone then assign y X [X] else y) k = get y k := by
      split
      · simp [get_assign, hk]
      · rfl
    rw [hgx] at hb
    rw [hgy]
    exact hR.2 k b hb

theorem first_scan_cons (A X : String) (rest : List String) (st : FirstFollow × Bool) :
    first_scan A (X :: rest) st
      = if EPSILON ∈ get (first_add A
            (get (if (find st.1 X).isNone then assign st.1 X [X] else st.1) X)
            (if (find st.1 X).isNone then assign st.1 X [X] else st.1, st.2)).1 X
        then first_scan A rest (first_add A
            (get (if (find st.1 X).isNone then assign st.1 X [X] else st.1) X)
            (if (find st.1 X).isNone then assign st.1 X [X] else st.1, st.2))
        else ((first_add A
            (get (if (find st.1 X).isNone then assign st.1 X [X] else st.1) X)
            (if (find st.1 X).isNone then assign st.1 X [X] else st.1, st.2)).1,
          (first_add A
            (get (if (find st.1 X).isNone then assign st.1 X [X] else st.1) X)
            (if (find st.1 X).isNone then assign st.1 X [X] else st.1, st.2)).2, false) := by
  simp only [first_scan]

theorem first_scan_flag (A : String) (rest : List String) (st : FirstFollow × Bool)
    (h : (first_scan A rest st).2.1 = false) : st.2 = false := by
  induction rest generalizing st with
  | nil => exact h
  | cons X rest ih =>
    rw [first_scan_cons] at h
    generalize (if (find st.1 X).isNone then assign st.1 X [X] else st.1) = x1 at h
    by_cases he : EPSILON ∈ get (first_add A (get x1 X) (x1, st.2)).1 X
    · rw [if_pos he] at h
      exact first_add_flag A _ (x1, st.2) (ih _ h)
    · rw [if_neg he] at h
      exact first_add_flag A _ (x1, st.2) h

theorem first_scan_sim (A : String) (rest : List String) (sx sy : FirstFollow × Bool)
    (hR : FSim sx.1 sy.1) (hf : (first_scan A rest sx).2.1 = false) :
    (first_scan A rest sy).2.1 = sy.2 ∧
      FSim (first_scan A rest sx).1 (first_scan A rest sy).1 ∧
      (first_scan A rest sx).2.2 = (first_scan A rest sy).2.2 := by
  induction rest generalizing sx sy with
  | nil => exact ⟨rfl, hR, rfl⟩
  | cons X rest ih =>
    have hc := create_sim X sx.1 sy.1 hR
    obtain ⟨hgx, hkx⟩ := get_create sx.1 X
    obtain ⟨hgy, hky⟩ := get_create sy.1 X
    have hl : get (if (find sx.1 X).isNone then assign sx.1 X [X] else sx.1) X
        = get (if (find sy.1 X).isNone then assign sy.1 X [X] else sy.1) X := by
      rw [hgx, hgy]; exact hR.1 X
    rw [first_scan_cons] at hf
    rw [first_scan_cons, first_scan_cons, ← hl]
    generalize (if (find sx.1 X).isNone then assign sx.1 X [X] else sx.1) = x1 at hc hkx hf
    generalize (if (find sy.1 X).isNone then assign sy.1 X [X] else sy.1) = y1 at hc hky
    have hf2 : (first_add A (get x1 X) (x1, sx.2)).2 = false := by
      split at hf
      · exact first_scan_flag A rest _ hf
      · exact hf
    obtain ⟨h1, h2⟩ := first_add_sim A (get x1 X) (x1, sx.2) (y1, sy.2) hc hf2
    have hkx2 := first_add_keys A (get x1 X) (x1, sx.2) X hkx
    have hky2 := first_add_keys A (get x1 X) (y1, sy.2) X hky
    have hcond : get (first_add A (get x1 X) (x1, sx.2)).1 X
        = get (first_add A (get x1 X) (y1, sy.2)).1 X := by
      rw [← sym_first_of_find _ _ hkx2, ← sym_first_of_find _ _ hky2]
      exact h2.1 X
    rw [← hcond]
    by_cases he : EPSILON ∈ get (first_add A (get x1 X) (x1, sx.2)).1 X
    · rw [if_pos he] at hf
      rw [if_pos he, if_pos he]
      obtain ⟨h3, h4, h5⟩ := ih _ (first_add A (get x1 X) (y1, sy.2)) h2 hf
      exact ⟨h3.trans h1, h4, h5⟩
    · rw [if_neg he, if_neg he]
      exact ⟨h1, h2, rfl⟩

theorem first_prod_flag (A : String) (rhs : List String) (st : FirstFollow × Bool)
    (h : (first_prod A st rhs).2 = false) : st.2 = false := by
  unfold first_prod at h
  split at h
  · exact (first_insert_flag A EPSILON st h).1
  · simp only at h
    split at h
    · exact first_scan_flag A rhs st (first_insert_flag A EPSILON _ h).1
    · exact first_scan_flag A rhs st h

theorem first_prod_sim (A : String) (rhs : List String) (sx sy : FirstFollow × Bool)
    (hR : FSim sx.1 sy.1) (hf : (first_prod A sx rhs).2 = false) :
    (first_prod A sy rhs).2 = sy.2 ∧ FSim (first_prod A sx rhs).1 (first_prod A sy rhs).1 := by
  unfold first_prod at hf ⊢
  by_cases he : rhs = [EPSILON]
  · rw [if_pos he] at hf
    rw [if_pos he, if_pos he]
    exact first_insert_sim A EPSILON sx sy hR hf
  · rw [if_neg he] at hf
    rw [if_neg he, if_neg he]
    simp only at hf ⊢
    have hf2 : (first_scan A rhs sx).2.1 = false := by
      split at hf
      · exact (first_insert_flag A EPSILON _ hf).1
      · exact hf
    obtain ⟨h1, h2, h3⟩ := first_scan_sim A rhs sx sy hR hf2
    rw [← h3]
    by_cases hn : (first_scan A rhs sx).2.2 = true
    · rw [if_pos hn] at hf
      rw [if_pos hn, if_pos hn]
      obtain ⟨h4, h5⟩ := first_insert_sim A EPSILON
        ((first_scan A rhs sx).1, (first_scan A rhs sx).2.1)
        ((first_scan A rhs sy).1, (first_scan A rhs sy).2.1) h2 hf
      exact ⟨h4.trans h1, h5⟩
    · rw [if_neg hn, if_neg hn]
      exact ⟨h1, h2⟩

theorem first_alts_flag (A : String) (alts : List (List String)) (st : FirstFollow × Bool)
    (h : (alts.foldl (first_prod A) st).2 = false) : st.2 = false := by
  induction alts generalizing st with
  | nil => exact h
  | cons rhs more ih =>
    simp only [List.foldl_cons] at h
    exact first_prod_flag A rhs st (ih _ h)

theorem first_prods_flag (prods : AMap (List (List String))) (st : FirstFollow × Bool)
    (h : (prods.foldl (fun st kv => kv.2.foldl (first_prod kv.1) st) st).2 = false) :
    st.2 = false := by
  induction prods generalizing st with
  | nil => exact h
  | cons kv rest ih =>
    simp only [List.foldl_cons] at h
    exact first_alts_flag kv.1 kv.2 st (ih _ h)

theorem first_alts_sim (A : String) (alts : List (List String)) (sx sy : FirstFollow × Bool)
    (hR : FSim sx.1 sy.1) (hf : (alts.foldl (first_prod A) sx).2 = false) :
    (alts.foldl (first_prod A) sy).2 = sy.2 ∧
      FSim (alts.foldl (first_prod A) sx).1 (alts.foldl (first_prod A) sy).1 := by
  induction alts generalizing sx sy with
  | nil => exact ⟨rfl, hR⟩
  | cons rhs more ih =>
    simp only [List.foldl_cons] at hf ⊢
    have hf1 : (first_prod A sx rhs).2 = false := first_alts_flag A more _ hf
    obtain ⟨h1, h2⟩ := first_prod_sim A rhs sx sy hR hf1
    obtain ⟨h3, h4⟩ := ih _ (first_prod A sy rhs) h2 hf
    exact ⟨h3.trans h1, h4⟩

theorem first_prods_sim (prods : AMap (List (List String))) (sx sy : FirstFollow × Bool)
    (hR : FSim sx.1 sy.1)
    (hf : (prods.foldl (fun st kv => kv.2.foldl (first_prod kv.1) st) sx).2 = false) :
    (prods.foldl (fun st kv => kv.2.foldl (first_prod kv.1) st) sy).2 = sy.2 ∧
      FSim (prods.foldl (fun st kv => kv.2.foldl (first_prod kv.1) st) sx).1
        (prods.foldl (fun st kv => kv.2.foldl (first_prod kv.1) st) sy).1 := by
  induction prods generalizing sx sy with
  | nil => exact ⟨rfl, hR⟩
  | cons kv rest ih =>
    simp only [List.foldl_cons] at hf ⊢
    have hf1 := first_prods_flag rest _ hf
    obtain ⟨h1, h2⟩ := first_alts_sim kv.1 kv.2 sx sy hR hf1
    obtain ⟨h3, h4⟩ := ih _ (kv.2.foldl (first_prod kv.1) sy) h2 hf
    exact ⟨h3.trans h1, h4⟩

theorem first_pass_again (g : Grammar) (F : FirstFollow) (h : compute_first_sets g = some F) :
    (first_pass g F).2 = false ∧ ∀ k, sym_first (first_pass g F).1 k = sym_first F k := by
  obtain ⟨F0, hinv, h1, h2⟩ := compute_first_sets_last g F h
  have hrel := (first_pass_rel_any g F0 hinv).1
  have hR : FSim F0 F := by
    rw [← h1]
    exact ⟨fun k => (hrel.same h2 k).symm, hrel.mono⟩
  obtain ⟨h3, h4⟩ := first_prods_sim g.productions (F0, false) (F, false) hR h2
  refine ⟨h3, fun k => ?_⟩
  have := h4.1 k
  unfold first_pass
  rw [← this]
  exact congrArg (fun m => sym_first m k) h1

theorem follow_scan_ext (g : Grammar) (first_sets : FirstFollow) (rest : List String)
    (x y : FirstFollow × Bool × SetSS) (h : ∀ k, get x.1 k = get y.1 k) (hc : x.2 = y.2) :
    (∀ k, get (follow_scan g first_sets rest x).1 k = get (follow_scan g first_sets rest y).1 k) ∧
      (follow_scan g first_sets rest x).2 = (follow_scan g first_sets rest y).2 := by
  induction rest generalizing x y with
  | nil => exact ⟨h, hc⟩
  | cons X rest ih =>
    by_cases hX : is_nonterminal g X = true
    · simp only [follow_scan, hX, if_true]
      apply ih
      · intro k
        simp only [get_assign, h X, hc]
        split
        · rfl
        · exact h k
      · simp only [get_assign, if_true, h X, hc]
    · simp only [follow_scan, hX]
      apply ih
      · exact h
      · simp only [hc]

theorem follow_prod_ext (g : Grammar) (first_sets : FirstFollow) (A : String)
    (rhs : List String) (x y : FirstFollow × Bool) (h : ∀ k, get x.1 k = get y.1 k)
    (hc : x.2 = y.2) :
    (∀ k, get (follow_prod g first_sets A x rhs).1 k = get (follow_prod g first_sets A y rhs).1 k) ∧
      (follow_prod g first_sets A x rhs).2 = (follow_prod g first_sets A y rhs).2 := by
  obtain ⟨h1, h2⟩ := follow_scan_ext g first_sets rhs.reverse
    (touch x.1 A, x.2, get (touch x.1 A) A) (touch y.1 A, y.2, get (touch y.1 A) A)
    (fun k => by simp only [get_touch]; exact h k)
    (by simp only [get_touch, h A, hc])
  exact ⟨h1, congrArg (fun p => p.1) h2⟩

theorem follow_prods_ext (g : Grammar) (first_sets : FirstFollow)
    (prods : AMap (List (List String))) (x y : FirstFollow × Bool)
    (h : ∀ k, get x.1 k = get y.1 k) (hc : x.2 = y.2) :
    (∀ k, get (prods.foldl (fun st kv => kv.2.foldl (follow_prod g first_sets kv.1) st) x).1 k
        = get (prods.foldl (fun st kv => kv.2.foldl (follow_prod g first_sets kv.1) st) y).1 k) ∧
      (prods.foldl (fun st kv => kv.2.foldl (follow_prod g first_sets kv.1) st) x).2
        = (prods.foldl (fun st kv => kv.2.foldl (follow_prod g first_sets kv.1) st) y).2 := by
  induction prods generalizing x y with
  | nil => exact ⟨h, hc⟩
  | cons kv rest ih =>
    simp only [List.foldl_cons]
    have halts : ∀ (alts : List (List String)) (x y : FirstFollow × Bool),
        (∀ k, get x.1 k = get y.1 k) → x.2 = y.2 →
        (∀ k, get (alts.foldl (follow_prod g first_sets kv.1) x).1 k
          = get (alts.foldl (follow_prod g first_sets kv.1) y).1 k) ∧
        (alts.foldl (follow_prod g first_sets kv.1) x).2
          = (alts.foldl (follow_prod g first_sets kv.1) y).2 := by
      intro alts
      induction alts with
      | nil => exact fun x y h hc => ⟨h, hc⟩
      | cons rhs more ih2 =>
        intro x y h hc
        simp only [List.foldl_cons]
        obtain ⟨h1, h2⟩ := follow_prod_ext g first_sets kv.1 rhs x y h hc
        exact ih2 _ _ h1 h2
    obtain ⟨h1, h2⟩ := halts kv.2 x y h hc
    exact ih _ _ h1 h2

theorem follow_pass_again (g : Grammar) (first_sets W : FirstFollow)
    (h : compute_follow_sets g first_sets = some W) :
    (follow_pass g first_sets W).2 = false ∧
      ∀ k, get (follow_pass g first_sets W).1 k = get W k := by
  obtain ⟨W0, hinv, h1, h2⟩ := compute_follow_sets_last g first_sets W h
  have hrel := (follow_pass_rel g first_sets W0 hinv.1).1
  have hsame : ∀ k, get W k = get W0 k := by
    intro k
    rw [← h1]
    exact hrel.same h2 k
  obtain ⟨h3, h4⟩ := follow_prods_ext g first_sets g.productions (W, false) (W0, false)
    hsame rfl
  have h5 : (follow_pass g first_sets W).2 = (follow_pass g first_sets W0).2 := h4
  have h6 : ∀ k, get (follow_pass g first_sets W).1 k = get (follow_pass g first_sets W0).1 k :=
    h3
  refine ⟨h5.trans h2, fun k => ?_⟩
  rw [h6 k, h1]

/-- C6 (FIRST is a fixed point): for every grammar `compute_first_sets` returns a
map `F`; one more pass of the loop body over `F` leaves `changed` unset and
every symbol with the same FIRST set; and `F` satisfies every production
`A -> rhs`: if `rhs` is exactly `[epsilon]` then epsilon is in `F(A)`, and
otherwise every element of `first_of_sequence(rhs, F)` is in `F(A)`. -/
theorem first_fixed_point (g : Grammar) :
    ∃ F, compute_first_sets g = some F ∧
      (first_pass g F).2 = false ∧
      (∀ k, sym_first (first_pass g F).1 k = sym_first F k) ∧
      ∀ A alts, (A, alts) ∈ g.productions → ∀ rhs ∈ alts,
        (rhs = [EPSILON] → EPSILON ∈ get F A) ∧
        (rhs ≠ [EPSILON] → ∀ a ∈ first_of_sequence rhs F, a ∈ get F A) := by
  obtain ⟨F, hF⟩ := compute_first_sets_total g
  exact ⟨F, hF, (first_pass_again g F hF).1, (first_pass_again g F hF).2,
    fun A alts hA rhs hrhs => compute_first_sets_closed g F hF (A, alts) hA rhs hrhs⟩

/-- C7 (FOLLOW is a fixed point): for every grammar and FIRST map
`compute_follow_sets` returns a map `W`; one more pass of the loop body over `W`
leaves `changed` unset and every set as it is; and for every production
`A -> X1..Xn` the right-to-left walk that starts with the trailer `W(A)` and
updates it as the code does finds, at every declared nonterminal `Xi`, the
trailer inside `W(Xi)`. -/
theorem follow_fixed_point (g : Grammar) (first_sets : FirstFollow) :
    ∃ W, compute_follow_sets g first_sets = some W ∧
      (follow_pass g first_sets W).2 = false ∧
      (∀ k, get (follow_pass g first_sets W).1 k = get W k) ∧
      ∀ A alts, (A, alts) ∈ g.productions → ∀ rhs ∈ alts,
        follow_closed_scan g first_sets W rhs.reverse (get W A) := by
  obtain ⟨W, hW⟩ := compute_follow_sets_total g first_sets
  exact ⟨W, hW, (follow_pass_again g first_sets W hW).1, (follow_pass_again g first_sets W hW).2,
    fun A alts hA rhs hrhs => (compute_follow_sets_closed g first_sets W hW).1 (A, alts) hA rhs hrhs⟩


/-! ## Table building alone, and the passes of the FIRST solver -/

/-- C20 (the table-building step alone is order independent): for fixed FIRST
and FOLLOW maps and two grammars with the same declared nonterminals whose
production lists are permutations of each other, `build_ll1_table` either fails
with a conflict on both or succeeds on both with the same cells and rows. -/
theorem table_order_independence (g1 g2 : Grammar) (F W : FirstFollow)
    (hN : ∀ x, x ∈ g1.nonterminals ↔ x ∈ g2.nonterminals)
    (hP : (production_pairs g1).Perm (production_pairs g2)) :
    (∃ A a B b, build_ll1_table g1 F W = .error (.conflict A a) ∧
        build_ll1_table g2 F W = .error (.conflict B b)) ∨
    (∃ T1 T2, build_ll1_table g1 F W = .ok T1 ∧ build_ll1_table g2 F W = .ok T2 ∧
        (∀ B b, cell T1 B b = cell T2 B b) ∧
        (∀ B, (find T1 B).isSome = (find T2 B).isSome)) :=
  build_perm g1 g2 F W F W hN hP (fun _ _ => List.Perm.refl _)

theorem table_order_independence_witness :
    (∃ A a B b, build_ll1_table order_a scenario1_first scenario1_follow
          = .error (.conflict A a) ∧
        build_ll1_table order_b scenario1_first scenario1_follow
          = .error (.conflict B b)) ∨
    (∃ T1 T2, build_ll1_table order_a scenario1_first scenario1_follow = .ok T1 ∧
        build_ll1_table order_b scenario1_first scenario1_follow = .ok T2 ∧
        (∀ B b, cell T1 B b = cell T2 B b) ∧
        (∀ B, (find T1 B).isSome = (find T2 B).isSome)) :=
  table_order_independence order_a order_b scenario1_first scenario1_follow
    (fun _ => Iff.rfl)
    (by simp [production_pairs, order_a, order_b]; exact List.Perm.swap _ _ _)

theorem fix_loop_trace {σ : Type} (pass : σ → σ × Bool) (iter : Nat → σ)
    (hsucc : ∀ n, iter (n + 1) = (pass (iter n)).1) :
    ∀ (m j : Nat) (r : σ), fix_loop pass m (iter j) = some r →
      ∃ n, j ≤ n ∧ n < j + m ∧ r = iter (n + 1) ∧ (pass (iter n)).2 = false ∧
        ∀ i, j ≤ i → i < n → (pass (iter i)).2 = true := by
  intro m
  induction m with
  | zero => intro j r h; simp [fix_loop] at h
  | succ m ih =>
    intro j r h
    simp only [fix_loop] at h
    by_cases hc : (pass (iter j)).2 = true
    · rw [if_pos hc, ← hsucc] at h
      obtain ⟨n, h1, h2, h3, h4, h5⟩ := ih (j + 1) r h
      refine ⟨n, by omega, by omega, h3, h4, fun i hi1 hi2 => ?_⟩
      by_cases hij : i = j
      · rw [hij]; exact hc
      · exact h5 i (by omega) hi2
    · rw [if_neg hc] at h
      simp only [Option.some.injEq] at h
      exact ⟨j, le_refl _, by omega, by rw [hsucc, h], by simpa using hc,
        fun i hi1 hi2 => by omega⟩

theorem first_iter_inv (g : Grammar) (n : Nat) : FInv (symbols g) (first_iter g n) := by
  induction n with
  | zero => exact first_init_inv g
  | succ n ih => exact (first_pass_rel_any g _ ih).1.inv

/-- C15 (the FIRST solver terminates): after every number of passes all sets
and keys are inside the symbols of the grammar plus epsilon; a pass never
removes an element; a pass that sets `changed` adds an element to some FIRST
set; and within `|symbols|^2 + 1` passes a pass leaves `changed` unset, the loop
stops there and `compute_first_sets` returns the map of that pass. -/
theorem first_solver_terminates (g : Grammar) :
    (∀ n k a, a ∈ get (first_iter g n) k → k ∈ symbols g ∧ a ∈ symbols g) ∧
    (∀ n k a, a ∈ get (first_iter g n) k → a ∈ get (first_iter g (n + 1)) k) ∧
    (∀ n, (first_pass g (first_iter g n)).2 = true →
      ∃ k a, a ∈ get (first_iter g (n + 1)) k ∧ a ∉ get (first_iter g n) k) ∧
    ∃ n, n ≤ (symbols g).length ^ 2 ∧
      (∀ i, i < n → (first_pass g (first_iter g i)).2 = true) ∧
      (first_pass g (first_iter g n)).2 = false ∧
      compute_first_sets g = some (first_iter g (n + 1)) := by
  refine ⟨fun n => first_iter_inv g n, ?_, ?_, ?_⟩
  · intro n k a ha
    exact (first_pass_rel_any g _ (first_iter_inv g n)).1.mono k a ha
  · intro n hc
    rcases (first_pass_rel_any g _ (first_iter_inv g n)).1.grow hc with h | h
    · cases h
    · exact h
  · obtain ⟨F, hF⟩ := compute_first_sets_total g
    have hF1 := hF
    unfold compute_first_sets at hF1
    obtain ⟨n, _, h2, h3, h4, h5⟩ := fix_loop_trace (first_pass g) (first_iter g)
      (fun _ => rfl) _ 0 F hF1
    exact ⟨n, by omega, fun i hi => h5 i (Nat.zero_le _) hi, h4, by rw [hF, h3]⟩


/-! ## Reached states of the parser loops -/

theorem run_loop_trace {σ ρ : Type} (step : σ → Step σ ρ) :
    ∀ (n : Nat) (s : σ) (r : Except ParseError ρ), run_loop step n s = some r →
      ∃ k s1, k < n ∧ run_steps step k s = some s1 ∧ step s1 = .halt r := by
  intro n
  induction n with
  | zero => intro s r h; simp [run_loop] at h
  | succ n ih =>
    intro s r h
    simp only [run_loop] at h
    cases hs : step s with
    | halt r1 =>
      rw [hs] at h
      simp only [Option.some.injEq] at h
      exact ⟨0, s, by omega, rfl, by rw [hs, h]⟩
    | next s1 =>
      rw [hs] at h
      obtain ⟨k, s2, hk, h1, h2⟩ := ih s1 r h
      exact ⟨k + 1, s2, by omega, by simp only [run_steps, hs]; exact h1, h2⟩

theorem run_steps_inv {σ ρ : Type} (step : σ → Step σ ρ) (Inv : σ → Prop)
    (hnext : ∀ s s1, Inv s → step s = .next s1 → Inv s1) :
    ∀ (n : Nat) (s s1 : σ), Inv s → run_steps step n s = some s1 → Inv s1 := by
  intro n
  induction n with
  | zero =>
    intro s s1 hi h
    simp only [run_steps, Option.some.injEq] at h
    rw [← h]; exact hi
  | succ n ih =>
    intro s s1 hi h
    simp only [run_steps] at h
    cases hs : step s with
    | halt r1 => rw [hs] at h; cases h
    | next s2 =>
      rw [hs] at h
      exact ih s2 s1 (hnext s s2 hi hs) h

theorem run_steps_loop {σ ρ : Type} (step : σ → Step σ ρ) :
    ∀ (k : Nat) (s s1 : σ) (r : Except ParseError ρ), run_steps step k s = some s1 →
      step s1 = .halt r → run_loop step (k + 1) s = some r := by
  intro k
  induction k with
  | zero =>
    intro s s1 r h hr
    simp only [run_steps, Option.some.injEq] at h
    subst h
    simp [run_loop, hr]
  | succ k ih =>
    intro s s1 r h hr
    simp only [run_steps] at h
    cases hs : step s with
    | halt r1 => rw [hs] at h; cases h
    | next s2 =>
      rw [hs] at h
      have := ih s2 s1 r h hr
      rw [run_loop, hs]
      exact this

/-- The seven ways one iteration of `parse_sequence` can go. -/
theorem seq_step_cases (g : Grammar) (table : LL1Table) (toks : List String) (s : SeqState) :
    (s.st = [] ∧ seq_step g table toks s = .halt (.ok s.used)) ∨
    ∃ top st1, s.st = top :: st1 ∧
      ((toks[s.i]? = none ∧ seq_step g table toks s = .halt (.error (.out_of_range s.i))) ∨
       ∃ current, toks[s.i]? = some current ∧
        (((top ∈ g.terminals ∨ top = ENDMARK) ∧ top = current ∧
            ((current = ENDMARK ∧ st1 = [] ∧
                seq_step g table toks s = .halt (.ok s.used)) ∨
             (¬ (current = ENDMARK ∧ st1 = []) ∧
                seq_step g table toks s = .next ⟨st1, s.i + 1, s.used⟩))) ∨
         ((top ∈ g.terminals ∨ top = ENDMARK) ∧ top ≠ current ∧
            seq_step g table toks s = .halt (.error (.mismatch top current s.i))) ∨
         (top ∉ g.terminals ∧ top ≠ ENDMARK ∧ top ∈ g.nonterminals ∧
            cell table top current = none ∧
            seq_step g table toks s = .halt (.error (.no_rule top current))) ∨
         (top ∉ g.terminals ∧ top ≠ ENDMARK ∧ top ∈ g.nonterminals ∧
            ∃ rhs, cell table top current = some rhs ∧
              ((current = ENDMARK ∧ (if rhs = [EPSILON] then st1 else rhs ++ st1) = [] ∧
                  seq_step g table toks s = .halt (.ok (s.used ++ [(top, rhs)]))) ∨
               (¬ (current = ENDMARK ∧ (if rhs = [EPSILON] then st1 else rhs ++ st1) = []) ∧
                  seq_step g table toks s =
                    .next ⟨if rhs = [EPSILON] then st1 else rhs ++ st1, s.i,
                      s.used ++ [(top, rhs)]⟩))) ∨
         (top ∉ g.terminals ∧ top ≠ ENDMARK ∧ top ∉ g.nonterminals ∧
            seq_step g table toks s = .halt (.error (.unknown_symbol top))))) := by
  unfold seq_step
  cases hst : s.st with
  | nil => left; simp
  | cons top st1 =>
    right
    refine ⟨top, st1, rfl, ?_⟩
    cases hcur : toks[s.i]? with
    | none => left; simp
    | some current =>
      right
      refine ⟨current, rfl, ?_⟩
      simp only
      by_cases hterm : (is_terminal g top || decide (top = ENDMARK)) = true
      · rw [if_pos hterm]
        have hterm1 : top ∈ g.terminals ∨ top = ENDMARK := by
          simpa [is_terminal] using hterm
        by_cases htc : top = current
        · rw [if_pos htc]
          left
          refine ⟨hterm1, htc, ?_⟩
          by_cases hc : current = ENDMARK ∧ st1 = []
          · rw [if_pos hc]; left; exact ⟨hc.1, hc.2, rfl⟩
          · rw [if_neg hc]; right; exact ⟨hc, rfl⟩
        · rw [if_neg htc]
          right; left
          exact ⟨hterm1, htc, rfl⟩
      · rw [if_neg hterm]
        have hterm1 : top ∉ g.terminals ∧ top ≠ ENDMARK := by
          simpa [is_terminal] using hterm
        by_cases hA : is_nonterminal g top = true
        · rw [if_pos hA]
          have hA1 : top ∈ g.nonterminals := by simpa [is_nonterminal] using hA
          cases hcell : cell table top current with
          | none =>
            right; right; left
            exact ⟨hterm1.1, hterm1.2, hA1, rfl, rfl⟩
          | some rhs =>
            right; right; right; left
            refine ⟨hterm1.1, hterm1.2, hA1, rhs, rfl, ?_⟩
            simp only [push_rhs_eq]
            by_cases hc : current = ENDMARK ∧ (if rhs = [EPSILON] then st1 else rhs ++ st1) = []
            · rw [if_pos hc]; left; exact ⟨hc.1, hc.2, rfl⟩
            · rw [if_neg hc]; right; exact ⟨hc, rfl⟩
        · rw [if_neg hA]
          have hA1 : top ∉ g.nonterminals := by simpa [is_nonterminal] using hA
          right; right; right; right
          exact ⟨hterm1.1, hterm1.2, hA1, rfl⟩


/-! ## The cursor of `parse_sequence` -/

theorem cons_eq_append_bottom (top x : String) (st1 body : List String)
    (h : top :: st1 = body ++ [x]) :
    (body = [] ∧ top = x ∧ st1 = []) ∨ ∃ body1, body = top :: body1 ∧ st1 = body1 ++ [x] := by
  cases body with
  | nil => left; simpa using h
  | cons b body1 =>
    right
    simp only [List.cons_append, List.cons.injEq] at h
    exact ⟨body1, by rw [h.1], h.2⟩

theorem getElem_endmark (tokens : List String) :
    (tokens ++ [ENDMARK])[tokens.length]? = some ENDMARK := by
  rw [List.getElem?_append_right (le_refl _)]; simp

theorem bound_inv_next (g : Grammar) (table : LL1Table) (tokens : List String)
    (htab : ∀ A a rhs, cell table A a = some rhs → ENDMARK ∉ rhs) (s s1 : SeqState)
    (hinv : BoundInv tokens s) (h : seq_step g table (tokens ++ [ENDMARK]) s = .next s1) :
    BoundInv tokens s1 := by
  obtain ⟨body, hb, hnb, hi⟩ := hinv
  rcases seq_step_cases g table (tokens ++ [ENDMARK]) s with ⟨_, he⟩ | ⟨top, st1, hst, hc⟩
  · rw [he] at h; cases h
  · rw [hst] at hb
    rcases hc with ⟨_, he⟩ | ⟨current, hcur, hc⟩
    · rw [he] at h; cases h
    · rcases hc with ⟨_, htc, ⟨_, _, he⟩ | ⟨hnc, he⟩⟩ | ⟨_, _, he⟩ | ⟨_, _, _, _, he⟩ |
        ⟨_, hne, _, rhs, hcell, ⟨_, _, he⟩ | ⟨_, he⟩⟩ | ⟨_, _, _, he⟩
      · rw [he] at h; cases h
      · rw [he] at h
        cases h
        rcases cons_eq_append_bottom _ _ _ _ hb with ⟨_, h1, h2⟩ | ⟨body1, h1, h2⟩
        · exact absurd ⟨by rw [← htc, h1], h2⟩ hnc
        · refine ⟨body1, h2, ?_, ?_⟩
          · intro hm; exact hnb (by rw [h1]; exact List.mem_cons_of_mem _ hm)
          · simp only
            rcases Nat.lt_or_ge s.i tokens.length with hlt | hge
            · omega
            · have e : s.i = tokens.length := by omega
              rw [e, getElem_endmark] at hcur
              simp only [Option.some.injEq] at hcur
              exact absurd (by rw [h1, htc, ← hcur]; simp) hnb
      · rw [he] at h; cases h
      · rw [he] at h; cases h
      · rw [he] at h; cases h
      · rw [he] at h
        cases h
        rcases cons_eq_append_bottom _ _ _ _ hb with ⟨_, h1, _⟩ | ⟨body1, h1, h2⟩
        · exact absurd h1 hne
        · have hnb1 : ENDMARK ∉ body1 := by
            intro hm; exact hnb (by rw [h1]; exact List.mem_cons_of_mem _ hm)
          by_cases hr : rhs = [EPSILON]
          · exact ⟨body1, by simp [hr, h2], hnb1, hi⟩
          · refine ⟨rhs ++ body1, by simp [hr, h2], ?_, hi⟩
            intro hm
            rcases List.mem_append.1 hm with hm | hm
            · exact htab _ _ _ hcell hm
            · exact hnb1 hm
      · rw [he] at h; cases h

theorem bound_inv_init (g : Grammar) (tokens : List String) (hstart : g.start_symbol ≠ ENDMARK) :
    BoundInv tokens ⟨[g.start_symbol, ENDMARK], 0, []⟩ :=
  ⟨[g.start_symbol], rfl, by simpa using fun h => hstart h.symm, Nat.zero_le _⟩

theorem bound_inv_read (tokens : List String) (s : SeqState) (hinv : BoundInv tokens s) :
    s.st ≠ [] ∧ s.i ≤ tokens.length ∧ ∃ current, (tokens ++ [ENDMARK])[s.i]? = some current := by
  obtain ⟨body, hb, _, hi⟩ := hinv
  refine ⟨by rw [hb]; simp, hi, ?_⟩
  have hlt : s.i < (tokens ++ [ENDMARK]).length := by simp; omega
  exact ⟨_, List.getElem?_eq_getElem hlt⟩

/-- C19 (the input cursor stays in bounds): when the end-marker is not the
start symbol and occurs in no right-hand side stored in the table, every state
the loop of `parse_sequence` reaches has a non-empty stack and a cursor that is
at most the length of the input, so the read `tokens.at(i)` of that iteration
finds a token; and for no amount of fuel does `parse_sequence` end with the
out-of-range failure of the read. -/
theorem cursor_in_bounds (g : Grammar) (table : LL1Table) (tokens : List String)
    (hstart : g.start_symbol ≠ ENDMARK)
    (htab : ∀ A a rhs, cell table A a = some rhs → ENDMARK ∉ rhs) :
    (∀ k s, run_steps (seq_step g table (tokens ++ [ENDMARK])) k
        ⟨[g.start_symbol, ENDMARK], 0, []⟩ = some s →
      s.st ≠ [] ∧ s.i ≤ tokens.length ∧
        ∃ current, (tokens ++ [ENDMARK])[s.i]? = some current) ∧
    (∀ n j, parse_sequence g table tokens n ≠ some (.error (.out_of_range j))) := by
  have hreach : ∀ k s, run_steps (seq_step g table (tokens ++ [ENDMARK])) k
      ⟨[g.start_symbol, ENDMARK], 0, []⟩ = some s → BoundInv tokens s := fun k s h =>
    run_steps_inv _ (BoundInv tokens) (bound_inv_next g table tokens htab) k _ s
      (bound_inv_init g tokens hstart) h
  refine ⟨fun k s h => bound_inv_read tokens s (hreach k s h), ?_⟩
  intro n j h
  obtain ⟨k, s, _, h1, h2⟩ := run_loop_trace _ n _ _ h
  obtain ⟨hne, _, current, hcur⟩ := bound_inv_read tokens s (hreach k s h1)
  rcases seq_step_cases g table (tokens ++ [ENDMARK]) s with ⟨h0, _⟩ | ⟨top, st1, hst, hc⟩
  · exact hne h0
  · rcases hc with ⟨hnone, _⟩ | ⟨current, hcur, hc⟩
    · rw [hnone] at hcur; cases hcur
    · rcases hc with ⟨_, _, ⟨_, _, he⟩ | ⟨_, he⟩⟩ | ⟨_, _, he⟩ | ⟨_, _, _, _, he⟩ |
        ⟨_, _, _, rhs, _, ⟨_, _, he⟩ | ⟨_, he⟩⟩ | ⟨_, _, _, he⟩ <;>
      · rw [he] at h2; cases h2

theorem cell_some_mem (table : LL1Table) (A a : String) (rhs : List String)
    (h : cell table A a = some rhs) : ∃ row, (A, row) ∈ table ∧ (a, rhs) ∈ row := by
  unfold cell at h
  cases hr : find table A with
  | none => simp [hr] at h
  | some row =>
    rw [hr] at h
    exact ⟨row, find_some_mem _ _ _ hr, find_some_mem _ _ _ h⟩

theorem cursor_in_bounds_witness :
    (∀ k s, run_steps (seq_step scenario1 scenario1_table (["a", "b"] ++ [ENDMARK])) k
        ⟨[scenario1.start_symbol, ENDMARK], 0, []⟩ = some s →
      s.st ≠ [] ∧ s.i ≤ ["a", "b"].length ∧
        ∃ current, (["a", "b"] ++ [ENDMARK])[s.i]? = some current) ∧
    (∀ n j, parse_sequence scenario1 scenario1_table ["a", "b"] n ≠
      some (.error (.out_of_range j))) :=
  cursor_in_bounds scenario1 scenario1_table ["a", "b"] (by decide)
    (by
      intro A a rhs h
      obtain ⟨row, h1, h2⟩ := cell_some_mem _ _ _ _ h
      simp only [scenario1_table, List.mem_singleton, Prod.mk.injEq] at h1
      rw [h1.2] at h2
      simp only [List.mem_cons, Prod.mk.injEq, List.mem_singleton, List.not_mem_nil,
        or_false] at h2
      rcases h2 with ⟨_, h⟩ | ⟨_, h⟩ | ⟨_, h⟩ <;> rw [h] <;> decide)


theorem bottom_inv_next (g : Grammar) (table : LL1Table) (toks : List String)
    (s s1 : SeqState) (hinv : BottomInv s) (h : seq_step g table toks s = .next s1) :
    BottomInv s1 := by
  obtain ⟨body, hb⟩ := hinv
  rcases seq_step_cases g table toks s with ⟨_, he⟩ | ⟨top, st1, hst, hc⟩
  · rw [he] at h; cases h
  · rw [hst] at hb
    rcases hc with ⟨_, he⟩ | ⟨current, hcur, hc⟩
    · rw [he] at h; cases h
    · rcases hc with ⟨_, htc, ⟨_, _, he⟩ | ⟨hnc, he⟩⟩ | ⟨_, _, he⟩ | ⟨_, _, _, _, he⟩ |
        ⟨_, hne, _, rhs, hcell, ⟨_, _, he⟩ | ⟨_, he⟩⟩ | ⟨_, _, _, he⟩
      · rw [he] at h; cases h
      · rw [he] at h
        cases h
        rcases cons_eq_append_bottom _ _ _ _ hb with ⟨_, h1, h2⟩ | ⟨body1, _, h2⟩
        · exact absurd ⟨by rw [← htc, h1], h2⟩ hnc
        · exact ⟨body1, h2⟩
      · rw [he] at h; cases h
      · rw [he] at h; cases h
      · rw [he] at h; cases h
      · rw [he] at h
        cases h
        rcases cons_eq_append_bottom _ _ _ _ hb with ⟨_, h1, _⟩ | ⟨body1, _, h2⟩
        · exact absurd h1 hne
        · by_cases hr : rhs = [EPSILON]
          · exact ⟨body1, by simp [hr, h2]⟩
          · exact ⟨rhs ++ body1, by simp [hr, h2]⟩
      · rw [he] at h; cases h

theorem bottom_inv_halt (g : Grammar) (table : LL1Table) (tokens : List String)
    (hno : ENDMARK ∉ tokens) (s : SeqState) (ps : List (String × List String))
    (hinv : BottomInv s)
    (h : seq_step g table (tokens ++ [ENDMARK]) s = .halt (.ok ps)) :
    s.st = [ENDMARK] ∧ s.i = tokens.length ∧
      (tokens ++ [ENDMARK])[s.i]? = some ENDMARK ∧ ps = s.used := by
  obtain ⟨body, hb⟩ := hinv
  rcases seq_step_cases g table (tokens ++ [ENDMARK]) s with ⟨h0, _⟩ | ⟨top, st1, hst, hc⟩
  · rw [h0] at hb; simp at hb
  · rw [hst] at hb
    rcases hc with ⟨_, he⟩ | ⟨current, hcur, hc⟩
    · rw [he] at h; cases h
    · rcases hc with ⟨_, htc, ⟨hce, hst1, he⟩ | ⟨_, he⟩⟩ | ⟨_, _, he⟩ | ⟨_, _, _, _, he⟩ |
        ⟨_, hne, _, rhs, hcell, ⟨_, hst2, he⟩ | ⟨_, he⟩⟩ | ⟨_, _, _, he⟩
      · rw [he] at h
        simp only [Step.halt.injEq, Except.ok.injEq] at h
        rw [hce] at hcur
        exact ⟨by rw [hst, htc, hce, hst1], endmark_index tokens s.i hno hcur, hcur, h.symm⟩
      · rw [he] at h; cases h
      · rw [he] at h; cases h
      · rw [he] at h; cases h
      · rcases cons_eq_append_bottom _ _ _ _ hb with ⟨_, h1, _⟩ | ⟨body1, _, h2⟩
        · exact absurd h1 hne
        · by_cases hr : rhs = [EPSILON]
          · simp [hr, h2] at hst2
          · simp [hr, h2] at hst2
      · rw [he] at h; cases h
      · rw [he] at h; cases h

theorem seq_match_some (g : Grammar) (toks : List String) (s : SeqState) (top current : String)
    (st1 : List String) (hst : s.st = top :: st1) (hcur : toks[s.i]? = some current)
    (ht : top ∈ g.terminals ∨ top = ENDMARK) (htc : top = current) :
    seq_match g toks s = some current := by
  have hterm : (is_terminal g top || decide (top = ENDMARK)) = true := by
    simpa [is_terminal] using ht
  unfold seq_match
  simp only [hst, hcur]
  rw [if_pos hterm, if_pos htc]

theorem seq_match_none (g : Grammar) (toks : List String) (s : SeqState) (top : String)
    (st1 : List String) (hst : s.st = top :: st1) (h1 : top ∉ g.terminals)
    (h2 : top ≠ ENDMARK) : seq_match g toks s = none := by
  have hterm : ¬ (is_terminal g top || decide (top = ENDMARK)) = true := by
    simp [is_terminal, h1, h2]
  unfold seq_match
  simp only [hst]
  cases toks[s.i]? with
  | none => rfl
  | some current =>
    simp only
    rw [if_neg hterm]

theorem drop_of_getElem? (toks : List String) (i : Nat) (c : String)
    (h : toks[i]? = some c) : toks.drop i = c :: toks.drop (i + 1) := by
  induction toks generalizing i with
  | nil => simp at h
  | cons x xs ih =>
    cases i with
    | zero =>
      simp only [List.getElem?_cons_zero, Option.some.injEq] at h
      simp [h]
    | succ j =>
      simp only [List.getElem?_cons_succ] at h
      simpa using ih j h

/-- On a successful run the matched tokens are the input from the cursor on. -/
theorem matched_drop (g : Grammar) (table : LL1Table) (tokens : List String)
    (hno : ENDMARK ∉ tokens) (ps : List (String × List String)) :
    ∀ (n : Nat) (s : SeqState),
      run_loop (seq_step g table (tokens ++ [ENDMARK])) n s = some (.ok ps) → BottomInv s →
      matched g table (tokens ++ [ENDMARK]) n s = (tokens ++ [ENDMARK]).drop s.i := by
  intro n
  induction n with
  | zero => intro s h _; simp [run_loop] at h
  | succ n ih =>
    intro s h hinv
    simp only [run_loop] at h
    simp only [matched]
    cases hs : seq_step g table (tokens ++ [ENDMARK]) s with
    | halt r =>
      rw [hs] at h
      simp only [Option.some.injEq] at h
      subst h
      obtain ⟨h3, h4, h5, _⟩ := bottom_inv_halt g table tokens hno s ps hinv hs
      rw [seq_match_some g _ s ENDMARK ENDMARK [] h3 h5 (Or.inr rfl) rfl, h4]
      simp
    | next s1 =>
      rw [hs] at h
      have hinv1 := bottom_inv_next g table _ s s1 hinv hs
      have ih1 := ih s1 h hinv1
      simp only
      rw [ih1]
      rcases seq_step_cases g table (tokens ++ [ENDMARK]) s with ⟨_, he⟩ | ⟨top, st1, hst, hc⟩
      · rw [he] at hs; cases hs
      · rcases hc with ⟨_, he⟩ | ⟨current, hcur, hc⟩
        · rw [he] at hs; cases hs
        · rcases hc with ⟨ht, htc, ⟨_, _, he⟩ | ⟨_, he⟩⟩ | ⟨_, _, he⟩ | ⟨_, _, _, _, he⟩ |
            ⟨hnt, hne, _, rhs, _, ⟨_, _, he⟩ | ⟨_, he⟩⟩ | ⟨_, _, _, he⟩
          · rw [he] at hs; cases hs
          · rw [he] at hs
            cases hs
            rw [seq_match_some g _ s top current st1 hst hcur ht htc,
              drop_of_getElem? _ _ _ hcur]
            rfl
          · rw [he] at hs; cases hs
          · rw [he] at hs; cases hs
          · rw [he] at hs; cases hs
          · rw [he] at hs
            cases hs
            rw [seq_match_none g _ s top st1 hst hnt hne]
            rfl
          · rw [he] at hs; cases hs

/-- C11 (success means the whole input was read), for a token list that does
not contain the end-marker: when `parse_sequence` returns a production list,
its loop was left from a reached state whose stack is just the end-marker and
whose cursor is at the length of the token list, on the appended end-marker;
and the tokens matched by the iterations of the run (lines 271-272), in order,
are exactly the input tokens followed by the end-marker, so every input token
has been matched and the number of matched symbols is the length plus one. -/
theorem success_reads_whole_input (g : Grammar) (table : LL1Table) (tokens : List String)
    (n : Nat) (ps : List (String × List String)) (hno : ENDMARK ∉ tokens)
    (h : parse_sequence g table tokens n = some (.ok ps)) :
    (∃ k s, run_steps (seq_step g table (tokens ++ [ENDMARK])) k
        ⟨[g.start_symbol, ENDMARK], 0, []⟩ = some s ∧
      seq_step g table (tokens ++ [ENDMARK]) s = .halt (.ok ps) ∧
      s.st = [ENDMARK] ∧ s.i = tokens.length ∧
      (tokens ++ [ENDMARK])[s.i]? = some ENDMARK) ∧
    matched g table (tokens ++ [ENDMARK]) n ⟨[g.start_symbol, ENDMARK], 0, []⟩
      = tokens ++ [ENDMARK] ∧
    (matched g table (tokens ++ [ENDMARK]) n ⟨[g.start_symbol, ENDMARK], 0, []⟩).length
      = tokens.length + 1 := by
  have hm := matched_drop g table tokens hno ps n ⟨[g.start_symbol, ENDMARK], 0, []⟩ h
    ⟨[g.start_symbol], rfl⟩
  simp only [List.drop_zero] at hm
  obtain ⟨k, s, _, h1, h2⟩ := run_loop_trace _ n _ _ h
  have hinv : BottomInv s :=
    run_steps_inv _ BottomInv (bottom_inv_next g table _) k _ s ⟨[g.start_symbol], rfl⟩ h1
  obtain ⟨h3, h4, h5, _⟩ := bottom_inv_halt g table tokens hno s ps hinv h2
  exact ⟨⟨k, s, h1, h2, h3, h4, h5⟩, hm, by rw [hm]; simp⟩

theorem success_reads_whole_input_witness :
    (∃ k s, run_steps (seq_step scenario1 scenario1_table (["a", "b"] ++ [ENDMARK])) k
        ⟨[scenario1.start_symbol, ENDMARK], 0, []⟩ = some s ∧
      seq_step scenario1 scenario1_table (["a", "b"] ++ [ENDMARK]) s =
        .halt (.ok [("S", ["a", "S", "b"]), ("S", ["epsilon"])]) ∧
      s.st = [ENDMARK] ∧ s.i = ["a", "b"].length ∧
      (["a", "b"] ++ [ENDMARK])[s.i]? = some ENDMARK) ∧
    matched scenario1 scenario1_table (["a", "b"] ++ [ENDMARK]) 10
        ⟨[scenario1.start_symbol, ENDMARK], 0, []⟩
      = ["a", "b"] ++ [ENDMARK] ∧
    (matched scenario1 scenario1_table (["a", "b"] ++ [ENDMARK]) 10
        ⟨[scenario1.start_symbol, ENDMARK], 0, []⟩).length
      = ["a", "b"].length + 1 :=
  success_reads_whole_input scenario1 scenario1_table ["a", "b"] 10
    [("S", ["a", "S", "b"]), ("S", ["epsilon"])] (by decide) rfl

/-- C11 fails for a token list that contains the end-marker: on the input
`["$", "a"]` the parser of scenario 1 returns a production list after two
iterations, the only token matched is the first `$`, and no reached state from
which the loop is left has the cursor at the length of the token list; the
cursor is still at position 0 and the token `a` is never read. -/
theorem success_reads_whole_input_counterexample :
    parse_sequence scenario1 scenario1_table ["$", "a"] 2 = some (.ok [("S", ["epsilon"])]) ∧
    matched scenario1 scenario1_table (["$", "a"] ++ [ENDMARK]) 2
        ⟨[scenario1.start_symbol, ENDMARK], 0, []⟩ = ["$"] ∧
    ¬ ∃ k s, run_steps (seq_step scenario1 scenario1_table (["$", "a"] ++ [ENDMARK])) k
        ⟨[scenario1.start_symbol, ENDMARK], 0, []⟩ = some s ∧
      (∃ ps, seq_step scenario1 scenario1_table (["$", "a"] ++ [ENDMARK]) s = .halt (.ok ps)) ∧
      s.i = ["$", "a"].length := by
  refine ⟨rfl, by decide, ?_⟩
  rintro ⟨k, s, h1, _, h3⟩
  have e1 : seq_step scenario1 scenario1_table (["$", "a"] ++ [ENDMARK])
      ⟨[scenario1.start_symbol, ENDMARK], 0, []⟩ = .next ⟨[ENDMARK], 0, [("S", ["epsilon"])]⟩ :=
    rfl
  have e2 : seq_step scenario1 scenario1_table (["$", "a"] ++ [ENDMARK])
      ⟨[ENDMARK], 0, [("S", ["epsilon"])]⟩ = .halt (.ok [("S", ["epsilon"])]) := rfl
  match k, h1 with
  | 0, h1 =>
    simp only [run_steps, Option.some.injEq] at h1
    rw [← h1] at h3
    simp at h3
  | 1, h1 =>
    simp only [run_steps, e1, Option.some.injEq] at h1
    rw [← h1] at h3
    simp at h3
  | k + 2, h1 =>
    simp only [run_steps, e1, e2] at h1
    cases h1


/-! ## The two parsers side by side -/

theorem pushed_symbols_append (used : List (String × List String)) (top : String)
    (rhs : List String) :
    pushed_symbols (used ++ [(top, rhs)])
      = pushed_symbols used ++ (if rhs = [EPSILON] then [] else rhs) := by
  unfold pushed_symbols
  by_cases he : rhs = [EPSILON]
  · simp [List.filter_append, he]
  · simp [List.filter_append, he]

theorem linked_block_symbols (top_idx : Int) (n : Nat) (rhs : List String) :
    (linked_block top_idx n rhs).map Node.symbol = rhs := by
  induction rhs generalizing n with
  | nil => rfl
  | cons x xs ih => simp [linked_block, ih]

theorem range_getD_map (rhs : List String) (f : Nat → Int) :
    ((List.range rhs.length).map (fun k => (rhs.getD k "", f k))).map Prod.fst = rhs := by
  apply List.ext_getElem
  · simp
  · intro j h1 h2
    simp only [List.getElem_map, List.getElem_range]
    simp only [List.length_map, List.length_range] at h1
    rw [List.getD_eq_getElem?_getD, List.getElem?_eq_getElem h1]
    rfl

theorem parse_sim_step (g : Grammar) (table : LL1Table) (toks : List String)
    (ss : SeqState) (ts : TreeState) (h : ParseSim ss ts) :
    (∃ ss1 ts1, seq_step g table toks ss = .next ss1 ∧ tree_step g table toks ts = .next ts1 ∧
        ParseSim ss1 ts1) ∨
    (∃ r r1, seq_step g table toks ss = .halt r ∧ tree_step g table toks ts = .halt r1 ∧
        OutSim r r1) := by
  obtain ⟨st, i, used⟩ := ss
  obtain ⟨nodes, tst, ti⟩ := ts
  obtain ⟨h1, h2, h3, h4⟩ := h
  simp only at h1 h2 h3 h4
  subst h1 h2
  unfold seq_step tree_step
  cases tst with
  | nil => right; exact ⟨_, _, rfl, rfl, h3, h4⟩
  | cons e st1 =>
    obtain ⟨top, idx⟩ := e
    simp only [List.map_cons, List.map_eq_nil_iff]
    cases hcur : toks[i]? with
    | none => right; exact ⟨_, _, rfl, rfl, rfl⟩
    | some current =>
      simp only
      by_cases hterm : (is_terminal g top || decide (top = ENDMARK)) = true
      · simp only [if_pos hterm]
        by_cases htc : top = current
        · simp only [if_pos htc]
          by_cases hc : current = ENDMARK ∧ st1 = []
          · simp only [if_pos hc]
            right; exact ⟨_, _, rfl, rfl, h3, h4⟩
          · simp only [if_neg hc]
            left; exact ⟨_, _, rfl, rfl, rfl, rfl, h3, h4⟩
        · simp only [if_neg htc]
          right; exact ⟨_, _, rfl, rfl, rfl⟩
      · simp only [if_neg hterm]
        by_cases hA : is_nonterminal g top = true
        · simp only [if_pos hA]
          cases hcell : cell table top current with
          | none => right; exact ⟨_, _, rfl, rfl, rfl⟩
          | some rhs =>
            simp only
            by_cases he : rhs = [EPSILON]
            · simp only [if_pos he, List.map_eq_nil_iff]
              have hp : pushed_symbols (used ++ [(top, rhs)]) = pushed_symbols used := by
                rw [pushed_symbols_append, if_pos he, List.append_nil]
              by_cases hc : current = ENDMARK ∧ st1 = []
              · simp only [if_pos hc]
                right; exact ⟨_, _, rfl, rfl, h3, by rw [hp]; exact h4⟩
              · simp only [if_neg hc]
                left; exact ⟨_, _, rfl, rfl, rfl, rfl, h3, by rw [hp]; exact h4⟩
            · simp only [if_neg he, push_rhs_eq]
              have hsym := expand_symbols idx rhs nodes
              have hst : rhs ++ List.map Prod.fst st1
                  = (push_children rhs (alloc_children idx rhs nodes).2 st1).map Prod.fst := by
                rw [push_children_eq, List.map_append, range_getD_map]
              generalize link_siblings (alloc_children idx rhs nodes).2
                (alloc_children idx rhs nodes).1 = N2 at hsym ⊢
              generalize push_children rhs (alloc_children idx rhs nodes).2 st1 = S2 at hst ⊢
              have hn : N2 ≠ [] := by
                intro h0
                rw [h0] at hsym
                cases nodes with
                | nil => exact h3 rfl
                | cons r rest => simp at hsym
              have hp : (N2.drop 1).map Node.symbol
                  = pushed_symbols (used ++ [(top, rhs)]) := by
                rw [pushed_symbols_append, if_neg he, ← h4, List.map_drop, hsym]
                cases nodes with
                | nil => exact absurd rfl h3
                | cons r rest => simp
              by_cases hc : current = ENDMARK ∧ rhs ++ List.map Prod.fst st1 = []
              · have hc1 : current = ENDMARK ∧ S2 = [] := by
                  refine ⟨hc.1, ?_⟩
                  have := hc.2
                  rw [hst, List.map_eq_nil_iff] at this
                  exact this
                simp only [if_pos hc, if_pos hc1]
                right; exact ⟨_, _, rfl, rfl, hn, hp⟩
              · have hc1 : ¬ (current = ENDMARK ∧ S2 = []) := by
                  rintro ⟨h5, h6⟩
                  exact hc ⟨h5, by rw [hst, h6]; rfl⟩
                simp only [if_neg hc, if_neg hc1]
                left; exact ⟨_, _, rfl, rfl, hst, rfl, hn, hp⟩
        · simp only [if_neg hA]
          right; exact ⟨_, _, rfl, rfl, rfl⟩


theorem parse_sim_loop (g : Grammar) (table : LL1Table) (toks : List String) :
    ∀ (n : Nat) (ss : SeqState) (ts : TreeState), ParseSim ss ts →
      (run_loop (seq_step g table toks) n ss = none ∧
        run_loop (tree_step g table toks) n ts = none) ∨
      ∃ r r1, run_loop (seq_step g table toks) n ss = some r ∧
        run_loop (tree_step g table toks) n ts = some r1 ∧ OutSim r r1 := by
  intro n
  induction n with
  | zero => intro ss ts _; left; exact ⟨rfl, rfl⟩
  | succ n ih =>
    intro ss ts h
    rcases parse_sim_step g table toks ss ts h with ⟨ss1, ts1, h1, h2, h3⟩ | ⟨r, r1, h1, h2, h3⟩
    · simp only [run_loop, h1, h2]
      exact ih ss1 ts1 h3
    · right
      exact ⟨r, r1, by simp only [run_loop, h1], by simp only [run_loop, h2], h3⟩

theorem parse_sim_init (g : Grammar) :
    ParseSim ⟨[g.start_symbol, ENDMARK], 0, []⟩
      ⟨[Node.mk 0 g.start_symbol (-1) (-1)], [(g.start_symbol, 0), (ENDMARK, -1)], 0⟩ :=
  ⟨rfl, rfl, by simp, rfl⟩

theorem parsers_sim (g : Grammar) (table : LL1Table) (tokens : List String) (n : Nat) :
    (parse_sequence g table tokens n = none ∧ parse_with_tree g table tokens n = none) ∨
    ∃ r r1, parse_sequence g table tokens n = some r ∧
      parse_with_tree g table tokens n = some r1 ∧ OutSim r r1 :=
  parse_sim_loop g table _ n _ _ (parse_sim_init g)

theorem cell_of_build (g : Grammar) (F W : FirstFollow) (T : LL1Table)
    (h : build_ll1_table g F W = .ok T) (A a : String) (rhs : List String) :
    cell T A a = some rhs ↔
      ((A, rhs) ∈ production_pairs g ∧
        ((a ∈ first_of_sequence rhs F ∧ a ≠ EPSILON) ∨
          (EPSILON ∈ first_of_sequence rhs F ∧ a ∈ get W A))) := by
  rw [build_eq_writes] at h
  rw [(put_writes_ok _ _ _ h).1, cell_init_rows, mem_table_writes, mem_prod_cells,
    mem_production_pairs]
  simp

theorem known_inv_next (g : Grammar) (table : LL1Table) (toks : List String)
    (htab : ∀ A a rhs, cell table A a = some rhs →
      rhs = [EPSILON] ∨ ∀ X ∈ rhs, X ∈ g.terminals ∨ X ∈ g.nonterminals ∨ X = ENDMARK)
    (s s1 : SeqState) (hinv : KnownInv g s) (h : seq_step g table toks s = .next s1) :
    KnownInv g s1 := by
  rcases seq_step_cases g table toks s with ⟨_, he⟩ | ⟨top, st1, hst, hc⟩
  · rw [he] at h; cases h
  · have hst1 : ∀ X ∈ st1, X ∈ g.terminals ∨ X ∈ g.nonterminals ∨ X = ENDMARK := by
      intro X hX
      exact hinv X (by rw [hst]; exact List.mem_cons_of_mem _ hX)
    rcases hc with ⟨_, he⟩ | ⟨current, hcur, hc⟩
    · rw [he] at h; cases h
    · rcases hc with ⟨_, htc, ⟨_, _, he⟩ | ⟨hnc, he⟩⟩ | ⟨_, _, he⟩ | ⟨_, _, _, _, he⟩ |
        ⟨_, hne, _, rhs, hcell, ⟨_, _, he⟩ | ⟨_, he⟩⟩ | ⟨_, _, _, he⟩
      · rw [he] at h; cases h
      · rw [he] at h; cases h; exact hst1
      · rw [he] at h; cases h
      · rw [he] at h; cases h
      · rw [he] at h; cases h
      · rw [he] at h
        cases h
        intro X hX
        simp only at hX
        by_cases hr : rhs = [EPSILON]
        · rw [if_pos hr] at hX; exact hst1 X hX
        · rw [if_neg hr] at hX
          rcases List.mem_append.1 hX with hX | hX
          · rcases htab _ _ _ hcell with h1 | h1
            · exact absurd h1 hr
            · exact h1 X hX
          · exact hst1 X hX
      · rw [he] at h; cases h

theorem known_inv_halt (g : Grammar) (table : LL1Table) (toks : List String)
    (s : SeqState) (top : String) (hinv : KnownInv g s) :
    seq_step g table toks s ≠ .halt (.error (.unknown_symbol top)) := by
  intro h
  rcases seq_step_cases g table toks s with ⟨_, he⟩ | ⟨top1, st1, hst, hc⟩
  · rw [he] at h; cases h
  · rcases hc with ⟨_, he⟩ | ⟨current, hcur, hc⟩
    · rw [he] at h; cases h
    · rcases hc with ⟨_, htc, ⟨_, _, he⟩ | ⟨hnc, he⟩⟩ | ⟨_, _, he⟩ | ⟨_, _, _, _, he⟩ |
        ⟨_, hne, _, rhs, hcell, ⟨_, _, he⟩ | ⟨_, he⟩⟩ | ⟨h1, h2, h3, he⟩
      · rw [he] at h; cases h
      · rw [he] at h; cases h
      · rw [he] at h; cases h
      · rw [he] at h; cases h
      · rw [he] at h; cases h
      · rw [he] at h; cases h
      · rcases hinv top1 (by rw [hst]; simp) with h4 | h4 | h4
        · exact h1 h4
        · exact h3 h4
        · exact h2 h4

/-- C12 (the unknown-symbol error is unreachable), for a grammar whose start
symbol and whose right-hand-side symbols are declared: when the start symbol is
a declared terminal, a declared nonterminal or the end-marker, every production
right-hand side is either exactly `[epsilon]` or made of such symbols, and
`build_ll1_table` succeeds (on any FIRST and FOLLOW maps, in particular the
computed ones), then for every token list and every amount of fuel neither
`parse_sequence` nor `parse_with_tree` ends with the unknown-symbol failure. -/
theorem unknown_symbol_unreachable (g : Grammar) (F W : FirstFollow) (T : LL1Table)
    (hT : build_ll1_table g F W = .ok T)
    (hstart : g.start_symbol ∈ g.terminals ∨ g.start_symbol ∈ g.nonterminals ∨
      g.start_symbol = ENDMARK)
    (hrhs : ∀ p ∈ production_pairs g, p.2 = [EPSILON] ∨
      ∀ X ∈ p.2, X ∈ g.terminals ∨ X ∈ g.nonterminals ∨ X = ENDMARK)
    (tokens : List String) (n : Nat) (top : String) :
    parse_sequence g T tokens n ≠ some (.error (.unknown_symbol top)) ∧
    parse_with_tree g T tokens n ≠ some (.error (.unknown_symbol top)) := by
  have htab : ∀ A a rhs, cell T A a = some rhs →
      rhs = [EPSILON] ∨ ∀ X ∈ rhs, X ∈ g.terminals ∨ X ∈ g.nonterminals ∨ X = ENDMARK :=
    fun A a rhs hc => hrhs (A, rhs) ((cell_of_build g F W T hT A a rhs).1 hc).1
  have hseq : ∀ top1, parse_sequence g T tokens n ≠ some (.error (.unknown_symbol top1)) := by
    intro top1 h
    have hinit : KnownInv g ⟨[g.start_symbol, ENDMARK], 0, []⟩ := by
      intro X hX
      simp only [List.mem_cons, List.mem_singleton, List.not_mem_nil, or_false] at hX
      rcases hX with hX | hX
      · rw [hX]; exact hstart
      · exact Or.inr (Or.inr hX)
    obtain ⟨s, hs, hh⟩ := run_loop_inv _ (KnownInv g) (known_inv_next g T _ htab) n _ _ hinit h
    exact known_inv_halt g T _ s top1 hs hh
  refine ⟨hseq top, ?_⟩
  intro h
  rcases parsers_sim g T tokens n with ⟨_, h2⟩ | ⟨r, r1, h1, h2, h3⟩
  · rw [h2] at h; cases h
  · rw [h2] at h
    simp only [Option.some.injEq] at h
    subst h
    cases r with
    | ok ps => exact absurd h3 (by simp [OutSim])
    | error e =>
      simp only [OutSim] at h3
      subst h3
      exact hseq top h1

theorem unknown_symbol_unreachable_witness :
    parse_sequence scenario1 scenario1_table ["a", "a"] 5 ≠
        some (.error (.unknown_symbol "a")) ∧
    parse_with_tree scenario1 scenario1_table ["a", "a"] 5 ≠
        some (.error (.unknown_symbol "a")) :=
  unknown_symbol_unreachable scenario1 scenario1_first scenario1_follow scenario1_table rfl
    (by decide) (by decide) ["a", "a"] 5 "a"

/-- C12 fails when a right-hand side holds an undeclared symbol: for the grammar
`S → x` with `x` undeclared the three construction steps succeed, and on the
input `["x"]` both parsers end with the unknown-symbol failure for `x`.  It
fails as well when the start symbol is undeclared: for `A → a` with the start
symbol `S` the construction succeeds and both parsers end with the
unknown-symbol failure for `S`. -/
theorem unknown_symbol_unreachable_counterexample :
    (compute_first_sets undeclared_start
      = some [("a", ["a"]), ("A", ["a"]), ("epsilon", ["epsilon"])] ∧
    compute_follow_sets undeclared_start [("a", ["a"]), ("A", ["a"]), ("epsilon", ["epsilon"])]
      = some [("A", []), ("S", ["$"])] ∧
    build_ll1_table undeclared_start [("a", ["a"]), ("A", ["a"]), ("epsilon", ["epsilon"])]
      [("A", []), ("S", ["$"])] = .ok [("A", [("a", ["a"])])] ∧
    parse_sequence undeclared_start [("A", [("a", ["a"])])] ["a"] 1
      = some (.error (.unknown_symbol "S")) ∧
    parse_with_tree undeclared_start [("A", [("a", ["a"])])] ["a"] 1
      = some (.error (.unknown_symbol "S"))) ∧
    compute_first_sets undeclared_rhs
      = some [("S", ["x"]), ("epsilon", ["epsilon"]), ("x", ["x"])] ∧
    compute_follow_sets undeclared_rhs [("S", ["x"]), ("epsilon", ["epsilon"]), ("x", ["x"])]
      = some [("S", ["$"])] ∧
    build_ll1_table undeclared_rhs [("S", ["x"]), ("epsilon", ["epsilon"]), ("x", ["x"])]
      [("S", ["$"])] = .ok [("S", [("x", ["x"])])] ∧
    parse_sequence undeclared_rhs [("S", [("x", ["x"])])] ["x"] 2
      = some (.error (.unknown_symbol "x")) ∧
    parse_with_tree undeclared_rhs [("S", [("x", ["x"])])] ["x"] 2
      = some (.error (.unknown_symbol "x")) :=
  ⟨⟨by decide, by decide, rfl, rfl, rfl⟩, by decide, by decide, rfl, rfl, rfl⟩


/-! ## FIRST sets and derivations -/

theorem find_map_keys {V : Type} (l : List String) (f : String → V) (k : String) :
    find (l.map (fun x => (x, f x))) k = if k ∈ l then some (f k) else none := by
  induction l with
  | nil => simp [find]
  | cons x xs ih =>
    simp only [List.map_cons, find, ih, List.mem_cons]
    by_cases hx : x = k
    · subst hx; simp
    · have hx1 : ¬ k = x := fun h => hx h.symm
      simp [hx, hx1]

theorem seq_nullable_iff (U : FirstFollow) (seq : List String) :
    seq_nullable U seq ↔ ∀ Y ∈ seq, EPSILON ∈ sym_first U Y := by
  induction seq with
  | nil => simp [seq_nullable]
  | cons X rest ih => simp [seq_nullable, ih]

theorem seq_first_iff (U : FirstFollow) (seq : List String) (a : String) :
    seq_first U seq a ↔
      ∃ pre Y post, seq = pre ++ Y :: post ∧ (∀ Z ∈ pre, EPSILON ∈ sym_first U Z) ∧
        a ∈ sym_first U Y ∧ a ≠ EPSILON := by
  induction seq with
  | nil => simp [seq_first]
  | cons X rest ih =>
    simp only [seq_first, ih]
    constructor
    · rintro (⟨h1, h2⟩ | ⟨h1, pre, Y, post, h2, h3, h4, h5⟩)
      · exact ⟨[], X, rest, rfl, by simp, h1, h2⟩
      · refine ⟨X :: pre, Y, post, by rw [h2]; rfl, ?_, h4, h5⟩
        intro Z hZ
        rcases List.mem_cons.1 hZ with h | h
        · rw [h]; exact h1
        · exact h3 Z h
    · rintro ⟨pre, Y, post, h2, h3, h4, h5⟩
      cases pre with
      | nil =>
        simp only [List.nil_append, List.cons.injEq] at h2
        left; rw [h2.1]; exact ⟨h4, h5⟩
      | cons Z pre1 =>
        simp only [List.cons_append, List.cons.injEq] at h2
        right
        refine ⟨by rw [h2.1]; exact h3 Z (by simp), pre1, Y, post, h2.2, ?_, h4, h5⟩
        intro Z1 hZ1
        exact h3 Z1 (List.mem_cons_of_mem _ hZ1)

theorem seq_first_append (U : FirstFollow) (x y : List String) (a : String) :
    seq_first U (x ++ y) a ↔ seq_first U x a ∨ (seq_nullable U x ∧ seq_first U y a) := by
  induction x with
  | nil => simp [seq_first, seq_nullable]
  | cons X rest ih =>
    simp only [List.cons_append, seq_first, seq_nullable, ih]
    tauto

theorem seq_nullable_append (U : FirstFollow) (x y : List String) :
    seq_nullable U (x ++ y) ↔ seq_nullable U x ∧ seq_nullable U y := by
  induction x with
  | nil => simp [seq_nullable]
  | cons X rest ih =>
    simp only [List.cons_append, seq_nullable, ih]
    tauto

theorem seq_first_ne (U : FirstFollow) (seq : List String) (a : String)
    (h : seq_first U seq a) : a ≠ EPSILON := by
  obtain ⟨_, _, _, _, _, _, h1⟩ := (seq_first_iff U seq a).1 h
  exact h1

theorem proper_lhs_init (g : Grammar) (hp : Proper g) :
    ∀ p ∈ production_pairs g, p.1 ∈ g.nonterminals ∨ p.1 ∈ g.terminals ∨ p.1 = EPSILON :=
  fun p h => Or.inl (hp.lhs p h)

theorem sym_first_nonterminal (g : Grammar) (F : FirstFollow) (hp : Proper g)
    (hF : compute_first_sets g = some F) (X : String) (hX : X ∈ g.nonterminals) :
    sym_first F X = get F X :=
  (get_first_nonterminal g F hF (proper_lhs_init g hp) X (by simpa [is_nonterminal] using hX)).symm

theorem sym_first_terminal (g : Grammar) (F : FirstFollow) (hp : Proper g)
    (hF : compute_first_sets g = some F) (t : String) (ht : t ∈ g.terminals) :
    t ∈ sym_first F t := by
  apply (first_init_le_result g F hF (declared_lhs_init g (proper_lhs_init g hp))).1
  unfold sym_first
  rw [find_first_init]
  have h1 : ¬ EPSILON = t := fun h => hp.eps_t (by rw [h]; exact ht)
  simp [h1, hp.disj t ht, ht]


theorem first_closed_pair (g : Grammar) (F : FirstFollow) (hp : Proper g)
    (hF : compute_first_sets g = some F) (A : String) (rhs : List String)
    (hA : (A, rhs) ∈ production_pairs g) :
    (rhs = [EPSILON] → EPSILON ∈ sym_first F A) ∧
    (rhs ≠ [EPSILON] → (∀ a, seq_first F rhs a → a ∈ sym_first F A) ∧
      (seq_nullable F rhs → EPSILON ∈ sym_first F A)) := by
  obtain ⟨alts, h1, h2⟩ := (mem_production_pairs g A rhs).1 hA
  have hc := compute_first_sets_closed g F hF (A, alts) h1 rhs h2
  rw [sym_first_nonterminal g F hp hF A (hp.lhs _ hA)]
  refine ⟨hc.1, fun hne => ⟨fun a ha => ?_, fun hn => ?_⟩⟩
  · apply hc.2 hne
    rw [mem_first_of_sequence]
    have h0 : rhs ≠ [] := by
      intro h; rw [h] at ha; exact ha
    simp only [h0, hne, or_self, if_false]
    exact Or.inl ha
  · apply hc.2 hne
    rw [mem_first_of_sequence]
    by_cases h0 : rhs = []
    · simp [h0]
    · simp only [h0, hne, or_self, if_false]
      exact Or.inr ⟨trivial, hn⟩

/-- FIRST is complete for derivation trees. -/
theorem first_complete_null (g : Grammar) (F : FirstFollow) (hp : Proper g)
    (hF : compute_first_sets g = some F) (A : String) (h : NullD g A) :
    EPSILON ∈ sym_first F A := by
  induction h with
  | mk A rhs hA _ ih =>
    have hc := first_closed_pair g F hp hF A rhs hA
    by_cases he : rhs = [EPSILON]
    · exact hc.1 he
    · exact (hc.2 he).2 ((seq_nullable_iff F rhs).2 (ih he))

theorem first_complete_first (g : Grammar) (F : FirstFollow) (hp : Proper g)
    (hF : compute_first_sets g = some F) (A c : String) (hA : A ∈ g.terminals ∨ A ∈ g.nonterminals)
    (h : FirstD g A c) : c ∈ sym_first F A ∧ c ≠ EPSILON := by
  induction h with
  | self X hX hne =>
    rcases hA with h | h
    · exact ⟨sym_first_terminal g F hp hF X h, hne⟩
    · exact absurd h hX
  | prod A pre Y post c hprod hne hpre _ ih =>
    have hc := first_closed_pair g F hp hF A _ hprod
    have hY : Y ∈ g.terminals ∨ Y ∈ g.nonterminals := by
      rcases hp.rhs _ hprod with h | h
      · exact absurd h hne
      · exact h.2 Y (by simp)
    obtain ⟨h1, h2⟩ := ih hY
    refine ⟨(hc.2 hne).1 c ?_, h2⟩
    rw [seq_first_iff]
    exact ⟨pre, Y, post, rfl, fun Z hZ => first_complete_null g F hp hF Z (hpre Z hZ), h1, h2⟩

/-- One derivation step backwards keeps what a form can begin with under a
closed FIRST map. -/
theorem deriv_step_first (g : Grammar) (F : FirstFollow) (hp : Proper g)
    (hF : compute_first_sets g = some F) (u v : List String) (h : DerivStep g u v) :
    (∀ a, seq_first F v a → seq_first F u a) ∧ (seq_nullable F v → seq_nullable F u) := by
  cases h with
  | mk α β A rhs hA =>
    have hc := first_closed_pair g F hp hF A rhs hA
    have key : (∀ a, seq_first F (if rhs = [EPSILON] then [] else rhs) a → a ∈ sym_first F A) ∧
        (seq_nullable F (if rhs = [EPSILON] then [] else rhs) → EPSILON ∈ sym_first F A) := by
      by_cases he : rhs = [EPSILON]
      · simp only [if_pos he]
        exact ⟨fun a ha => absurd ha (by simp [seq_first]), fun _ => hc.1 he⟩
      · simp only [if_neg he]
        exact hc.2 he
    constructor
    · intro a ha
      rw [seq_first_append] at ha ⊢
      rcases ha with ha | ⟨hn, ha⟩
      · exact Or.inl ha
      · right
        refine ⟨hn, ?_⟩
        rw [seq_first_append] at ha
        rcases ha with ha | ⟨hn1, ha⟩
        · exact Or.inl ⟨key.1 a ha, seq_first_ne F _ a ha⟩
        · exact Or.inr ⟨key.2 hn1, ha⟩
    · intro hn
      rw [seq_nullable_append] at hn ⊢
      refine ⟨hn.1, ?_⟩
      rw [seq_nullable_append] at hn
      exact ⟨key.2 hn.2.1, hn.2.2⟩

theorem derives_first (g : Grammar) (F : FirstFollow) (hp : Proper g)
    (hF : compute_first_sets g = some F) (u v : List String) (h : Derives g u v) :
    (∀ a, seq_first F v a → seq_first F u a) ∧ (seq_nullable F v → seq_nullable F u) := by
  induction h with
  | done u => exact ⟨fun _ h => h, fun h => h⟩
  | step u v w hs _ ih =>
    have h1 := deriv_step_first g F hp hF u v hs
    exact ⟨fun a ha => h1.1 a (ih.1 a ha), fun hn => h1.2 (ih.2 hn)⟩


/-- FIRST is sound for derivation trees: an element of the FIRST set of a
declared symbol is begun by it, and epsilon is there only when it is nullable. -/
theorem first_sound (g : Grammar) (F : FirstFollow) (hp : Proper g)
    (hF : compute_first_sets g = some F) :
    ∀ X, X ∈ g.terminals ∨ X ∈ g.nonterminals → ∀ a ∈ sym_first F X,
      (a = EPSILON → NullD g X) ∧ (a ≠ EPSILON → FirstD g X a) := by
  classical
  let P : String → String → Prop :=
    fun k a => (a = EPSILON → NullD g k) ∧ (a ≠ EPSILON → FirstD g k a)
  let U : FirstFollow := (EPSILON, [EPSILON]) ::
    g.nonterminals.map (fun A => (A, (get F A).filter (fun a => decide (P A a))))
  have hfind : ∀ k, find U k = if EPSILON = k then some [EPSILON]
      else if k ∈ g.nonterminals then some ((get F k).filter (fun a => decide (P k a)))
      else none := by
    intro k
    show find ((EPSILON, [EPSILON]) :: _) k = _
    rw [find, find_map_keys g.nonterminals
      (fun A => (get F A).filter (fun a => decide (P A a)))]
  have hnt : ∀ X ∈ g.nonterminals, ∀ a, a ∈ sym_first U X ↔ (a ∈ get F X ∧ P X a) := by
    intro X hX a
    have h1 : ¬ EPSILON = X := fun h => hp.eps_n (by rw [h]; exact hX)
    unfold sym_first
    rw [hfind]
    simp [h1, hX]
  have ht : ∀ X ∈ g.terminals, sym_first U X = [X] := by
    intro X hX
    have h1 : ¬ EPSILON = X := fun h => hp.eps_t (by rw [h]; exact hX)
    unfold sym_first
    rw [hfind]
    simp [h1, hp.disj X hX]
  have hsym : ∀ X, X ∈ g.terminals ∨ X ∈ g.nonterminals → ∀ a, a ∈ sym_first U X →
      P X a ∧ a ∈ sym_first F X := by
    intro X hX a ha
    rcases hX with hX | hX
    · rw [ht X hX, List.mem_singleton] at ha
      subst ha
      have h1 : a ≠ EPSILON := fun h => hp.eps_t (by rw [← h]; exact hX)
      exact ⟨⟨fun h => absurd h h1, fun _ => FirstD.self a (hp.disj a hX) h1⟩,
        sym_first_terminal g F hp hF a hX⟩
    · rw [hnt X hX] at ha
      exact ⟨ha.2, by rw [sym_first_nonterminal g F hp hF X hX]; exact ha.1⟩
  have hinit : FLe (first_init g) U := by
    intro k a ha
    unfold sym_first at ha ⊢
    rw [find_first_init] at ha
    rw [hfind]
    by_cases h1 : EPSILON = k
    · simpa [h1] using ha
    · by_cases h2 : k ∈ g.nonterminals
      · simp [h1, h2] at ha
      · simp only [h1, h2, if_false] at ha ⊢
        by_cases h3 : k ∈ g.terminals
        · simpa [h3] using ha
        · simpa [h3] using ha
  have hclosed : ∀ kv ∈ g.productions, ∀ rhs ∈ kv.2, first_closed_at U kv.1 rhs := by
    intro kv hkv rhs hrhs
    have hpair : (kv.1, rhs) ∈ production_pairs g :=
      (mem_production_pairs g kv.1 rhs).2 ⟨kv.2, hkv, hrhs⟩
    have hA : kv.1 ∈ g.nonterminals := hp.lhs _ hpair
    have hcF := first_closed_pair g F hp hF kv.1 rhs hpair
    rw [sym_first_nonterminal g F hp hF kv.1 hA] at hcF
    have hgetU : ∀ a, a ∈ get U kv.1 ↔ (a ∈ get F kv.1 ∧ P kv.1 a) := by
      intro a
      rw [← hnt kv.1 hA a, sym_first_of_find]
      rw [hfind]
      have h1 : ¬ EPSILON = kv.1 := fun h => hp.eps_n (by rw [h]; exact hA)
      simp [h1, hA]
    constructor
    · intro he
      rw [hgetU]
      exact ⟨hcF.1 he, fun _ => NullD.mk kv.1 rhs hpair (fun h => absurd he h),
        fun h => absurd rfl h⟩
    · intro hne a ha
      have hdecl : rhs ≠ [] ∧ ∀ X ∈ rhs, X ∈ g.terminals ∨ X ∈ g.nonterminals := by
        rcases hp.rhs _ hpair with h | h
        · exact absurd h hne
        · exact h
      rw [mem_first_of_sequence] at ha
      simp only [hdecl.1, hne, or_self, if_false] at ha
      rw [hgetU]
      rcases ha with ha | ⟨ha, hn⟩
      · obtain ⟨pre, Y, post, h1, h2, h3, h4⟩ := (seq_first_iff U rhs a).1 ha
        have hY := hsym Y (hdecl.2 Y (by rw [h1]; simp)) a h3
        have hpre : ∀ Z ∈ pre, NullD g Z ∧ EPSILON ∈ sym_first F Z := by
          intro Z hZ
          have := hsym Z (hdecl.2 Z (by rw [h1]; simp [hZ])) EPSILON (h2 Z hZ)
          exact ⟨this.1.1 rfl, this.2⟩
        constructor
        · apply (hcF.2 hne).1
          rw [seq_first_iff]
          exact ⟨pre, Y, post, h1, fun Z hZ => (hpre Z hZ).2, hY.2, h4⟩
        · refine ⟨fun h => absurd h h4, fun _ => ?_⟩
          subst h1
          exact FirstD.prod kv.1 pre Y post a hpair hne (fun Z hZ => (hpre Z hZ).1)
            (hY.1.2 h4)
      · have hall : ∀ Y ∈ rhs, NullD g Y ∧ EPSILON ∈ sym_first F Y := by
          intro Y hY
          have := hsym Y (hdecl.2 Y hY) EPSILON ((seq_nullable_iff U rhs).1 hn Y hY)
          exact ⟨this.1.1 rfl, this.2⟩
        constructor
        · rw [ha]
          exact (hcF.2 hne).2 ((seq_nullable_iff F rhs).2 (fun Y hY => (hall Y hY).2))
        · exact ⟨fun _ => NullD.mk kv.1 rhs hpair (fun _ Y hY => (hall Y hY).1),
            fun h => absurd ha h⟩
  have hle := compute_first_sets_le g F U hF hinit hclosed
  intro X hX a ha
  exact (hsym X hX a (hle X a ha)).1


theorem derives_trans (g : Grammar) (u v w : List String) (h1 : Derives g u v)
    (h2 : Derives g v w) : Derives g u w := by
  induction h1 with
  | done u => exact h2
  | step u v1 w1 hs _ ih => exact Derives.step u v1 w hs (ih h2)

theorem deriv_step_context (g : Grammar) (α β u v : List String) (h : DerivStep g u v) :
    DerivStep g (α ++ u ++ β) (α ++ v ++ β) := by
  cases h with
  | mk α1 β1 A rhs hA =>
    have := DerivStep.mk (α ++ α1) (β1 ++ β) A rhs hA
    simpa [List.append_assoc] using this

theorem derives_context (g : Grammar) (α β u v : List String) (h : Derives g u v) :
    Derives g (α ++ u ++ β) (α ++ v ++ β) := by
  induction h with
  | done u => exact Derives.done _
  | step u v1 w1 hs _ ih => exact Derives.step _ _ _ (deriv_step_context g α β u v1 hs) ih

theorem derives_pair (g : Grammar) (A : String) (rhs : List String)
    (hA : (A, rhs) ∈ production_pairs g) :
    Derives g [A] (if rhs = [EPSILON] then [] else rhs) := by
  have := DerivStep.mk [] [] A rhs hA
  simp only [List.nil_append, List.append_nil] at this
  exact Derives.step _ _ _ this (Derives.done _)

theorem derives_erase (g : Grammar) (l : List String) (h : ∀ Y ∈ l, Derives g [Y] []) :
    Derives g l [] := by
  induction l with
  | nil => exact Derives.done _
  | cons Y rest ih =>
    have h1 := derives_context g [] rest [Y] [] (h Y (by simp))
    simp only [List.nil_append, List.singleton_append] at h1
    exact derives_trans g _ _ _ h1 (ih (fun Z hZ => h Z (List.mem_cons_of_mem _ hZ)))

theorem derives_of_null (g : Grammar) (A : String) (h : NullD g A) : Derives g [A] [] := by
  induction h with
  | mk A rhs hA _ ih =>
    have h1 := derives_pair g A rhs hA
    by_cases he : rhs = [EPSILON]
    · simpa [he] using h1
    · rw [if_neg he] at h1
      exact derives_trans g _ _ _ h1 (derives_erase g rhs (ih he))

theorem derives_of_first (g : Grammar) (A c : String) (h : FirstD g A c) :
    ∃ rest, Derives g [A] (c :: rest) := by
  induction h with
  | self X _ _ => exact ⟨[], Derives.done _⟩
  | prod A pre Y post c hprod hne hpre _ ih =>
    obtain ⟨rest, hrest⟩ := ih
    have h1 := derives_pair g A _ hprod
    rw [if_neg hne] at h1
    have h2 := derives_context g [] (Y :: post) pre []
      (derives_erase g pre (fun Z hZ => derives_of_null g Z (hpre Z hZ)))
    simp only [List.nil_append, List.append_nil] at h2
    have h3 := derives_context g [] post [Y] (c :: rest) hrest
    simp only [List.nil_append, List.singleton_append, List.cons_append] at h3
    exact ⟨rest ++ post, derives_trans g _ _ _ h1 (derives_trans g _ _ _ h2 h3)⟩

/-- C13 (FIRST equals its reference definition): for a grammar whose declared
terminals and nonterminals are disjoint and hold neither epsilon nor the
end-marker, whose left-hand sides are declared nonterminals and whose
right-hand sides are each exactly `[epsilon]` or a non-empty sequence of
declared symbols, `compute_first_sets` returns a map in which, for every
declared nonterminal `A`, a terminal `t` is in `FIRST(A)` exactly when `A`
derives a sentential form that begins with `t`, and epsilon is in `FIRST(A)`
exactly when `A` derives the empty sequence. -/
theorem first_reference (g : Grammar) (hp : Proper g) :
    ∃ F, compute_first_sets g = some F ∧ ∀ A ∈ g.nonterminals,
      (∀ t ∈ g.terminals, t ∈ get F A ↔ ∃ rest, Derives g [A] (t :: rest)) ∧
      (EPSILON ∈ get F A ↔ Derives g [A] []) := by
  obtain ⟨F, hF⟩ := compute_first_sets_total g
  refine ⟨F, hF, fun A hA => ⟨fun t ht => ⟨fun h => ?_, fun h => ?_⟩, ⟨fun h => ?_, fun h => ?_⟩⟩⟩
  · have hne : t ≠ EPSILON := fun h1 => hp.eps_t (by rw [← h1]; exact ht)
    rw [← sym_first_nonterminal g F hp hF A hA] at h
    exact derives_of_first g A t ((first_sound g F hp hF A (Or.inr hA) t h).2 hne)
  · obtain ⟨rest, hd⟩ := h
    have hne : t ≠ EPSILON := fun h1 => hp.eps_t (by rw [← h1]; exact ht)
    have h1 : seq_first F (t :: rest) t := Or.inl ⟨sym_first_terminal g F hp hF t ht, hne⟩
    have h2 := (derives_first g F hp hF _ _ hd).1 t h1
    rw [← sym_first_nonterminal g F hp hF A hA]
    rcases h2 with h2 | h2
    · exact h2.1
    · exact absurd h2.2 (by simp [seq_first])
  · rw [← sym_first_nonterminal g F hp hF A hA] at h
    exact derives_of_null g A ((first_sound g F hp hF A (Or.inr hA) EPSILON h).1 rfl)
  · have h2 := (derives_first g F hp hF _ _ h).2 trivial
    rw [← sym_first_nonterminal g F hp hF A hA]
    exact h2.1

theorem proper_scenario1 : Proper scenario1 :=
  ⟨by decide, by decide, by decide, by decide, by decide, by decide, by decide⟩

theorem first_reference_witness :
    ∃ F, compute_first_sets scenario1 = some F ∧ ∀ A ∈ scenario1.nonterminals,
      (∀ t ∈ scenario1.terminals, t ∈ get F A ↔ ∃ rest, Derives scenario1 [A] (t :: rest)) ∧
      (EPSILON ∈ get F A ↔ Derives scenario1 [A] []) :=
  first_reference scenario1
    ⟨by decide, by decide, by decide, by decide, by decide, by decide, by decide⟩


/-! ## FOLLOW sets and right-hand sides -/

theorem null_nonterminal (g : Grammar) (hp : Proper g) (X : String) (h : NullD g X) :
    X ∈ g.nonterminals := by
  cases h with
  | mk A rhs hA _ => exact hp.lhs _ hA

theorem first_self_of_not_nonterminal (g : Grammar) (hp : Proper g) (X c : String)
    (hX : X ∉ g.nonterminals) (h : FirstD g X c) : c = X := by
  cases h with
  | self _ _ _ => rfl
  | prod _ pre Y post _ hprod _ _ _ => exact absurd (hp.lhs _ hprod) hX

theorem sym_first_terminal_iff (g : Grammar) (F : FirstFollow) (hp : Proper g)
    (hF : compute_first_sets g = some F) (t : String) (ht : t ∈ g.terminals) (a : String) :
    a ∈ sym_first F t ↔ a = t := by
  constructor
  · intro ha
    have h := first_sound g F hp hF t (Or.inl ht) a ha
    by_cases he : a = EPSILON
    · exact absurd (null_nonterminal g hp t (h.1 he)) (hp.disj t ht)
    · exact first_self_of_not_nonterminal g hp t a (hp.disj t ht) (h.2 he)
  · intro ha
    rw [ha]
    exact sym_first_terminal g F hp hF t ht

theorem scan_trailer_append (g : Grammar) (F : FirstFollow) (l1 l2 : List String)
    (t : SetSS) :
    scan_trailer g F (l1 ++ l2) t = scan_trailer g F l2 (scan_trailer g F l1 t) := by
  induction l1 generalizing t with
  | nil => rfl
  | cons X rest ih =>
    rw [List.cons_append]
    simp only [scan_trailer]
    exact ih _

theorem follow_closed_scan_append (g : Grammar) (F W : FirstFollow) (l1 l2 : List String)
    (t : SetSS) :
    follow_closed_scan g F W (l1 ++ l2) t ↔
      follow_closed_scan g F W l1 t ∧ follow_closed_scan g F W l2 (scan_trailer g F l1 t) := by
  induction l1 generalizing t with
  | nil => simp [follow_closed_scan, scan_trailer]
  | cons X rest ih =>
    rw [List.cons_append]
    simp only [follow_closed_scan, scan_trailer]
    by_cases hX : is_nonterminal g X = true
    · simp only [hX, if_true]
      rw [ih, and_assoc]
    · simp only [hX]
      exact ih _

theorem mem_scan_trailer (g : Grammar) (F : FirstFollow) (hp : Proper g)
    (hF : compute_first_sets g = some F) (t0 : SetSS) (post : List String)
    (hdecl : ∀ X ∈ post, X ∈ g.terminals ∨ X ∈ g.nonterminals) (a : String) :
    a ∈ scan_trailer g F post.reverse t0 ↔
      (seq_first F post a ∨ (seq_nullable F post ∧ a ∈ t0)) := by
  induction post generalizing a with
  | nil => simp [scan_trailer, seq_first, seq_nullable]
  | cons Y rest ih =>
    have ih1 := ih (fun X hX => hdecl X (List.mem_cons_of_mem _ hX))
    rw [List.reverse_cons, scan_trailer_append]
    simp only [scan_trailer, seq_first, seq_nullable]
    by_cases hY : is_nonterminal g Y = true
    · have hY1 : Y ∈ g.nonterminals := by simpa [is_nonterminal] using hY
      rw [if_pos hY, mem_next_trailer_iff, ih1, sym_first_nonterminal g F hp hF Y hY1]
      tauto
    · have hY1 : Y ∉ g.nonterminals := by simpa [is_nonterminal] using hY
      have hY2 : Y ∈ g.terminals := by
        rcases hdecl Y (by simp) with h | h
        · exact h
        · exact absurd h hY1
      have hne : Y ≠ EPSILON := fun h => hp.eps_t (by rw [← h]; exact hY2)
      have hne1 : ¬ EPSILON = Y := fun h => hne h.symm
      rw [if_neg hY]
      simp only [sym_first_terminal_iff g F hp hF Y hY2, List.mem_singleton, hne1, false_and,
        or_false]
      constructor
      · intro h; exact ⟨h, by rw [h]; exact hne⟩
      · intro h; exact h.1

/-- What the closure of a FOLLOW map at a production says about each nonterminal
of the right-hand side: its FOLLOW set holds what the rest of the right-hand side
can begin with, and the FOLLOW set of the left-hand side when that rest is
nullable. -/
theorem follow_closed_sem (g : Grammar) (F W : FirstFollow) (hp : Proper g)
    (hF : compute_first_sets g = some F) (A : String) (pre post : List String) (X : String)
    (hc : follow_closed_at g F W A (pre ++ X :: post))
    (hX : X ∈ g.nonterminals)
    (hdecl : ∀ Y ∈ post, Y ∈ g.terminals ∨ Y ∈ g.nonterminals) :
    (∀ a, seq_first F post a → a ∈ get W X) ∧
    (seq_nullable F post → ∀ a ∈ get W A, a ∈ get W X) := by
  unfold follow_closed_at at hc
  have e : (pre ++ X :: post).reverse = post.reverse ++ X :: pre.reverse := by simp
  rw [e, follow_closed_scan_append] at hc
  have h1 := hc.2
  unfold follow_closed_scan at h1
  have hX1 : is_nonterminal g X = true := by simpa [is_nonterminal] using hX
  rw [if_pos hX1] at h1
  constructor
  · intro a ha
    exact h1.1 a ((mem_scan_trailer g F hp hF _ post hdecl a).2 (Or.inl ha))
  · intro hn a ha
    exact h1.1 a ((mem_scan_trailer g F hp hF _ post hdecl a).2 (Or.inr ⟨hn, ha⟩))


/-! ## Completeness of `parse_sequence` -/

theorem fos_sem (F : FirstFollow) (rhs : List String) :
    (∀ c, (c ∈ first_of_sequence rhs F ∧ c ≠ EPSILON) ↔
      seq_first F (if rhs = [EPSILON] then [] else rhs) c) ∧
    (EPSILON ∈ first_of_sequence rhs F ↔
      seq_nullable F (if rhs = [EPSILON] then [] else rhs)) := by
  by_cases he : rhs = [EPSILON]
  · rw [if_pos he]
    constructor
    · intro c
      rw [mem_first_of_sequence, if_pos (Or.inr he)]
      exact ⟨fun h => absurd h.1 h.2, fun h => absurd h (by simp [seq_first])⟩
    · rw [mem_first_of_sequence, if_pos (Or.inr he)]
      exact ⟨fun _ => trivial, fun _ => rfl⟩
  · rw [if_neg he]
    by_cases h0 : rhs = []
    · constructor
      · intro c
        rw [mem_first_of_sequence, if_pos (Or.inl h0), h0]
        exact ⟨fun h => absurd h.1 h.2, fun h => absurd h (by simp [seq_first])⟩
      · rw [mem_first_of_sequence, if_pos (Or.inl h0), h0]
        exact ⟨fun _ => trivial, fun _ => rfl⟩
    · have hne : ¬ (rhs = [] ∨ rhs = [EPSILON]) := by
        rintro (h | h)
        · exact h0 h
        · exact he h
      constructor
      · intro c
        rw [mem_first_of_sequence, if_neg hne]
        constructor
        · rintro ⟨h1 | h1, h2⟩
          · exact h1
          · exact absurd h1.1 h2
        · intro h
          exact ⟨Or.inl h, seq_first_ne F rhs c h⟩
      · rw [mem_first_of_sequence, if_neg hne]
        constructor
        · rintro (h | h)
          · exact absurd rfl (seq_first_ne F rhs _ h)
          · exact h.2
        · intro h; exact Or.inr ⟨rfl, h⟩

theorem follow_ok_init (g : Grammar) (F W : FirstFollow)
    (hW : compute_follow_sets g F = some W) : FollowOK g F W [g.start_symbol] := by
  intro pre X post h _
  cases pre with
  | nil =>
    simp only [List.nil_append, List.cons.injEq] at h
    rw [← h.1, ← h.2]
    exact ⟨fun a ha => absurd ha (by simp [seq_first]),
      fun _ => (compute_follow_sets_closed g F W hW).2⟩
  | cons y pre1 =>
    simp only [List.cons_append, List.cons.injEq] at h
    exact absurd h.2 (by simp)

theorem follow_ok_tail (g : Grammar) (F W : FirstFollow) (X : String) (rest : List String)
    (h : FollowOK g F W (X :: rest)) : FollowOK g F W rest := by
  intro pre Y post he hY
  exact h (X :: pre) Y post (by rw [he]; rfl) hY

theorem follow_ok_expand (g : Grammar) (F W : FirstFollow) (hp : Proper g)
    (hF : compute_first_sets g = some F) (hW : compute_follow_sets g F = some W)
    (A : String) (rhs rest : List String) (hA : (A, rhs) ∈ production_pairs g)
    (h : FollowOK g F W (A :: rest)) :
    FollowOK g F W ((if rhs = [EPSILON] then [] else rhs) ++ rest) := by
  have htail := follow_ok_tail g F W A rest h
  have hAn : A ∈ g.nonterminals := hp.lhs _ hA
  have hAok := h [] A rest rfl hAn
  by_cases he : rhs = [EPSILON]
  · simpa [he] using htail
  · rw [if_neg he]
    have hdecl : ∀ X ∈ rhs, X ∈ g.terminals ∨ X ∈ g.nonterminals := by
      rcases hp.rhs _ hA with h1 | h1
      · exact absurd h1 he
      · exact h1.2
    obtain ⟨alts, h1, h2⟩ := (mem_production_pairs g A rhs).1 hA
    have hc := (compute_follow_sets_closed g F W hW).1 (A, alts) h1 rhs h2
    intro pre X post hsplit hX
    rcases List.append_eq_append_iff.1 hsplit with ⟨a1, _, h4⟩ | ⟨c1, h3, h4⟩
    · exact htail a1 X post h4 hX
    · cases c1 with
      | nil =>
        simp only [List.nil_append] at h4
        exact htail [] X post h4.symm hX
      | cons y c2 =>
        simp only [List.cons_append, List.cons.injEq] at h4
        obtain ⟨h5, h6⟩ := h4
        subst h5
        have hsem := follow_closed_sem g F W hp hF A pre c2 X (by rw [← h3]; exact hc) hX
          (fun Y hY => hdecl Y (by rw [h3]; simp [hY]))
        rw [h6]
        constructor
        · intro a ha
          rcases (seq_first_append F c2 rest a).1 ha with h7 | ⟨h7, h8⟩
          · exact hsem.1 a h7
          · exact hsem.2 h7 a (hAok.1 a h8)
        · intro hn
          rw [seq_nullable_append] at hn
          exact hsem.2 hn.1 _ (hAok.2 hn.2)


theorem seq_step_match (g : Grammar) (table : LL1Table) (toks : List String) (t : String)
    (st1 : List String) (i : Nat) (used : List (String × List String))
    (hcur : toks[i]? = some t) (ht : t ∈ g.terminals ∨ t = ENDMARK)
    (hc : ¬ (t = ENDMARK ∧ st1 = [])) :
    seq_step g table toks ⟨t :: st1, i, used⟩ = .next ⟨st1, i + 1, used⟩ := by
  have hterm : (is_terminal g t || decide (t = ENDMARK)) = true := by
    simpa [is_terminal] using ht
  unfold seq_step
  simp only [hcur]
  rw [if_pos hterm]
  simp only [if_true]
  rw [if_neg hc]

theorem seq_step_accept (g : Grammar) (table : LL1Table) (toks : List String)
    (i : Nat) (used : List (String × List String)) (hcur : toks[i]? = some ENDMARK) :
    seq_step g table toks ⟨[ENDMARK], i, used⟩ = .halt (.ok used) := by
  unfold seq_step
  simp [hcur]

theorem seq_step_expand (g : Grammar) (table : LL1Table) (toks : List String) (A c : String)
    (rhs st1 : List String) (i : Nat) (used : List (String × List String))
    (hcur : toks[i]? = some c) (h1 : A ∉ g.terminals) (h2 : A ≠ ENDMARK)
    (h3 : A ∈ g.nonterminals) (hcell : cell table A c = some rhs)
    (hc : (if rhs = [EPSILON] then st1 else rhs ++ st1) ≠ []) :
    seq_step g table toks ⟨A :: st1, i, used⟩
      = .next ⟨if rhs = [EPSILON] then st1 else rhs ++ st1, i, used ++ [(A, rhs)]⟩ := by
  have hterm : ¬ (is_terminal g A || decide (A = ENDMARK)) = true := by
    simp [is_terminal, h1, h2]
  have hA : is_nonterminal g A = true := by simpa [is_nonterminal] using h3
  unfold seq_step
  simp only [hcur, hcell, push_rhs_eq]
  rw [if_neg hterm, if_pos hA, if_neg (fun h => hc h.2)]

theorem run_loop_next {σ ρ : Type} (step : σ → Step σ ρ) (s s1 : σ) (h : step s = .next s1)
    (n : Nat) (r : Except ParseError ρ) (h1 : run_loop step n s1 = some r) :
    run_loop step (n + 1) s = some r := by
  rw [run_loop, h]; exact h1

theorem drop_cons_split (toks : List String) (i : Nat) (c : String) (r : List String)
    (h : toks.drop i = c :: r) : toks[i]? = some c ∧ toks.drop (i + 1) = r := by
  induction toks generalizing i with
  | nil => simp at h
  | cons x xs ih =>
    cases i with
    | zero =>
      simp only [List.drop_zero, List.cons.injEq] at h
      simp [h.1, h.2]
    | succ j =>
      simp only [List.drop_succ_cons] at h
      simpa using ih j h

theorem cell_of_sem (g : Grammar) (F W : FirstFollow) (T : LL1Table)
    (hT : build_ll1_table g F W = .ok T) (A c : String) (rhs : List String)
    (hA : (A, rhs) ∈ production_pairs g)
    (h : seq_first F (if rhs = [EPSILON] then [] else rhs) c ∨
      (seq_nullable F (if rhs = [EPSILON] then [] else rhs) ∧ c ∈ get W A)) :
    cell T A c = some rhs := by
  rw [cell_of_build g F W T hT]
  refine ⟨hA, ?_⟩
  rcases h with h | ⟨h1, h2⟩
  · exact Or.inl (((fos_sem F rhs).1 c).2 h)
  · exact Or.inr ⟨(fos_sem F rhs).2.2 h1, h2⟩

theorem gen_first (g : Grammar) (F : FirstFollow) (hp : Proper g)
    (hF : compute_first_sets g = some F) (form w : List String) (h : GenSeq g form w) :
    (∀ c w1, w = c :: w1 → seq_first F form c) ∧ (w = [] → seq_nullable F form) := by
  induction h with
  | nil => exact ⟨fun c w1 h => (by cases h), fun _ => trivial⟩
  | term t rest w ht _ _ =>
    refine ⟨fun c w1 h => ?_, fun h => by cases h⟩
    simp only [List.cons.injEq] at h
    rw [← h.1]
    exact Or.inl ⟨sym_first_terminal g F hp hF t ht,
      fun he => hp.eps_t (by rw [← he]; exact ht)⟩
  | prod A rhs rest w hA _ ih =>
    have hs := deriv_step_first g F hp hF _ _ (DerivStep.mk [] rest A rhs hA)
    simp only [List.nil_append] at hs
    exact ⟨fun c w1 h => hs.1 c (ih.1 c w1 h), fun h => hs.2 (ih.2 h)⟩

/-- A stack that generates the rest of the input is parsed to the end. -/
theorem gen_accepts (g : Grammar) (F W : FirstFollow) (T : LL1Table) (hp : Proper g)
    (hF : compute_first_sets g = some F) (hW : compute_follow_sets g F = some W)
    (hT : build_ll1_table g F W = .ok T) (toks : List String) (st w : List String)
    (h : GenSeq g st w) :
    ∀ (i : Nat) (used : List (String × List String)), toks.drop i = w ++ [ENDMARK] →
      FollowOK g F W st →
      ∃ n ps, run_loop (seq_step g T toks) n ⟨st ++ [ENDMARK], i, used⟩ = some (.ok ps) := by
  induction h with
  | nil =>
    intro i used hd _
    have hcur := (drop_cons_split toks i ENDMARK [] hd).1
    exact ⟨1, used, by simp [run_loop, seq_step_accept g T toks i used hcur]⟩
  | term t rest w ht _ ih =>
    intro i used hd hok
    obtain ⟨hcur, hd1⟩ := drop_cons_split toks i t (w ++ [ENDMARK]) hd
    have hne : t ≠ ENDMARK := fun he => hp.end_t (by rw [← he]; exact ht)
    obtain ⟨n, ps, hn⟩ := ih (i + 1) used hd1 (follow_ok_tail g F W t rest hok)
    exact ⟨n + 1, ps, run_loop_next _ _ _
      (seq_step_match g T toks t (rest ++ [ENDMARK]) i used hcur (Or.inl ht)
        (fun h => hne h.1)) n _ hn⟩
  | prod A rhs rest w hA hgen ih =>
    intro i used hd hok
    have hAn : A ∈ g.nonterminals := hp.lhs _ hA
    have hAt : A ∉ g.terminals := fun h => hp.disj A h hAn
    have hAe : A ≠ ENDMARK := fun h => hp.end_n (by rw [← h]; exact hAn)
    have hAok := hok [] A rest rfl hAn
    have hfirst := gen_first g F hp hF _ w hgen
    have hok1 := follow_ok_expand g F W hp hF hW A rhs rest hA hok
    have hcell : ∃ c, toks[i]? = some c ∧ cell T A c = some rhs := by
      cases w with
      | nil =>
        have hcur := (drop_cons_split toks i ENDMARK [] hd).1
        have hn := hfirst.2 rfl
        rw [seq_nullable_append] at hn
        exact ⟨ENDMARK, hcur, cell_of_sem g F W T hT A ENDMARK rhs hA
          (Or.inr ⟨hn.1, hAok.2 hn.2⟩)⟩
      | cons c w1 =>
        have hcur := (drop_cons_split toks i c (w1 ++ [ENDMARK]) hd).1
        have hf := hfirst.1 c w1 rfl
        rw [seq_first_append] at hf
        refine ⟨c, hcur, cell_of_sem g F W T hT A c rhs hA ?_⟩
        rcases hf with hf | ⟨hn, hf⟩
        · exact Or.inl hf
        · exact Or.inr ⟨hn, hAok.1 c hf⟩
    obtain ⟨c, hcur, hcell⟩ := hcell
    obtain ⟨n, ps, hn⟩ := ih i (used ++ [(A, rhs)]) hd hok1
    have hstep := seq_step_expand g T toks A c rhs (rest ++ [ENDMARK]) i used hcur hAt hAe hAn
      hcell (by by_cases he : rhs = [EPSILON] <;> simp [he])
    have e : (if rhs = [EPSILON] then rest ++ [ENDMARK] else rhs ++ (rest ++ [ENDMARK]))
        = (if rhs = [EPSILON] then [] else rhs) ++ rest ++ [ENDMARK] := by
      by_cases he : rhs = [EPSILON] <;> simp [he]
    rw [e] at hstep
    exact ⟨n + 1, ps, run_loop_next _ _ _ hstep n _ hn⟩


theorem gen_step_back (g : Grammar) (A : String) (rhs β : List String)
    (hA : (A, rhs) ∈ production_pairs g) (form w : List String) (h : GenSeq g form w) :
    ∀ α, form = α ++ ((if rhs = [EPSILON] then [] else rhs) ++ β) →
      GenSeq g (α ++ A :: β) w := by
  induction h with
  | nil =>
    intro α he
    cases α with
    | nil =>
      simp only [List.nil_append] at he ⊢
      exact GenSeq.prod A rhs β [] hA (by rw [← he]; exact GenSeq.nil)
    | cons x α1 => simp at he
  | term t rest w ht hgen ih =>
    intro α he
    cases α with
    | nil =>
      simp only [List.nil_append] at he ⊢
      exact GenSeq.prod A rhs β (t :: w) hA (by rw [← he]; exact GenSeq.term t rest w ht hgen)
    | cons x α1 =>
      simp only [List.cons_append, List.cons.injEq] at he
      rw [← he.1]
      exact GenSeq.term t _ w ht (ih α1 he.2)
  | prod X r rest w hX hgen ih =>
    intro α he
    cases α with
    | nil =>
      simp only [List.nil_append] at he ⊢
      exact GenSeq.prod A rhs β w hA (by rw [← he]; exact GenSeq.prod X r rest w hX hgen)
    | cons x α1 =>
      simp only [List.cons_append, List.cons.injEq] at he
      rw [← he.1]
      have := ih ((if r = [EPSILON] then [] else r) ++ α1)
        (by rw [he.2, List.append_assoc])
      rw [List.append_assoc] at this
      exact GenSeq.prod X r _ w hX this

theorem gen_refl (g : Grammar) (w : List String) (hw : ∀ t ∈ w, t ∈ g.terminals) :
    GenSeq g w w := by
  induction w with
  | nil => exact GenSeq.nil
  | cons t rest ih =>
    exact GenSeq.term t rest rest (hw t (by simp))
      (ih (fun x hx => hw x (List.mem_cons_of_mem _ hx)))

theorem gen_of_derives (g : Grammar) (u w : List String) (h : Derives g u w)
    (hw : ∀ t ∈ w, t ∈ g.terminals) : GenSeq g u w := by
  induction h with
  | done u => exact gen_refl g u hw
  | step u v w1 hs _ ih =>
    cases hs with
    | mk α β A rhs hA => exact gen_step_back g A rhs β hA _ w1 (ih hw) α rfl

/-- C17 (completeness of validation): for a grammar whose declared terminals
and nonterminals are disjoint and hold neither epsilon nor the end-marker,
whose left-hand sides are declared nonterminals and whose right-hand sides are
each exactly `[epsilon]` or a non-empty sequence of declared symbols, and whose
table was built without conflict from the computed FIRST and FOLLOW sets,
every list of declared terminals that the start symbol derives is accepted:
with enough fuel `parse_sequence` returns a production list. -/
theorem validation_complete (g : Grammar) (F W : FirstFollow) (T : LL1Table) (hp : Proper g)
    (hF : compute_first_sets g = some F) (hW : compute_follow_sets g F = some W)
    (hT : build_ll1_table g F W = .ok T) (tokens : List String)
    (htok : ∀ t ∈ tokens, t ∈ g.terminals) (hd : Derives g [g.start_symbol] tokens) :
    ∃ n ps, parse_sequence g T tokens n = some (.ok ps) := by
  have hgen := gen_of_derives g _ _ hd htok
  obtain ⟨n, ps, h⟩ := gen_accepts g F W T hp hF hW hT (tokens ++ [ENDMARK]) _ _ hgen 0 []
    rfl (follow_ok_init g F W hW)
  exact ⟨n, ps, h⟩

theorem validation_complete_witness :
    ∃ n ps, parse_sequence scenario1 scenario1_table ["a", "b"] n = some (.ok ps) :=
  validation_complete scenario1 scenario1_first scenario1_follow scenario1_table
    ⟨by decide, by decide, by decide, by decide, by decide, by decide, by decide⟩
    (by decide) (by decide) rfl ["a", "b"] (by decide)
    (Derives.step _ _ _ (DerivStep.mk [] [] "S" ["a", "S", "b"] (by decide))
      (Derives.step _ _ _ (DerivStep.mk ["a"] ["b"] "S" ["epsilon"] (by decide))
        (Derives.done _)))


/-! ## Termination of `parse_sequence` -/

theorem seq_step_coarse (g : Grammar) (table : LL1Table) (toks : List String) (X : String)
    (st1 : List String) (i : Nat) (used : List (String × List String)) :
    (∃ r, seq_step g table toks ⟨X :: st1, i, used⟩ = .halt r) ∨
    ((X ∈ g.terminals ∨ X = ENDMARK) ∧ toks[i]? = some X ∧
      seq_step g table toks ⟨X :: st1, i, used⟩ = .next ⟨st1, i + 1, used⟩) ∨
    (∃ rhs c, toks[i]? = some c ∧ X ∈ g.nonterminals ∧ cell table X c = some rhs ∧
      seq_step g table toks ⟨X :: st1, i, used⟩
        = .next ⟨(if rhs = [EPSILON] then [] else rhs) ++ st1, i, used ++ [(X, rhs)]⟩) := by
  rcases seq_step_cases g table toks ⟨X :: st1, i, used⟩ with ⟨h0, _⟩ | ⟨top, st2, hst, hc⟩
  · simp at h0
  · simp only [List.cons.injEq] at hst
    obtain ⟨rfl, rfl⟩ := hst
    rcases hc with ⟨_, he⟩ | ⟨current, hcur, hc⟩
    · exact Or.inl ⟨_, he⟩
    · rcases hc with ⟨ht, htc, ⟨_, _, he⟩ | ⟨hnc, he⟩⟩ | ⟨_, _, he⟩ | ⟨_, _, _, _, he⟩ |
        ⟨_, hne, hA, rhs, hcell, ⟨_, _, he⟩ | ⟨_, he⟩⟩ | ⟨_, _, _, he⟩
      · exact Or.inl ⟨_, he⟩
      · exact Or.inr (Or.inl ⟨ht, by rw [htc]; exact hcur, he⟩)
      · exact Or.inl ⟨_, he⟩
      · exact Or.inl ⟨_, he⟩
      · exact Or.inl ⟨_, he⟩
      · refine Or.inr (Or.inr ⟨rhs, current, hcur, hA, hcell, ?_⟩)
        rw [he]
        by_cases hr : rhs = [EPSILON] <;> simp [hr]
      · exact Or.inl ⟨_, he⟩

theorem halts_nil (g : Grammar) (table : LL1Table) (toks : List String) (i : Nat) :
    Halts g table toks [] i :=
  fun used => ⟨1, .ok used, rfl⟩

theorem halts_of_halt (g : Grammar) (table : LL1Table) (toks : List String) (s : SeqState)
    (r : Except ParseError (List (String × List String)))
    (h : seq_step g table toks s = .halt r) :
    ∃ n r1, run_loop (seq_step g table toks) n s = some r1 :=
  ⟨1, r, by simp [run_loop, h]⟩

theorem halts_of_next (g : Grammar) (table : LL1Table) (toks : List String) (s s1 : SeqState)
    (h : seq_step g table toks s = .next s1)
    (h1 : ∃ n r, run_loop (seq_step g table toks) n s1 = some r) :
    ∃ n r, run_loop (seq_step g table toks) n s = some r := by
  obtain ⟨n, r, hn⟩ := h1
  exact ⟨n + 1, r, run_loop_next _ _ _ h n r hn⟩

/-- When the table cell of `(A, c)` is known to hold `rhs`, the parser with `A`
on top and `c` under the cursor halts as soon as it halts with `A` replaced by
`rhs`. -/
theorem halts_expand (g : Grammar) (table : LL1Table) (toks : List String) (A c : String)
    (rhs rest : List String) (i : Nat) (hcur : toks[i]? = some c)
    (hAt : A ∉ g.terminals) (hAe : A ≠ ENDMARK) (hcell : cell table A c = some rhs)
    (h : Halts g table toks ((if rhs = [EPSILON] then [] else rhs) ++ rest) i) :
    Halts g table toks (A :: rest) i := by
  intro used
  rcases seq_step_coarse g table toks A rest i used with ⟨r, he⟩ | ⟨ht, _, _⟩ |
    ⟨rhs1, c1, hcur1, _, hcell1, he⟩
  · exact halts_of_halt g table toks _ r he
  · rcases ht with ht | ht
    · exact absurd ht hAt
    · exact absurd ht hAe
  · rw [hcur] at hcur1
    simp only [Option.some.injEq] at hcur1
    subst hcur1
    rw [hcell] at hcell1
    simp only [Option.some.injEq] at hcell1
    subst hcell1
    exact halts_of_next g table toks _ _ he (h _)

theorem halts_append (g : Grammar) (table : LL1Table) (toks : List String) (i : Nat)
    (l rest : List String)
    (hl : ∀ Y ∈ l, ∀ rest1, Halts g table toks rest1 i → Halts g table toks (Y :: rest1) i)
    (h : Halts g table toks rest i) : Halts g table toks (l ++ rest) i := by
  induction l with
  | nil => exact h
  | cons Y l1 ih =>
    exact hl Y (by simp) _ (ih (fun Z hZ => hl Z (List.mem_cons_of_mem _ hZ)))

theorem follow_closed_pair (g : Grammar) (F W : FirstFollow) (hp : Proper g)
    (hF : compute_first_sets g = some F) (hW : compute_follow_sets g F = some W)
    (A : String) (pre post : List String) (X : String)
    (hA : (A, pre ++ X :: post) ∈ production_pairs g) (hne : pre ++ X :: post ≠ [EPSILON])
    (hX : X ∈ g.nonterminals) :
    (∀ a, seq_first F post a → a ∈ get W X) ∧
    (seq_nullable F post → ∀ a ∈ get W A, a ∈ get W X) := by
  obtain ⟨alts, h1, h2⟩ := (mem_production_pairs g A _).1 hA
  have hc := (compute_follow_sets_closed g F W hW).1 (A, alts) h1 _ h2
  have hdecl : ∀ Y ∈ pre ++ X :: post, Y ∈ g.terminals ∨ Y ∈ g.nonterminals := by
    rcases hp.rhs _ hA with h | h
    · exact absurd h hne
    · exact h.2
  exact follow_closed_sem g F W hp hF A pre post X hc hX
    (fun Y hY => hdecl Y (by simp [hY]))

/-- A nullable symbol on top of the stack is passed without reading input when
the token under the cursor is in its FOLLOW set. -/
theorem halts_null (g : Grammar) (F W : FirstFollow) (T : LL1Table) (hp : Proper g)
    (hF : compute_first_sets g = some F) (hW : compute_follow_sets g F = some W)
    (hT : build_ll1_table g F W = .ok T) (toks : List String) (Z : String) (h : NullD g Z) :
    ∀ c i, toks[i]? = some c → c ∈ get W Z → ∀ rest, Halts g T toks rest i →
      Halts g T toks (Z :: rest) i := by
  induction h with
  | mk A rhs hA hall ih =>
    intro c i hcur hc rest hrest
    have hAn : A ∈ g.nonterminals := hp.lhs _ hA
    have hAt : A ∉ g.terminals := fun h => hp.disj A h hAn
    have hAe : A ≠ ENDMARK := fun h => hp.end_n (by rw [← h]; exact hAn)
    have hnull : seq_nullable F (if rhs = [EPSILON] then [] else rhs) := by
      by_cases he : rhs = [EPSILON]
      · simp [he, seq_nullable]
      · rw [if_neg he, seq_nullable_iff]
        exact fun Y hY => first_complete_null g F hp hF Y (hall he Y hY)
    have hcell := cell_of_sem g F W T hT A c rhs hA (Or.inr ⟨hnull, hc⟩)
    apply halts_expand g T toks A c rhs rest i hcur hAt hAe hcell
    by_cases he : rhs = [EPSILON]
    · simpa [he] using hrest
    · rw [if_neg he]
      apply halts_append g T toks i rhs rest _ hrest
      intro Y hY rest1 hrest1
      obtain ⟨p1, p2, hsplit⟩ := List.append_of_mem hY
      have hYn : Y ∈ g.nonterminals := null_nonterminal g hp Y (hall he Y hY)
      have hfc := follow_closed_pair g F W hp hF hW A p1 p2 Y (by rw [← hsplit]; exact hA)
        (by rw [← hsplit]; exact he) hYn
      have hp2 : seq_nullable F p2 := by
        rw [seq_nullable_iff]
        intro Y1 hY1
        exact first_complete_null g F hp hF Y1 (hall he Y1 (by rw [hsplit]; simp [hY1]))
      exact ih he Y hY c i hcur (hfc.2 hp2 c hc) rest1 hrest1


/-- A symbol that begins the token under the cursor is worked off until that
token is read, so the parser halts when it halts from every stack one token
further on. -/
theorem halts_first (g : Grammar) (F W : FirstFollow) (T : LL1Table) (hp : Proper g)
    (hF : compute_first_sets g = some F) (hW : compute_follow_sets g F = some W)
    (hT : build_ll1_table g F W = .ok T) (toks : List String) (Y c : String)
    (h : FirstD g Y c) :
    ∀ i, toks[i]? = some c → (∀ st, Halts g T toks st (i + 1)) → ∀ rest,
      Halts g T toks (Y :: rest) i := by
  induction h with
  | self X hX _ =>
    intro i _ hnext rest used
    rcases seq_step_coarse g T toks X rest i used with ⟨r, he⟩ | ⟨_, _, he⟩ |
      ⟨_, _, _, hXn, _, _⟩
    · exact halts_of_halt g T toks _ r he
    · exact halts_of_next g T toks _ _ he (hnext rest used)
    · exact absurd hXn hX
  | prod A pre Y post c hprod hne hpre hY ih =>
    intro i hcur hnext rest
    have hAn : A ∈ g.nonterminals := hp.lhs _ hprod
    have hAt : A ∉ g.terminals := fun h => hp.disj A h hAn
    have hAe : A ≠ ENDMARK := fun h => hp.end_n (by rw [← h]; exact hAn)
    have hdecl : ∀ X ∈ pre ++ Y :: post, X ∈ g.terminals ∨ X ∈ g.nonterminals := by
      rcases hp.rhs _ hprod with h | h
      · exact absurd h hne
      · exact h.2
    have hYc := first_complete_first g F hp hF Y c (hdecl Y (by simp)) hY
    have hpreF : ∀ Z ∈ pre, EPSILON ∈ sym_first F Z :=
      fun Z hZ => first_complete_null g F hp hF Z (hpre Z hZ)
    have hsf : seq_first F (pre ++ Y :: post) c :=
      (seq_first_iff F _ c).2 ⟨pre, Y, post, rfl, hpreF, hYc.1, hYc.2⟩
    have hcell := cell_of_sem g F W T hT A c _ hprod (Or.inl (by rw [if_neg hne]; exact hsf))
    apply halts_expand g T toks A c _ rest i hcur hAt hAe hcell
    rw [if_neg hne, List.append_assoc]
    apply halts_append g T toks i pre _ _ (ih i hcur hnext _)
    intro Z hZ rest1 hrest1
    obtain ⟨p1, p2, hsplit⟩ := List.append_of_mem hZ
    have hZn : Z ∈ g.nonterminals := null_nonterminal g hp Z (hpre Z hZ)
    have e : pre ++ Y :: post = p1 ++ Z :: (p2 ++ Y :: post) := by rw [hsplit]; simp
    have hfc := follow_closed_pair g F W hp hF hW A p1 (p2 ++ Y :: post) Z
      (by rw [← e]; exact hprod) (by rw [← e]; exact hne) hZn
    have hcZ : c ∈ get W Z := by
      apply hfc.1 c
      rw [seq_first_iff]
      exact ⟨p2, Y, post, rfl, fun Z1 hZ1 => hpreF Z1 (by rw [hsplit]; simp [hZ1]),
        hYc.1, hYc.2⟩
    exact halts_null g F W T hp hF hW hT toks Z (hpre Z hZ) c i hcur hcZ rest1 hrest1

theorem halts_all (g : Grammar) (F W : FirstFollow) (T : LL1Table) (hp : Proper g)
    (hF : compute_first_sets g = some F) (hW : compute_follow_sets g F = some W)
    (hT : build_ll1_table g F W = .ok T) (toks : List String) :
    ∀ m i, toks.length ≤ i + m → ∀ st, Halts g T toks st i := by
  intro m
  induction m with
  | zero =>
    intro i hi st
    have hnone : toks[i]? = none := List.getElem?_eq_none (by omega)
    cases st with
    | nil => exact halts_nil g T toks i
    | cons X rest =>
      intro used
      rcases seq_step_coarse g T toks X rest i used with ⟨r, he⟩ | ⟨_, hcur, _⟩ |
        ⟨_, _, hcur, _, _, _⟩
      · exact halts_of_halt g T toks _ r he
      · rw [hnone] at hcur; cases hcur
      · rw [hnone] at hcur; cases hcur
  | succ m ih =>
    intro i hi st
    have hnext : ∀ st, Halts g T toks st (i + 1) := ih (i + 1) (by omega)
    induction st with
    | nil => exact halts_nil g T toks i
    | cons X rest ihst =>
      intro used
      rcases seq_step_coarse g T toks X rest i used with ⟨r, he⟩ | ⟨_, _, he⟩ |
        ⟨rhs, c, hcur, hXn, hcell, _⟩
      · exact halts_of_halt g T toks _ r he
      · exact halts_of_next g T toks _ _ he (hnext rest used)
      · obtain ⟨hpair, hcond⟩ := (cell_of_build g F W T hT X c rhs).1 hcell
        have hclosed := first_closed_pair g F hp hF X rhs hpair
        rcases hcond with hA | ⟨hB, hcW⟩
        · have hsf := ((fos_sem F rhs).1 c).1 hA
          have hne : rhs ≠ [EPSILON] := by
            intro he
            rw [if_pos he] at hsf
            exact hsf
          rw [if_neg hne] at hsf
          have hcX := (hclosed.2 hne).1 c hsf
          have hfd := (first_sound g F hp hF X (Or.inr hXn) c hcX).2 hA.2
          exact halts_first g F W T hp hF hW hT toks X c hfd i hcur hnext rest used
        · have hsn := (fos_sem F rhs).2.1 hB
          have heX : EPSILON ∈ sym_first F X := by
            by_cases he : rhs = [EPSILON]
            · exact hclosed.1 he
            · rw [if_neg he] at hsn
              exact (hclosed.2 he).2 hsn
          have hnd := (first_sound g F hp hF X (Or.inr hXn) EPSILON heX).1 rfl
          exact halts_null g F W T hp hF hW hT toks X hnd c i hcur hcW rest ihst used

/-- C16 (the parser terminates): for a grammar whose declared terminals and
nonterminals are disjoint and hold neither epsilon nor the end-marker, whose
left-hand sides are declared nonterminals and whose right-hand sides are each
exactly `[epsilon]` or a non-empty sequence of declared symbols, and whose table
was built without conflict from the computed FIRST and FOLLOW sets, the loop of
`parse_sequence` leaves after finitely many iterations on every token list:
some amount of fuel yields a result, a production list or an error. -/
theorem parser_terminates (g : Grammar) (F W : FirstFollow) (T : LL1Table) (hp : Proper g)
    (hF : compute_first_sets g = some F) (hW : compute_follow_sets g F = some W)
    (hT : build_ll1_table g F W = .ok T) (tokens : List String) :
    ∃ n r, parse_sequence g T tokens n = some r :=
  halts_all g F W T hp hF hW hT (tokens ++ [ENDMARK]) (tokens ++ [ENDMARK]).length 0
    (by omega) [g.start_symbol, ENDMARK] []

theorem parser_terminates_witness :
    ∃ n r, parse_sequence scenario1 scenario1_table ["b", "a", "c"] n = some r :=
  parser_terminates scenario1 scenario1_first scenario1_follow scenario1_table
    ⟨by decide, by decide, by decide, by decide, by decide, by decide, by decide⟩
    (by decide) (by decide) rfl ["b", "a", "c"]


/-! ## FOLLOW sets and sentential forms -/

theorem follow_ok_drop (g : Grammar) (F W : FirstFollow) (α l : List String)
    (h : FollowOK g F W (α ++ l)) : FollowOK g F W l := by
  intro pre X post he hX
  exact h (α ++ pre) X post (by rw [he, List.append_assoc]) hX

theorem follow_ok_step (g : Grammar) (F W : FirstFollow) (hp : Proper g)
    (hF : compute_first_sets g = some F) (hW : compute_follow_sets g F = some W)
    (u v : List String) (hs : DerivStep g u v) (h : FollowOK g F W u) : FollowOK g F W v := by
  cases hs with
  | mk α β A rhs hA =>
    have hexp := follow_ok_expand g F W hp hF hW A rhs β hA (follow_ok_drop g F W α _ h)
    intro pre X post hsplit hX
    rcases List.append_eq_append_iff.1 hsplit with ⟨a1, _, h4⟩ | ⟨c1, h3, h4⟩
    · exact hexp a1 X post h4 hX
    · cases c1 with
      | nil =>
        simp only [List.nil_append] at h4
        exact hexp [] X post h4.symm hX
      | cons y c2 =>
        simp only [List.cons_append, List.cons.injEq] at h4
        obtain ⟨h5, h6⟩ := h4
        subst h5
        have hold := h pre X (c2 ++ A :: β) (by rw [h3]; simp) hX
        have hback := deriv_step_first g F hp hF _ _ (DerivStep.mk c2 β A rhs hA)
        rw [h6]
        exact ⟨fun a ha => hold.1 a (hback.1 a ha), fun hn => hold.2 (hback.2 hn)⟩

theorem follow_ok_derives (g : Grammar) (F W : FirstFollow) (hp : Proper g)
    (hF : compute_first_sets g = some F) (hW : compute_follow_sets g F = some W)
    (u v : List String) (hd : Derives g u v) (h : FollowOK g F W u) : FollowOK g F W v := by
  induction hd with
  | done u => exact h
  | step u v1 w hs _ ih => exact ih (follow_ok_step g F W hp hF hW u v1 hs h)

theorem first_terminal (g : Grammar) (hp : Proper g) (Y c : String)
    (hY : Y ∈ g.terminals ∨ Y ∈ g.nonterminals) (h : FirstD g Y c) : c ∈ g.terminals := by
  induction h with
  | self X hX _ =>
    rcases hY with h | h
    · exact h
    · exact absurd h hX
  | prod A pre Y1 post c hprod hne _ _ ih =>
    apply ih
    rcases hp.rhs _ hprod with h | h
    · exact absurd h hne
    · exact h.2 Y1 (by simp)

theorem follow_closed_scan_of_sem (g : Grammar) (F U : FirstFollow) (hp : Proper g)
    (hF : compute_first_sets g = some F) (t0 : SetSS) (rhs : List String)
    (hdecl : ∀ X ∈ rhs, X ∈ g.terminals ∨ X ∈ g.nonterminals)
    (h : ∀ pre X post, rhs = pre ++ X :: post → X ∈ g.nonterminals →
      ∀ a, (seq_first F post a ∨ (seq_nullable F post ∧ a ∈ t0)) → a ∈ get U X) :
    follow_closed_scan g F U rhs.reverse t0 := by
  have key : ∀ pre l, rhs = pre ++ l →
      follow_closed_scan g F U pre.reverse (scan_trailer g F l.reverse t0) := by
    intro pre
    induction pre using List.reverseRecOn with
    | nil => intro l _; simp [follow_closed_scan]
    | append_singleton pre1 X ih =>
      intro l hl
      have hl1 : rhs = pre1 ++ X :: l := by rw [hl]; simp
      have hl2 : ∀ Y ∈ l, Y ∈ g.terminals ∨ Y ∈ g.nonterminals :=
        fun Y hY => hdecl Y (by rw [hl1]; simp [hY])
      have ih1 := ih (X :: l) hl1
      rw [List.reverse_cons, scan_trailer_append] at ih1
      simp only [scan_trailer] at ih1
      rw [List.reverse_append, List.reverse_singleton, List.singleton_append]
      unfold follow_closed_scan
      by_cases hX : is_nonterminal g X = true
      · rw [if_pos hX] at ih1 ⊢
        refine ⟨fun a ha => ?_, ih1⟩
        exact h pre1 X l hl1 (by simpa [is_nonterminal] using hX) a
          ((mem_scan_trailer g F hp hF t0 l hl2 a).1 ha)
      · rw [if_neg hX] at ih1 ⊢
        exact ih1
  have := key rhs [] (by simp)
  simpa [scan_trailer] using this


theorem derives_step_at (g : Grammar) (u α β : List String) (A : String) (rhs : List String)
    (hA : (A, rhs) ∈ production_pairs g) (h : Derives g u (α ++ A :: β)) :
    Derives g u (α ++ ((if rhs = [EPSILON] then [] else rhs) ++ β)) :=
  derives_trans g _ _ _ h (Derives.step _ _ _ (DerivStep.mk α β A rhs hA) (Derives.done _))

/-- FOLLOW is sound for sentential forms when every left-hand side can be
reached from the start symbol. -/
theorem follow_sound (g : Grammar) (F W : FirstFollow) (hp : Proper g)
    (hS : g.start_symbol ∈ g.nonterminals)
    (hreach : ∀ p ∈ production_pairs g, ∃ α β, Derives g [g.start_symbol] (α ++ p.1 :: β))
    (hF : compute_first_sets g = some F) (hW : compute_follow_sets g F = some W) :
    ∀ A ∈ g.nonterminals, ∀ a ∈ get W A,
      (a = ENDMARK → ∃ α, Derives g [g.start_symbol] (α ++ [A])) ∧
      (a ≠ ENDMARK → ∃ α γ, Derives g [g.start_symbol] (α ++ A :: a :: γ)) := by
  classical
  let Q : String → String → Prop := fun A a =>
    (a = ENDMARK → ∃ α, Derives g [g.start_symbol] (α ++ [A])) ∧
    (a ≠ ENDMARK → ∃ α γ, Derives g [g.start_symbol] (α ++ A :: a :: γ))
  let U : FirstFollow :=
    g.nonterminals.map (fun A => (A, (get W A).filter (fun a => decide (Q A a))))
  have hU : ∀ X ∈ g.nonterminals, ∀ a, a ∈ get U X ↔ (a ∈ get W X ∧ Q X a) := by
    intro X hX a
    show a ∈ (find (g.nonterminals.map
      (fun A => (A, (get W A).filter (fun a => decide (Q A a))))) X).getD [] ↔ _
    rw [find_map_keys g.nonterminals (fun A => (get W A).filter (fun a => decide (Q A a)))]
    simp [hX]
  have hinit : ENDMARK ∈ get U g.start_symbol := by
    rw [hU _ hS]
    exact ⟨(compute_follow_sets_closed g F W hW).2,
      fun _ => ⟨[], Derives.done _⟩, fun h => absurd rfl h⟩
  have hclosed : ∀ kv ∈ g.productions, ∀ rhs ∈ kv.2, follow_closed_at g F U kv.1 rhs := by
    intro kv hkv rhs hrhs
    have hpair : (kv.1, rhs) ∈ production_pairs g :=
      (mem_production_pairs g kv.1 rhs).2 ⟨kv.2, hkv, hrhs⟩
    have hA : kv.1 ∈ g.nonterminals := hp.lhs _ hpair
    unfold follow_closed_at
    by_cases he : rhs = [EPSILON]
    · have hE : is_nonterminal g EPSILON = false := by
        simpa [is_nonterminal] using hp.eps_n
      simp [he, follow_closed_scan, hE]
    · have hdecl : ∀ X ∈ rhs, X ∈ g.terminals ∨ X ∈ g.nonterminals := by
        rcases hp.rhs _ hpair with h | h
        · exact absurd h he
        · exact h.2
      apply follow_closed_scan_of_sem g F U hp hF _ rhs hdecl
      intro pre X post hsplit hX a ha
      have hfc := follow_closed_pair g F W hp hF hW kv.1 pre post X
        (by rw [← hsplit]; exact hpair) (by rw [← hsplit]; exact he) hX
      obtain ⟨α, β, hd⟩ := hreach _ hpair
      have hd1 := derives_step_at g _ α β kv.1 rhs hpair hd
      rw [if_neg he, hsplit] at hd1
      rw [hU X hX]
      rcases ha with ha | ⟨hn, ha⟩
      · refine ⟨hfc.1 a ha, ?_⟩
        obtain ⟨p1, Y, p2, hpost, hp1, hY, hne⟩ := (seq_first_iff F post a).1 ha
        have hYd : Y ∈ g.terminals ∨ Y ∈ g.nonterminals :=
          hdecl Y (by rw [hsplit, hpost]; simp)
        have hfd := (first_sound g F hp hF Y hYd a hY).2 hne
        have hat : a ∈ g.terminals := first_terminal g hp Y a hYd hfd
        have hae : a ≠ ENDMARK := fun h => hp.end_t (by rw [← h]; exact hat)
        refine ⟨fun h => absurd h hae, fun _ => ?_⟩
        obtain ⟨rest, hrest⟩ := derives_of_first g Y a hfd
        have herase : Derives g p1 [] := by
          apply derives_erase
          intro Z hZ
          have hZd : Z ∈ g.terminals ∨ Z ∈ g.nonterminals :=
            hdecl Z (by rw [hsplit, hpost]; simp [hZ])
          exact derives_of_null g Z ((first_sound g F hp hF Z hZd EPSILON (hp1 Z hZ)).1 rfl)
        have h1 := derives_context g (α ++ pre ++ [X]) (Y :: p2 ++ β) p1 [] herase
        have h2 := derives_context g (α ++ pre ++ [X]) (p2 ++ β) [Y] (a :: rest) hrest
        refine ⟨α ++ pre, rest ++ p2 ++ β, ?_⟩
        rw [hpost] at hd1
        have e1 : α ++ ((pre ++ X :: (p1 ++ Y :: p2)) ++ β)
            = α ++ pre ++ [X] ++ p1 ++ (Y :: p2 ++ β) := by simp
        have e2 : α ++ pre ++ [X] ++ [] ++ (Y :: p2 ++ β)
            = α ++ pre ++ [X] ++ [Y] ++ (p2 ++ β) := by simp
        have e3 : α ++ pre ++ [X] ++ (a :: rest) ++ (p2 ++ β)
            = α ++ pre ++ X :: a :: (rest ++ p2 ++ β) := by simp
        rw [e1] at hd1
        rw [e2] at h1
        rw [e3] at h2
        exact derives_trans g _ _ _ hd1 (derives_trans g _ _ _ h1 h2)
      · have haA := (hU kv.1 hA a).1 ha
        refine ⟨hfc.2 hn a haA.1, ?_⟩
        have herase : Derives g post [] := by
          apply derives_erase
          intro Z hZ
          have hZd : Z ∈ g.terminals ∨ Z ∈ g.nonterminals :=
            hdecl Z (by rw [hsplit]; simp [hZ])
          exact derives_of_null g Z
            ((first_sound g F hp hF Z hZd EPSILON ((seq_nullable_iff F post).1 hn Z hZ)).1 rfl)
        constructor
        · intro hae
          obtain ⟨α1, hd2⟩ := haA.2.1 hae
          have hd3 := derives_step_at g _ α1 [] kv.1 rhs hpair hd2
          rw [if_neg he, hsplit] at hd3
          have h1 := derives_context g (α1 ++ pre ++ [X]) [] post [] herase
          refine ⟨α1 ++ pre, ?_⟩
          have e1 : α1 ++ ((pre ++ X :: post) ++ []) = α1 ++ pre ++ [X] ++ post ++ [] := by simp
          have e2 : α1 ++ pre ++ [X] ++ [] ++ [] = α1 ++ pre ++ [X] := by simp
          rw [e1] at hd3
          rw [e2] at h1
          exact derives_trans g _ _ _ hd3 h1
        · intro hae
          obtain ⟨α1, γ, hd2⟩ := haA.2.2 hae
          have hd3 := derives_step_at g _ α1 (a :: γ) kv.1 rhs hpair hd2
          rw [if_neg he, hsplit] at hd3
          have h1 := derives_context g (α1 ++ pre ++ [X]) (a :: γ) post [] herase
          refine ⟨α1 ++ pre, γ, ?_⟩
          have e1 : α1 ++ ((pre ++ X :: post) ++ a :: γ)
              = α1 ++ pre ++ [X] ++ post ++ (a :: γ) := by simp
          have e2 : α1 ++ pre ++ [X] ++ [] ++ (a :: γ) = α1 ++ pre ++ X :: a :: γ := by simp
          rw [e1] at hd3
          rw [e2] at h1
          exact derives_trans g _ _ _ hd3 h1
  have hle := compute_follow_sets_le g F W U hW hinit hclosed
  intro A hA a ha
  exact ((hU A hA a).1 (hle A a ha)).2


/-- C14 (FOLLOW equals its reference definition), for a grammar in which every
left-hand side is reachable: when the declared terminals and nonterminals are
disjoint and hold neither epsilon nor the end-marker, the start symbol and the
left-hand sides are declared nonterminals, the right-hand sides are each
exactly `[epsilon]` or a non-empty sequence of declared symbols, and every
left-hand side occurs in a sentential form derivable from the start symbol,
then `compute_follow_sets` applied to `compute_first_sets` returns a map in
which, for every declared nonterminal `A`, a terminal `t` is in `FOLLOW(A)`
exactly when a sentential form derivable from the start symbol holds `A`
immediately followed by `t`, and the end-marker is in `FOLLOW(A)` exactly when
such a form ends with `A`. -/
theorem follow_reference (g : Grammar) (hp : Proper g)
    (hS : g.start_symbol ∈ g.nonterminals)
    (hreach : ∀ p ∈ production_pairs g,
      ∃ α β, Derives g [g.start_symbol] (α ++ p.1 :: β)) :
    ∃ F W, compute_first_sets g = some F ∧ compute_follow_sets g F = some W ∧
      ∀ A ∈ g.nonterminals,
        (∀ t ∈ g.terminals, t ∈ get W A ↔
          ∃ α γ, Derives g [g.start_symbol] (α ++ A :: t :: γ)) ∧
        (ENDMARK ∈ get W A ↔ ∃ α, Derives g [g.start_symbol] (α ++ [A])) := by
  obtain ⟨F, hF⟩ := compute_first_sets_total g
  obtain ⟨W, hW⟩ := compute_follow_sets_total g F
  refine ⟨F, W, hF, hW, fun A hA => ⟨fun t ht => ⟨fun h => ?_, fun h => ?_⟩,
    ⟨fun h => ?_, fun h => ?_⟩⟩⟩
  · have hte : t ≠ ENDMARK := fun h1 => hp.end_t (by rw [← h1]; exact ht)
    exact (follow_sound g F W hp hS hreach hF hW A hA t h).2 hte
  · obtain ⟨α, γ, hd⟩ := h
    have hok := follow_ok_derives g F W hp hF hW _ _ hd (follow_ok_init g F W hW)
    apply (hok α A (t :: γ) rfl hA).1 t
    exact Or.inl ⟨sym_first_terminal g F hp hF t ht,
      fun h1 => hp.eps_t (by rw [← h1]; exact ht)⟩
  · exact (follow_sound g F W hp hS hreach hF hW A hA ENDMARK h).1 rfl
  · obtain ⟨α, hd⟩ := h
    have hok := follow_ok_derives g F W hp hF hW _ _ hd (follow_ok_init g F W hW)
    exact (hok α A [] rfl hA).2 trivial

theorem follow_reference_witness :
    ∃ F W, compute_first_sets scenario1 = some F ∧ compute_follow_sets scenario1 F = some W ∧
      ∀ A ∈ scenario1.nonterminals,
        (∀ t ∈ scenario1.terminals, t ∈ get W A ↔
          ∃ α γ, Derives scenario1 [scenario1.start_symbol] (α ++ A :: t :: γ)) ∧
        (ENDMARK ∈ get W A ↔ ∃ α, Derives scenario1 [scenario1.start_symbol] (α ++ [A])) :=
  follow_reference scenario1
    ⟨by decide, by decide, by decide, by decide, by decide, by decide, by decide⟩
    (by decide)
    (by
      intro p hp
      have h1 : p.1 = "S" := by
        simp only [production_pairs, scenario1, List.flatMap_cons, List.flatMap_nil,
          List.map_cons, List.map_nil, List.append_nil, List.mem_cons, List.mem_singleton,
          List.not_mem_nil, or_false] at hp
        rcases hp with h | h <;> rw [h]
      rw [h1]
      exact ⟨[], [], Derives.done _⟩)

theorem unreachable_forms (u v : List String) (h : Derives unreachable_lhs u v) :
    (u = ["S"] ∨ u = ["t"]) → (v = ["S"] ∨ v = ["t"]) := by
  induction h with
  | done u => exact id
  | step u v1 w hs _ ih =>
    intro hu
    apply ih
    cases hs with
    | mk α β A rhs hA =>
      have hpairs : (A = "S" ∧ rhs = ["t"]) ∨ (A = "A" ∧ rhs = ["A", "t"]) := by
        simpa [production_pairs, unreachable_lhs] using hA
      cases α with
      | nil =>
        simp only [List.nil_append, List.cons.injEq] at hu
        rcases hu with ⟨h1, h2⟩ | ⟨h1, h2⟩
        · rcases hpairs with ⟨_, h4⟩ | ⟨h3, _⟩
          · right
            rw [h4, h2]
            decide
          · rw [h1] at h3; exact absurd h3 (by decide)
        · rcases hpairs with ⟨h3, _⟩ | ⟨h3, _⟩
          · rw [h1] at h3; exact absurd h3 (by decide)
          · rw [h1] at h3; exact absurd h3 (by decide)
      | cons y α1 =>
        simp at hu

/-- C14 fails when a nonterminal cannot be reached: in the grammar `S → t`,
`A → A t`, which meets every condition of the claim, the terminal `t` is in
`FOLLOW(A)`, yet no sentential form derivable from `S` holds `A` at all. -/
theorem follow_reference_counterexample :
    Proper unreachable_lhs ∧ unreachable_lhs.start_symbol ∈ unreachable_lhs.nonterminals ∧
    "A" ∈ unreachable_lhs.nonterminals ∧ "t" ∈ unreachable_lhs.terminals ∧
    compute_first_sets unreachable_lhs
      = some [("t", ["t"]), ("S", ["t"]), ("A", []), ("epsilon", ["epsilon"])] ∧
    compute_follow_sets unreachable_lhs
        [("t", ["t"]), ("S", ["t"]), ("A", []), ("epsilon", ["epsilon"])]
      = some [("S", ["$"]), ("A", ["t"])] ∧
    "t" ∈ get [("S", ["$"]), ("A", ["t"])] "A" ∧
    ¬ ∃ α γ, Derives unreachable_lhs [unreachable_lhs.start_symbol] (α ++ "A" :: "t" :: γ) := by
  refine ⟨⟨by decide, by decide, by decide, by decide, by decide, by decide, by decide⟩,
    by decide, by decide, by decide, by decide, by decide, by decide, ?_⟩
  rintro ⟨α, γ, hd⟩
  have h := unreachable_forms _ _ hd (Or.inl rfl)
  have hl : (α ++ "A" :: "t" :: γ).length = 1 := by
    rcases h with h | h <;> rw [h] <;> rfl
  simp only [List.length_append, List.length_cons] at hl
  omega


/-! ## The tree builder past 2^31 nodes -/

theorem run_steps_add {σ ρ : Type} (step : σ → Step σ ρ) :
    ∀ (a b : Nat) (s s1 s2 : σ), run_steps step a s = some s1 →
      run_steps step b s1 = some s2 → run_steps step (a + b) s = some s2 := by
  intro a
  induction a with
  | zero =>
    intro b s s1 s2 h1 h2
    simp only [run_steps, Option.some.injEq] at h1
    subst h1
    rw [Nat.zero_add]; exact h2
  | succ a ih =>
    intro b s s1 s2 h1 h2
    have e : a + 1 + b = (a + b) + 1 := by omega
    rw [e]
    simp only [run_steps] at h1 ⊢
    cases hs : step s with
    | halt r => rw [hs] at h1; cases h1
    | next s3 =>
      rw [hs] at h1
      exact ih b s3 s1 s2 h1 h2

theorem chain_nodes_length (k : Nat) : (chain_nodes k).length = 2 * k + 1 := by
  induction k with
  | zero => rfl
  | succ k ih => simp only [chain_nodes, List.length_append, ih, List.length_cons,
      List.length_nil]; omega

theorem chain_expand (toks : List String) (N : List Node) (t : Int) (k : Nat)
    (hcur : toks[k]? = some "a") (hN : N.length < 2147483648) :
    tree_step chain chain_table toks ⟨N, [("S", t), (ENDMARK, -1)], k⟩
      = .next ⟨N ++ [Node.mk (to_int N.length) "a" t (to_int (N.length + 1)),
                  Node.mk (to_int (N.length + 1)) "S" t (-1)],
               [("a", to_int N.length), ("S", to_int (N.length + 1)), (ENDMARK, -1)], k⟩ := by
  have hcell : cell chain_table "S" "a" = some ["a", "S"] := by decide
  have h1 : (is_terminal chain "S" || decide ("S" = ENDMARK)) = false := by decide
  have h2 : is_nonterminal chain "S" = true := by decide
  have h3 : ¬ (["a", "S"] = [EPSILON]) := by decide
  have ha : alloc_children t ["a", "S"] N
      = (N ++ [Node.mk (to_int N.length) "a" t (-1),
               Node.mk (to_int (N.length + 1)) "S" t (-1)],
         [to_int N.length, to_int (N.length + 1)]) := by
    simp [alloc_children]
  have hl : link_siblings [to_int N.length, to_int (N.length + 1)]
      (N ++ [Node.mk (to_int N.length) "a" t (-1),
             Node.mk (to_int (N.length + 1)) "S" t (-1)])
      = N ++ [Node.mk (to_int N.length) "a" t (to_int (N.length + 1)),
              Node.mk (to_int (N.length + 1)) "S" t (-1)] := by
    have e : List.range ([to_int N.length, to_int (N.length + 1)].length - 1) = [0] := rfl
    unfold link_siblings
    rw [e]
    simp only [List.foldl_cons, List.foldl_nil, List.getD_cons_zero, List.getD_cons_succ]
    rw [to_int_of_lt _ hN]
    exact set_sibling_append N _ _ _
  have hp : push_children ["a", "S"] [to_int N.length, to_int (N.length + 1)]
      [(ENDMARK, -1)]
      = [("a", to_int N.length), ("S", to_int (N.length + 1)), (ENDMARK, -1)] := by
    simp [push_children, List.range_succ]
  unfold tree_step
  simp only [hcur, h1, h2, hcell, if_neg h3, ha, hl, hp]
  simp

theorem chain_match (toks : List String) (N : List Node) (x : Int) (k : Nat)
    (st : List (String × Int)) (hcur : toks[k]? = some "a") :
    tree_step chain chain_table toks ⟨N, ("a", x) :: st, k⟩ = .next ⟨N, st, k + 1⟩ := by
  have h1 : (is_terminal chain "a" || decide ("a" = ENDMARK)) = true := by decide
  have h2 : ¬ ("a" = ENDMARK ∧ st = []) := fun h => absurd h.1 (by decide)
  unfold tree_step
  simp only [hcur, h1, if_true, if_neg h2]

theorem chain_epsilon (toks : List String) (N : List Node) (t : Int) (k : Nat)
    (hcur : toks[k]? = some ENDMARK) :
    tree_step chain chain_table toks ⟨N, [("S", t), (ENDMARK, -1)], k⟩
      = .next ⟨N, [(ENDMARK, -1)], k⟩ := by
  have hcell : cell chain_table "S" ENDMARK = some ["epsilon"] := by decide
  have h1 : (is_terminal chain "S" || decide ("S" = ENDMARK)) = false := by decide
  have h2 : is_nonterminal chain "S" = true := by decide
  have h3 : (["epsilon"] : List String) = [EPSILON] := by decide
  unfold tree_step
  simp only [hcur, h1, h2, hcell, if_pos h3]
  simp

theorem chain_accept (toks : List String) (N : List Node) (k : Nat)
    (hcur : toks[k]? = some ENDMARK) :
    tree_step chain chain_table toks ⟨N, [(ENDMARK, -1)], k⟩ = .halt (.ok N) := by
  unfold tree_step
  simp [hcur]

theorem chain_run (toks : List String) :
    ∀ k, k ≤ 1073741824 → (∀ j, j < k → toks[j]? = some "a") →
      run_steps (tree_step chain chain_table toks) (2 * k)
          ⟨[Node.mk 0 chain.start_symbol (-1) (-1)],
            [(chain.start_symbol, 0), (ENDMARK, -1)], 0⟩
        = some ⟨chain_nodes k, [("S", to_int (2 * k)), (ENDMARK, -1)], k⟩ := by
  intro k
  induction k with
  | zero => intro _ _; rfl
  | succ k ih =>
    intro hk htok
    have h0 := ih (by omega) (fun j hj => htok j (by omega))
    have hcur := htok k (by omega)
    have hlen := chain_nodes_length k
    have he := chain_expand toks (chain_nodes k) (to_int (2 * k)) k hcur (by omega)
    have hm := chain_match toks
      (chain_nodes k ++ [Node.mk (to_int (chain_nodes k).length) "a" (to_int (2 * k))
          (to_int ((chain_nodes k).length + 1)),
        Node.mk (to_int ((chain_nodes k).length + 1)) "S" (to_int (2 * k)) (-1)])
      (to_int (chain_nodes k).length) k
      [("S", to_int ((chain_nodes k).length + 1)), (ENDMARK, -1)] hcur
    rw [hlen] at he hm
    have h2 : run_steps (tree_step chain chain_table toks) 2
        ⟨chain_nodes k, [("S", to_int (2 * k)), (ENDMARK, -1)], k⟩
        = some ⟨chain_nodes (k + 1), [("S", to_int (2 * (k + 1))), (ENDMARK, -1)], k + 1⟩ := by
      simp only [run_steps, he, hm, chain_nodes]
      rfl
    have := run_steps_add _ (2 * k) 2 _ _ _ h0 h2
    have e : 2 * (k + 1) = 2 * k + 2 := by omega
    rw [e]
    exact this


theorem to_int_two_pow : to_int 2147483648 = -2147483648 := by decide

theorem chain_parse (K : Nat) (hK : K ≤ 1073741824) :
    parse_with_tree chain chain_table (List.replicate K "a") (2 * K + 2)
      = some (.ok (chain_nodes K)) := by
  have htok : ∀ j, j < K → (List.replicate K "a" ++ [ENDMARK])[j]? = some "a" := by
    intro j hj
    rw [List.getElem?_append_left (by rw [List.length_replicate]; exact hj)]
    exact List.getElem?_replicate_of_lt hj
  have hend : (List.replicate K "a" ++ [ENDMARK])[K]? = some ENDMARK := by
    have := getElem_endmark (List.replicate K "a")
    rw [List.length_replicate] at this
    exact this
  have h1 := chain_run (List.replicate K "a" ++ [ENDMARK]) K hK htok
  have h2 : run_steps (tree_step chain chain_table (List.replicate K "a" ++ [ENDMARK])) 1
      ⟨chain_nodes K, [("S", to_int (2 * K)), (ENDMARK, -1)], K⟩
      = some ⟨chain_nodes K, [(ENDMARK, -1)], K⟩ := by
    simp only [run_steps, chain_epsilon _ _ _ _ hend]
  have h3 := run_steps_add _ (2 * K) 1 _ _ _ h1 h2
  exact run_steps_loop _ (2 * K + 1) _ _ _ h3 (chain_accept _ _ _ hend)

theorem chain_nodes_tail (K k : Nat) (hK : K = k + 1) :
    (chain_nodes K)[2 * k + 1]?
      = some (Node.mk (to_int (2 * k + 1)) "a" (to_int (2 * k)) (to_int (2 * k + 2))) ∧
    (chain_nodes K)[2 * k + 2]?
      = some (Node.mk (to_int (2 * k + 2)) "S" (to_int (2 * k)) (-1)) := by
  subst hK
  have hlen := chain_nodes_length k
  simp only [chain_nodes]
  constructor
  · rw [List.getElem?_append_right (by omega)]
    simp [hlen]
  · rw [List.getElem?_append_right (by omega)]
    have e : 2 * k + 2 - (chain_nodes k).length = 1 := by omega
    rw [e]
    rfl

/-- C9 fails once the node array outgrows the `int` index: on 2^30 tokens `a`
the grammar `S → a S | epsilon`, whose table is `chain_table`, is parsed to an
array of 2^31 + 1 nodes, and the node at position 2^31 carries the index field
`(int)2^31 = -2^31`, not its position. -/
theorem tree_root_and_fathers_counterexample :
    (∃ F W, compute_first_sets chain = some F ∧ compute_follow_sets chain F = some W ∧
      build_ll1_table chain F W = .ok chain_table) ∧
    ∃ fuel nodes,
      parse_with_tree chain chain_table (List.replicate 1073741824 "a") fuel
        = some (.ok nodes) ∧
      ¬ (∀ (k : Nat) (n : Node), nodes[k]? = some n → n.index = (k : Int)) := by
  refine ⟨⟨[("a", ["a"]), ("S", ["a", "epsilon"]), ("epsilon", ["epsilon"])],
    [("S", ["$"])], by decide, by decide, rfl⟩, ?_⟩
  refine ⟨_, _, chain_parse 1073741824 (le_refl _), ?_⟩
  intro h
  have h1 := (chain_nodes_tail 1073741824 1073741823 (by decide)).2
  have h2 := h _ _ h1
  have e : (2 * 1073741823 + 2 : Nat) = 2147483648 := by decide
  simp only [e, to_int_two_pow] at h2
  omega

/-- C10 fails once the node array outgrows the `int` index: in the array built
for 2^30 tokens `a`, the nodes at positions 2^31 - 1 and 2^31 are the children
of the node at position 2^31 - 2, and the first of them has the sibling field
`(int)2^31 = -2^31`, not the position 2^31 of the second. -/
theorem tree_sibling_chain_counterexample :
    (∃ F W, compute_first_sets chain = some F ∧ compute_follow_sets chain F = some W ∧
      build_ll1_table chain F W = .ok chain_table) ∧
    ∃ fuel nodes,
      parse_with_tree chain chain_table (List.replicate 1073741824 "a") fuel
        = some (.ok nodes) ∧
      (∃ (j : Nat) (m : Node), nodes[j]? = some m ∧ m.father = ((2147483646 : Nat) : Int)) ∧
      ¬ ∃ (c : Nat) (rhs : List String) (np : Node) (a : String),
        nodes[2147483646]? = some np ∧ cell chain_table np.symbol a = some rhs ∧
        (∀ (j : Nat) (m : Node), nodes[j]? = some m →
          (m.father = ((2147483646 : Nat) : Int) ↔ c ≤ j ∧ j < c + rhs.length)) ∧
        (∀ j, j < rhs.length → ∃ m : Node, nodes[c + j]? = some m ∧
          rhs[j]? = some m.symbol ∧
          m.sibling = if j + 1 < rhs.length then ((c + j + 1 : Nat) : Int) else -1) := by
  refine ⟨⟨[("a", ["a"]), ("S", ["a", "epsilon"]), ("epsilon", ["epsilon"])],
    [("S", ["$"])], by decide, by decide, rfl⟩, ?_⟩
  have ht := chain_nodes_tail 1073741824 1073741823 (by decide)
  have e1 : (2 * 1073741823 + 1 : Nat) = 2147483647 := by decide
  have e2 : (2 * 1073741823 + 2 : Nat) = 2147483648 := by decide
  have e3 : (2 * 1073741823 : Nat) = 2147483646 := by decide
  have ef : to_int 2147483646 = ((2147483646 : Nat) : Int) := to_int_of_lt _ (by decide)
  simp only [e1, e2, e3, to_int_two_pow, ef] at ht
  obtain ⟨ha, hs⟩ := ht
  refine ⟨_, _, chain_parse 1073741824 (le_refl _), ⟨2147483647, _, ha, rfl⟩, ?_⟩
  rintro ⟨c, rhs, np, a, _, _, hfa, hsib⟩
  have h1 := (hfa 2147483647 _ ha).1 rfl
  have h2 := (hfa 2147483648 _ hs).1 rfl
  obtain ⟨m, hm1, _, hm3⟩ := hsib (2147483647 - c) (by omega)
  have e4 : c + (2147483647 - c) = 2147483647 := by omega
  rw [e4, ha] at hm1
  simp only [Option.some.injEq] at hm1
  rw [← hm1, if_pos (by omega)] at hm3
  simp only at hm3
  omega

end FLCD
